import Mathlib

/-!
# LCAT consensus core (`src/mecat2cns/reads_correction_aux.{h,cpp}`)

A shallow embedding of the alignment normaliser (`normalize_gaps`), the window
identity filter (`slide_window2`), the alignment pool (`CnsAln`, `CnsAlns`) and the
work partitioner (`build_cns_thrd_data_can`), followed by theorems about them.

Conventions of the embedding
* `std::string` and `char` buffers are `List Char`; an index is a `Nat`.
* `index_t` and `idx_t` (declared in `common/defs.h`, which is not part of the
  sources at hand) are signed 64-bit integers; they are embedded as `Int`. Read
  identifiers and string lengths are far below `2^63`, so no operation of the
  embedded functions wraps.
* Code that can leave defined behaviour returns `Except Fault _`.
-/

set_option autoImplicit false

namespace LCAT

/-- Ways in which an embedded function can fail to return normally. -/
inductive Fault where
  /-- an `r_assert` failed (the program aborts) -/
  | assertion
  /-- an object is read or written outside its bounds, or `substr` throws
  `std::out_of_range` -/
  | out_of_bounds
  /-- a loop of the embedding used up its iteration budget -/
  | out_of_fuel
  /-- an integer division by zero -/
  | division_by_zero
  deriving DecidableEq, Repr

deriving instance DecidableEq for Except

/-- The gap symbol, `kGap` in `normalize_gaps` and `GAP` in `CnsAln`. -/
def kGap : Char := '-'

/-- The terminating character `'\0'` of a C string and of `std::string`. -/
def NUL : Char := Char.ofNat 0

/-- Reading `s[i]` for a NUL-terminated `const char*` or a `std::string`: position
`size()` holds the terminator, anything further is outside the object. -/
def str_at (s : List Char) (i : Nat) : Except Fault Char :=
  if h : i < s.length then .ok s[i]
  else if i = s.length then .ok NUL
  else .error .out_of_bounds

/-- Writing `s[i] = c` on a `std::string`: only positions below `size()` may be
changed. -/
def str_set (s : List Char) (i : Nat) (c : Char) : Except Fault (List Char) :=
  if i < s.length then .ok (s.set i c) else .error .out_of_bounds

/-! ## `normalize_gaps` (reads_correction_aux.cpp, lines 3-82) -/

/-- Lines 21-32: the loop `for (i = 0; i < aln_size; ++i)` that turns mismatches
into indels. The first argument is the number of iterations still to run, `i` the
loop variable, `qnorm` and `tnorm` the output strings built so far. -/
def convert_mismatches (qstr tstr : List Char) :
    Nat → Nat → List Char → List Char → Except Fault (List Char × List Char)
  | 0, _, qnorm, tnorm => .ok (qnorm, tnorm)
  | n + 1, i, qnorm, tnorm => do
    let qc ← str_at qstr i
    let tc ← str_at tstr i
    if qc ≠ tc ∧ qc ≠ kGap ∧ tc ≠ kGap then
      convert_mismatches qstr tstr n (i + 1) (qnorm ++ [kGap, qc]) (tnorm ++ [tc, kGap])
    else
      convert_mismatches qstr tstr n (i + 1) (qnorm ++ [qc]) (tnorm ++ [tc])

/-- Lines 45-53 and 59-67 up to the `break`: starting from `j`, the loop
`while (1) { c = s[++j]; if (c != kGap || j > len - 1) break; }`.
Returns the values of `j` and `c` at the `break`. -/
def scan_gap_run (s : List Char) (len : Int) : Nat → Nat → Except Fault (Nat × Char)
  | 0, _ => .error .out_of_fuel
  | fuel + 1, j => do
    let c ← str_at s (j + 1)
    if c ≠ kGap ∨ ((j + 1 : Nat) : Int) > len - 1 then .ok (j + 1, c)
    else scan_gap_run s len fuel (j + 1)

/-- Lines 42-54 (push target gaps) and, with the roles of the two strings
exchanged, lines 56-68 (push query gaps): `own` is the string that is scanned and
rewritten, `other` the string whose character at `i` is compared, `len` the bound
used in the `break` test. -/
def push_gap_at (own other : List Char) (len : Int) (i : Nat) : Except Fault (List Char) := do
  let oi ← str_at own i
  if oi = kGap then
    let (j, c) ← scan_gap_run own len (own.length + 1) i
    let x ← str_at other i
    if c = x then
      let own1 ← str_set own i c
      str_set own1 j kGap
    else .ok own
  else .ok own

/-- Lines 39-69: the loop `for (i = 0; i < qlen - 1; ++i)`. The first argument is
the number of iterations still to run. -/
def push_gaps_loop (qlen tlen : Int) :
    Nat → Nat → List Char → List Char → Except Fault (List Char × List Char)
  | 0, _, qnorm, tnorm => .ok (qnorm, tnorm)
  | n + 1, i, qnorm, tnorm => do
    let tnorm1 ← push_gap_at tnorm qnorm qlen i
    let qnorm1 ← push_gap_at qnorm tnorm1 tlen i
    push_gaps_loop qlen tlen n (i + 1) qnorm1 tnorm1

/-- The function `normalize_gaps(qstr, tstr, aln_size, qnorm, tnorm, push)`. The
output strings are cleared on entry, so their previous contents are not an
input. The `#ifndef NDEBUG` blocks only count characters and assert the count
preservation that is proved below; they are left out. -/
def normalize_gaps (qstr tstr : List Char) (aln_size : Int) (push : Bool) :
    Except Fault (List Char × List Char) := do
  let (qnorm, tnorm) ← convert_mismatches qstr tstr aln_size.toNat 0 [] []
  let (qnorm, tnorm) ←
    if push then
      push_gaps_loop qnorm.length tnorm.length ((qnorm.length : Int) - 1).toNat 0 qnorm tnorm
    else pure (qnorm, tnorm)
  if qnorm.length = tnorm.length then .ok (qnorm, tnorm) else .error .assertion

/-- Number of non-gap characters of an aligned string. -/
def nongap_count (s : List Char) : Nat := s.countP (fun c => c != kGap)

/-- The column-by-column rewrite as the specification words it: a column whose two
characters are both non-gap and differ becomes the gap followed by the query
character on the query side and the target character followed by the gap on the
target side; every other column is copied. -/
def reference_rewrite : List Char → List Char → List Char × List Char
  | qc :: qs, tc :: ts =>
    let r := reference_rewrite qs ts
    if qc ≠ kGap ∧ tc ≠ kGap ∧ qc ≠ tc then (kGap :: qc :: r.1, tc :: kGap :: r.2)
    else (qc :: r.1, tc :: r.2)
  | _, _ => ([], [])

/-- The alphabet condition on an aligned string: bases and the gap symbol, that is,
no character is the string terminator. -/
def no_NUL (s : List Char) : Prop := ∀ c ∈ s, c ≠ NUL

/-! ## `slide_window2` (reads_correction_aux.cpp, lines 113-163) -/

/-- The call `s.substr(pos, n)` with `int` arguments: they are converted to `size_t`,
so a negative `pos` is larger than `size()` and a negative `n` is larger than any
remaining length. `substr` throws `std::out_of_range` when `pos > size()`; otherwise
it returns at most `n` characters from `pos` on. -/
def substr (s : List Char) (pos n : Int) : Except Fault (List Char) :=
  if 0 ≤ pos ∧ pos ≤ (s.length : Int) then
    .ok (if n < 0 then s.drop pos.toNat else (s.drop pos.toNat).take n.toNat)
  else .error .out_of_bounds

/-- The assignment `newstr1[index] = 'N'` with an `int` index. -/
def mask_at (newstr1 : List Char) (index : Int) : Except Fault (List Char) :=
  if 0 ≤ index then str_set newstr1 index.toNat 'N' else .error .out_of_bounds

/-- Rounding of a scaled significand to an integer: to the nearest one, and to the
even one of the two when it lies half-way between them. -/
def round_half_even (y : ℚ) : Int :=
  let f := ⌊y⌋
  let r := y - (f : ℚ)
  if r < 1 / 2 then f
  else if 1 / 2 < r then f + 1
  else if f % 2 = 0 then f else f + 1

/-- The value of type `double` nearest to the positive rational `x`: with
`2^e ≤ x < 2^(e+1)` the values of that binade are the multiples of `2^(e-52)` (a
significand of 53 bits), and `x` is rounded to the nearest of them, ties to even. -/
def round_double_pos (x : ℚ) : ℚ :=
  let e := Int.log 2 x
  (round_half_even (x / (2 : ℚ) ^ (e - 52)) : ℚ) * (2 : ℚ) ^ (e - 52)

/-- The result of an IEEE 754 binary64 operation whose exact result is `x`, in the
default rounding mode. The exponent range is not represented: the quotient of two
non-zero `int` values has a magnitude between `2^-31` and `2^31`, far from overflow
and from the subnormal numbers. -/
def round_double (x : ℚ) : ℚ :=
  if x = 0 then 0
  else if 0 < x then round_double_pos x
  else - round_double_pos (- x)

/-- The test `identity < identity_threshold` after `identity = (double)same_base / k`.
Both operands are `int` values, which a `double` holds exactly, so the quotient is
the exact quotient rounded once to the nearest `double`; the threshold is a finite
`double`, that is, a rational number, and the comparison of two such values is
exact. For `k = 0` the IEEE quotient is NaN or an infinity of the sign of
`same_base`, which is below a finite threshold only if it is negative. -/
def identity_below (same_base k : Int) (identity_threshold : ℚ) : Bool :=
  if k = 0 then decide (same_base < 0)
  else decide (round_double ((same_base : ℚ) / (k : ℚ)) < identity_threshold)

/-- Lines 126-130: `for (i = 0; i < k; ++i) if (window1.substr(i, 1) ==
window2.substr(i, 1)) ++same_base;`. The first argument is the number of
iterations still to run. -/
def count_window (window1 window2 : List Char) : Nat → Int → Int → Except Fault Int
  | 0, _, same_base => .ok same_base
  | n + 1, i, same_base => do
    let c1 ← substr window1 i 1
    let c2 ← substr window2 i 1
    count_window window1 window2 n (i + 1) (if c1 = c2 then same_base + 1 else same_base)

/-- The local variables of `slide_window2` that its loops update. -/
structure SlideState where
  same_base : Int
  window1 : List Char
  window2 : List Char
  newstr1 : List Char
  deriving DecidableEq, Repr

/-- Lines 136-147: one iteration of the loop over full windows. -/
def slide_step (str1 str2 : List Char) (k : Int) (identity_threshold : ℚ) (index : Int)
    (st : SlideState) : Except Fault SlideState := do
  let l1 ← substr st.window1 0 1
  let l2 ← substr st.window2 0 1
  let same_base := if l1 = l2 then st.same_base - 1 else st.same_base
  let window1 ← substr str1 index k
  let window2 ← substr str2 index k
  let r1 ← substr window1 (k - 1) 1
  let r2 ← substr window2 (k - 1) 1
  let same_base := if r1 = r2 then same_base + 1 else same_base
  let newstr1 ←
    if identity_below same_base k identity_threshold then mask_at st.newstr1 index
    else .ok st.newstr1
  .ok ⟨same_base, window1, window2, newstr1⟩

/-- Lines 135-148: `for (index = 1; index <= len - k; ++index)`. The first argument
is the number of iterations still to run. -/
def slide_loop (str1 str2 : List Char) (k : Int) (identity_threshold : ℚ) :
    Nat → Int → SlideState → Except Fault SlideState
  | 0, _, st => .ok st
  | n + 1, index, st => do
    let st1 ← slide_step str1 str2 k identity_threshold index st
    slide_loop str1 str2 k identity_threshold n (index + 1) st1

/-- Lines 150-161: `for (index = len - newk + 1; index < len && newk > 0; ++index)`,
the loop over the shrinking windows of the tail. `newk` is decremented in the
body, so the loop runs at most `k` times; the first argument is that budget. -/
def tail_loop (str1 str2 : List Char) (len : Int) (identity_threshold : ℚ) :
    Nat → Int → Int → SlideState → Except Fault SlideState
  | 0, _, _, _ => .error .out_of_fuel
  | fuel + 1, index, newk, st =>
    if index < len ∧ newk > 0 then do
      let l1 ← substr st.window1 0 1
      let l2 ← substr st.window2 0 1
      let same_base := if l1 = l2 then st.same_base - 1 else st.same_base
      let newk := newk - 1
      let window1 ← substr str1 index newk
      let window2 ← substr str2 index newk
      let newstr1 ←
        if identity_below same_base newk identity_threshold then mask_at st.newstr1 index
        else .ok st.newstr1
      tail_loop str1 str2 len identity_threshold fuel (index + 1) newk
        ⟨same_base, window1, window2, newstr1⟩
    else .ok st

/-- The function `slide_window2(str1, str2, newstr1, k, identity_threshold)`. The
argument `newstr1` is the content of the output string before the call, the
result its content after the call. -/
def slide_window2 (str1 str2 newstr1 : List Char) (k : Int) (identity_threshold : ℚ) :
    Except Fault (List Char) :=
  if str1.length ≠ str2.length then .ok newstr1
  else do
    let len : Int := str1.length
    let newstr1 := str1
    let window1 ← substr str1 0 k
    let window2 ← substr str2 0 k
    let same_base ← count_window window1 window2 k.toNat 0 0
    let newstr1 ←
      if identity_below same_base k identity_threshold then mask_at newstr1 0
      else .ok newstr1
    let st ← slide_loop str1 str2 k identity_threshold (len - k).toNat 1
      ⟨same_base, window1, window2, newstr1⟩
    let st ← tail_loop str1 str2 len identity_threshold (k.toNat + 1) (len - k + 1) k st
    .ok st.newstr1

/-- State of the loops of `slide_window2` on identical inputs: the windows agree,
nothing has been masked, and every position of the current window matches. -/
def same_state (a : List Char) (same_base : Int) (st : SlideState) : Prop :=
  st.window1 = st.window2 ∧ st.newstr1 = a ∧ st.same_base = same_base ∧
    (1 ≤ same_base → 1 ≤ st.window1.length)

/-! ## `CnsAln` (reads_correction_aux.h, lines 43-78) -/

/-- The struct `CnsAln`. The arrays `qaln` and `saln` (of `MAX_SEQ_SIZE` characters
in the source) are represented by the characters that `add_aln` copied into them;
the terminator behind them and the unused rest of the arrays are not represented,
so a read outside the stored characters is a fault of the embedding. -/
structure CnsAln where
  soff : Int
  send : Int
  aln_idx : Int
  aln_size : Int
  qaln : List Char
  saln : List Char
  deriving DecidableEq, Repr

/-- Reading `buf[i]` for one of the arrays of a `CnsAln`, with an `int` index. -/
def buf_at (buf : List Char) (i : Int) : Except Fault Char :=
  if 0 ≤ i then
    match buf[i.toNat]? with
    | some c => .ok c
    | none => .error .out_of_bounds
  else .error .out_of_bounds

/-- The reference parameters `qstr`, `tstr` and `sb_out` of
`retrieve_aln_subseqs`. -/
structure Extract where
  qstr : List Char
  tstr : List Char
  sb_out : Int
  deriving DecidableEq, Repr

/-- Lines 56-60: `while (soff < sb && aln_idx < aln_size - 1) { ++aln_idx;
if (saln[aln_idx] != GAP) ++soff; }`. The first argument bounds the number of
iterations. -/
def skip_loop (sb : Int) : Nat → CnsAln → Except Fault CnsAln
  | 0, _ => .error .out_of_fuel
  | fuel + 1, a =>
    if a.soff < sb ∧ a.aln_idx < a.aln_size - 1 then do
      let aln_idx := a.aln_idx + 1
      let sc ← buf_at a.saln aln_idx
      skip_loop sb fuel
        { a with aln_idx := aln_idx, soff := if sc ≠ kGap then a.soff + 1 else a.soff }
    else .ok a

/-- Lines 66-75: the loop that appends one column per iteration and returns
`false` from the function when the query character is `'N'`. The result is the
value returned (or `true` when the loop ends normally), the alignment and the two
output strings. The first argument bounds the number of iterations. -/
def extract_loop (se : Int) :
    Nat → CnsAln → List Char → List Char → Except Fault (Bool × CnsAln × List Char × List Char)
  | 0, _, _, _ => .error .out_of_fuel
  | fuel + 1, a, qstr, tstr =>
    if a.soff < se ∧ a.aln_idx < a.aln_size - 1 then do
      let aln_idx := a.aln_idx + 1
      let sc ← buf_at a.saln aln_idx
      let a1 := { a with aln_idx := aln_idx, soff := if sc ≠ kGap then a.soff + 1 else a.soff }
      let qc ← buf_at a.qaln aln_idx
      if qc = 'N' then .ok (false, a1, qstr, tstr)
      else extract_loop se fuel a1 (qstr ++ [qc]) (tstr ++ [sc])
    else .ok (true, a, qstr, tstr)

/-- Iteration budget of the two loops of `retrieve_aln_subseqs`: each iteration
increments `aln_idx`, and both loops stop at `aln_idx = aln_size - 1`. -/
def CnsAln.budget (a : CnsAln) : Nat := (a.aln_size - 1 - a.aln_idx).toNat + 1

/-- The alignment after the first loop of `retrieve_aln_subseqs` (lines 56-60);
its `aln_idx` is the first extracted column. -/
def CnsAln.skip (a : CnsAln) (sb : Int) : Except Fault CnsAln := skip_loop sb a.budget a

/-- The member function `CnsAln::retrieve_aln_subseqs(sb, se, qstr, tstr, sb_out)`.
The result holds the returned `bool`, the alignment after the call and the
reference parameters after the call (`out` is their content before the call). -/
def CnsAln.retrieve_aln_subseqs (a : CnsAln) (sb se : Int) (out : Extract) :
    Except Fault (Bool × CnsAln × Extract) :=
  if se ≤ a.soff ∨ sb ≥ a.send ∨ a.aln_idx ≥ a.aln_size - 1 then .ok (false, a, out)
  else do
    let sb_out := max a.soff sb
    let a1 ← a.skip sb
    let qc ← buf_at a1.qaln a1.aln_idx
    if qc = 'N' then .ok (false, a1, ⟨[], [], sb_out⟩)
    else do
      let sc ← buf_at a1.saln a1.aln_idx
      let (r, a2, qstr, tstr) ← extract_loop se a1.budget a1 [qc] [sc]
      .ok (r, a2, ⟨qstr, tstr, sb_out⟩)

/-- An alignment as `add_aln` stores it: the two aligned strings have `aln_size`
characters and the column index is not negative. -/
def CnsAln.Valid (a : CnsAln) : Prop :=
  0 ≤ a.aln_idx ∧ (a.qaln.length : Int) = a.aln_size ∧ (a.saln.length : Int) = a.aln_size

/-- The alignment stored by `add_aln(soff, send, qstr, tstr)` (lines 119-133). -/
def CnsAln.stored (soff send : Int) (qstr tstr : List Char) : CnsAln :=
  { soff := soff, send := send, aln_idx := 0, aln_size := qstr.length, qaln := qstr, saln := tstr }

/-- Columns `lo ≤ c < hi` of an aligned string. -/
def seg (l : List Char) (lo hi : Nat) : List Char := (l.take hi).drop lo

/-- What `retrieve_aln_subseqs` never changes, and the direction in which it moves
the cursor: `a1` is a later state of the alignment `a`. -/
def CnsAln.Later (a a1 : CnsAln) : Prop :=
  a1.send = a.send ∧ a1.aln_size = a.aln_size ∧ a1.qaln = a.qaln ∧ a1.saln = a.saln ∧
    a.aln_idx ≤ a1.aln_idx ∧ a.soff ≤ a1.soff

/-- An aligned string without its gap symbols: the bases it holds, in order. -/
def remove_gaps (s : List Char) : List Char := s.filter (fun c => c != kGap)

/-- Number of target bases before column `c`: the target coordinate of the base in
column `c`, counted from the start of the alignment. -/
def target_pos (saln : List Char) (c : Nat) : Nat := nongap_count (saln.take c)

/-! ## `CnsAlns` (reads_correction_aux.h, lines 80-145) -/

/-- The macro `MAX_CNS_OVLPS` (line 34). -/
def MAX_CNS_OVLPS : Nat := 100

/-- The class `CnsAlns`: the array `cns_alns_`, allocated by the constructor with
`MAX_CNS_OVLPS` entries, and the counter `num_alns_`. Entries at or behind
`num_alns_` hold whatever an earlier use left there. -/
structure CnsAlns where
  cns_alns_ : List CnsAln
  num_alns_ : Int
  deriving DecidableEq, Repr

/-- The member function `clear()` (line 97). -/
def CnsAlns.clear (p : CnsAlns) : CnsAlns := { p with num_alns_ := 0 }

/-- The member function `num_alns()` (line 98). -/
def CnsAlns.num_alns (p : CnsAlns) : Int := p.num_alns_

/-- The constructor (lines 83-90): `safe_malloc` of `MAX_CNS_OVLPS` entries, whose
initial content `mem` is arbitrary, followed by `clear()`. -/
def CnsAlns.create (mem : CnsAln) : CnsAlns :=
  CnsAlns.clear { cns_alns_ := List.replicate MAX_CNS_OVLPS mem, num_alns_ := 0 }

/-- The expression `cns_alns_[num_alns_++]` of line 108: the index of the entry that
is referred to, and the pool with the counter already incremented. -/
def CnsAlns.next_slot (p : CnsAlns) : Int × CnsAlns :=
  (p.num_alns_, { p with num_alns_ := p.num_alns_ + 1 })

/-- The member function `add_aln(soff, send, qstr, tstr)` (lines 101-135).
`MAX_SEQ_SIZE`, the size of the arrays `qaln` and `saln`, is defined outside the
sources at hand and is a parameter. The function has no test on `num_alns_`: the
entry is written wherever line 108 points, which is outside the array once
`num_alns_` has reached its size; `memcpy` and the terminator need
`qstr.size() < MAX_SEQ_SIZE`. -/
def CnsAlns.add_aln (MAX_SEQ_SIZE : Nat) (p : CnsAlns) (soff send : Int)
    (qstr tstr : List Char) : Except Fault CnsAlns :=
  if qstr.length ≠ tstr.length then .error .assertion
  else
    let (idx, p1) := p.next_slot
    if 0 ≤ idx ∧ idx < (p1.cns_alns_.length : Int) ∧ qstr.length < MAX_SEQ_SIZE ∧
        tstr.length < MAX_SEQ_SIZE then
      .ok { p1 with cns_alns_ := p1.cns_alns_.set idx.toNat (CnsAln.stored soff send qstr tstr) }
    else .error .out_of_bounds

/-- One call of `add_aln` with its four arguments. -/
structure AddCall where
  soff : Int
  send : Int
  qstr : List Char
  tstr : List Char
  deriving DecidableEq, Repr

/-- A sequence of `add_aln` calls, in order; the first fault ends it. -/
def CnsAlns.add_alns (MAX_SEQ_SIZE : Nat) : CnsAlns → List AddCall → Except Fault CnsAlns
  | p, [] => .ok p
  | p, c :: cs => do
    let p1 ← p.add_aln MAX_SEQ_SIZE c.soff c.send c.qstr c.tstr
    CnsAlns.add_alns MAX_SEQ_SIZE p1 cs

/-- The alignment that a call of `add_aln` stores. -/
def AddCall.stored (c : AddCall) : CnsAln := CnsAln.stored c.soff c.send c.qstr c.tstr

/-- A call that `add_aln` can take: strings of equal length that fit, with their
terminator, into the arrays of `MAX_SEQ_SIZE` characters. -/
def AddCall.fits (MAX_SEQ_SIZE : Nat) (c : AddCall) : Prop :=
  c.qstr.length = c.tstr.length ∧ c.qstr.length < MAX_SEQ_SIZE

/-! ## `build_cns_thrd_data_can` (reads_correction_aux.cpp, lines 172-206) -/

/-- Modelled from the spec: the struct `ExtensionCandidate` is declared outside the
sources at hand. The specification describes a record of a target id, a query id
and approximate offsets; the partitioner reads the target id `sid` only, and
`qid` stands for the rest of the record. -/
structure ExtensionCandidate where
  qid : Int
  sid : Int
  deriving DecidableEq, Repr

/-- The result of `std::sort(ec_list, ec_list + nec, CmpExtensionCandidateBySid())`:
the candidates in non-decreasing order of `sid`. The order of candidates with equal
`sid` is unspecified for `std::sort`; the embedding keeps their input order. -/
def sort_by_sid (ec_list : List ExtensionCandidate) : List ExtensionCandidate :=
  ec_list.insertionSort (fun a b => a.sid ≤ b.sid)

/-- The fields of `ConsensusThreadData` that the constructor sets from the
arguments computed by the partitioner (line 202): `thread_id = tid`, `candidates =
ec_list + i` (kept as the offset `i` into the sorted array) and `num_candidates =
j - i`. -/
structure ConsensusThreadData where
  thread_id : Int
  candidates : Nat
  num_candidates : Int
  deriving DecidableEq, Repr

/-- The candidates a context owns: `num_candidates` entries of the sorted array
from `candidates` on. -/
def ConsensusThreadData.slice (ec_list : List ExtensionCandidate) (c : ConsensusThreadData) :
    List ExtensionCandidate :=
  (ec_list.drop c.candidates).take c.num_candidates.toNat

/-- Line 201: `while (j < nec && ec_list[j].sid < max_id) ++j;`, returning the final
`j`. The first argument bounds the number of iterations. -/
def scan_group (ec_list : List ExtensionCandidate) (nec : Nat) (max_id : Int) :
    Nat → Nat → Except Fault Nat
  | 0, j => if j < nec then .error .out_of_fuel else .ok j
  | fuel + 1, j =>
    if j < nec then
      match ec_list[j]? with
      | some c => if c.sid < max_id then scan_group ec_list nec max_id fuel (j + 1) else .ok j
      | none => .error .out_of_bounds
    else .ok j

/-- Lines 197-205: the loop `while (i < nec)`, returning the contexts in the order
in which they are constructed; the context with `thread_id = tid` is the one
stored in `ppctd[tid]`. The first argument bounds the number of iterations. -/
def partition_loop (ec_list : List ExtensionCandidate) (nec : Nat) (num_reads_per_thread : Int) :
    Nat → Int → Nat → Int → Except Fault (List ConsensusThreadData)
  | 0, _, i, _ => if i < nec then .error .out_of_fuel else .ok []
  | fuel + 1, max_id, i, tid =>
    if i < nec then do
      let max_id := max_id + num_reads_per_thread
      let j ← scan_group ec_list nec max_id (nec - (i + 1)) (i + 1)
      let rest ← partition_loop ec_list nec num_reads_per_thread fuel max_id j (tid + 1)
      .ok (⟨tid, i, (j : Int) - (i : Int)⟩ :: rest)
    else .ok []

/-- The function `build_cns_thrd_data_can(ec_list, nec, min_rid, max_rid, prco, reads,
out, ppctd)`, with `nec` the length of `ec_list` and `num_threads` the field of
`prco` that is read. The result is the array `ec_list` after the call (it is sorted
in place) and the contexts in production order. Integer division truncates; a
division by zero is undefined. -/
def build_cns_thrd_data_can (ec_list : List ExtensionCandidate) (min_rid max_rid : Int)
    (num_threads : Int) : Except Fault (List ExtensionCandidate × List ConsensusThreadData) :=
  let nec := ec_list.length
  let num_reads := max_rid - min_rid + 1
  if num_threads = 0 then .error .division_by_zero
  else do
    let num_reads_per_thread := Int.tdiv (num_reads + num_threads - 1) num_threads
    let sorted := sort_by_sid ec_list
    let ctds ← partition_loop sorted nec num_reads_per_thread nec min_rid 0 0
    .ok (sorted, ctds)

/-- The target ids of the candidates of each context, in production order. -/
def context_sids (r : List ExtensionCandidate × List ConsensusThreadData) : List (List Int) :=
  r.2.map (fun c => (c.slice r.1).map ExtensionCandidate.sid)

/-- Contexts that own consecutive ranges of the sorted array, the first one
starting at offset `i`, with thread ids counting up from `tid` and at least one
candidate each. -/
def consecutive_from : Nat → Int → List ConsensusThreadData → Prop
  | _, _, [] => True
  | i, tid, c :: cs =>
    c.candidates = i ∧ c.thread_id = tid ∧ 1 ≤ c.num_candidates ∧
      consecutive_from (i + c.num_candidates.toNat) (tid + 1) cs

/-- A sequence of `retrieve_aln_subseqs` calls on one alignment, each with its
window `(sb, se)`, whatever the calls return; the result is the alignment and the
reference parameters after the last call. -/
def CnsAln.retrieve_calls : CnsAln → List (Int × Int) → Extract → Except Fault (CnsAln × Extract)
  | a, [], out => .ok (a, out)
  | a, w :: ws, out => do
    let (_, a1, out1) ← a.retrieve_aln_subseqs w.1 w.2 out
    CnsAln.retrieve_calls a1 ws out1

/-- The cursor of an alignment that was stored with the start `start`: `soff` is
the target coordinate of the last base at or before column `aln_idx`. -/
def CnsAln.OnTrack (a : CnsAln) (start : Int) : Prop :=
  a.Valid ∧ ∃ n : Nat, a.aln_idx = n ∧ n < a.saln.length ∧
    a.soff + 1 = start + nongap_count (a.saln.take (n + 1))

/-- The grouping in the words of the specification: the context number `k` (counted
from `k`, starting at offset `i`) owns the first unassigned candidate together with
the maximal run of following candidates whose `sid` is below
`min_rid + (k + 1) * span`; the next context starts right behind it, and there is
a context as long as candidates are left. -/
def maximal_runs (ec_list : List ExtensionCandidate) (min_rid span : Int) :
    Nat → Int → List ConsensusThreadData → Prop
  | i, _, [] => ec_list.length ≤ i
  | i, k, c :: cs =>
    c.candidates = i ∧ c.thread_id = k ∧ i < ec_list.length ∧ 1 ≤ c.num_candidates ∧
    i + c.num_candidates.toNat ≤ ec_list.length ∧
    (∀ m e, i < m → m < i + c.num_candidates.toNat → ec_list[m]? = some e →
      e.sid < min_rid + (k + 1) * span) ∧
    (∀ e, ec_list[i + c.num_candidates.toNat]? = some e → min_rid + (k + 1) * span ≤ e.sid) ∧
    maximal_runs ec_list min_rid span (i + c.num_candidates.toNat) (k + 1) cs

/-- No column of the aligned pair is a mismatch: at every index the two characters
are equal or one of them is the gap symbol. -/
def no_mismatch (q t : List Char) : Prop :=
  ∀ (i : Nat) (c d : Char), q[i]? = some c → t[i]? = some d → c = d ∨ c = kGap ∨ d = kGap

/-- The struct `MappingRange` (lines 36-41); the field `end` is written `end_`. -/
structure MappingRange where
  start : Int
  end_ : Int
  deriving DecidableEq, Repr

/-- Line 139: the loop `for (i = 0; i < num_alns_; ++i) ranges.push_back(
MappingRange(cns_alns_[i].soff, cns_alns_[i].send))`. The first argument is the
number of iterations still to run. -/
def mapping_ranges_loop (cns_alns_ : List CnsAln) :
    Nat → Nat → List MappingRange → Except Fault (List MappingRange)
  | 0, _, ranges => .ok ranges
  | n + 1, i, ranges =>
    match cns_alns_[i]? with
    | some a => mapping_ranges_loop cns_alns_ n (i + 1) (ranges ++ [⟨a.soff, a.send⟩])
    | none => .error .out_of_bounds

/-- The member function `get_mapping_ranges(ranges)` (lines 136-140): `ranges` is
cleared, so its previous content is not used. -/
def CnsAlns.get_mapping_ranges (p : CnsAlns) (_ranges : List MappingRange) :
    Except Fault (List MappingRange) :=
  mapping_ranges_loop p.cns_alns_ p.num_alns_.toNat 0 []

/-- A call `(begin() + i)->retrieve_aln_subseqs(sb, se, qstr, tstr, sb_out)` on entry
`i` of the pool: the alignment is updated in place. -/
def CnsAlns.retrieve_at (p : CnsAlns) (i : Nat) (sb se : Int) (out : Extract) :
    Except Fault (Bool × CnsAlns × Extract) :=
  match p.cns_alns_[i]? with
  | some a => do
    let (r, a1, out1) ← a.retrieve_aln_subseqs sb se out
    .ok (r, { p with cns_alns_ := p.cns_alns_.set i a1 }, out1)
  | none => .error .out_of_bounds

/-- The pool states reachable from `clear()` by `add_aln` calls below capacity and
`retrieve_aln_subseqs` calls on stored alignments, each with the list of the
`add_aln` calls made so far. -/
inductive CnsAlns.Reachable (MAX_SEQ_SIZE : Nat) : CnsAlns → List AddCall → Prop where
  | clear (p : CnsAlns) (h : p.cns_alns_.length = MAX_CNS_OVLPS) :
      CnsAlns.Reachable MAX_SEQ_SIZE p.clear []
  | add (p p1 : CnsAlns) (cs : List AddCall) (c : AddCall)
      (h : CnsAlns.Reachable MAX_SEQ_SIZE p cs) (hcap : p.num_alns < MAX_CNS_OVLPS)
      (hadd : p.add_aln MAX_SEQ_SIZE c.soff c.send c.qstr c.tstr = .ok p1) :
      CnsAlns.Reachable MAX_SEQ_SIZE p1 (cs ++ [c])
  | retrieve (p p1 : CnsAlns) (cs : List AddCall) (i : Nat) (sb se : Int) (out out1 : Extract)
      (r : Bool) (h : CnsAlns.Reachable MAX_SEQ_SIZE p cs) (hi : (i : Int) < p.num_alns)
      (hret : p.retrieve_at i sb se out = .ok (r, p1, out1)) :
      CnsAlns.Reachable MAX_SEQ_SIZE p1 cs

/-- What a reachable pool keeps of the `add_aln` calls `cs`: it holds one valid
alignment per call, in order, with the end given to the call and a cursor at or
behind the start given to the call. -/
def CnsAlns.Tracks (p : CnsAlns) (cs : List AddCall) : Prop :=
  p.cns_alns_.length = MAX_CNS_OVLPS ∧ p.num_alns_ = (cs.length : Int) ∧
    cs.length ≤ MAX_CNS_OVLPS ∧
    ∀ (i : Nat) (c : AddCall), cs[i]? = some c →
      ∃ a, p.cns_alns_[i]? = some a ∧ a.Valid ∧ a.send = c.send ∧ c.soff ≤ a.soff

/-- Number of indices `j` with `lo ≤ j < lo + n` at which `a` and `b` hold the same
character. -/
def match_count (a b : List Char) : Nat → Nat → Nat
  | _, 0 => 0
  | lo, n + 1 => (if a[lo]? = b[lo]? then 1 else 0) + match_count a b (lo + 1) n

/-- The naive rule for position `i`, whose character in `a` is `c`: the window is
`[i, min(i + k, n))`, and the position is masked when the share of matching
positions of the window, divided in `double` as the code divides, is below the
threshold. -/
def naive_char (a b : List Char) (k : Nat) (tau : ℚ) (i : Nat) (c : Char) : Char :=
  if round_double (((match_count a b i (min (i + k) a.length - i) : Nat) : ℚ) /
      ((min (i + k) a.length - i : Nat) : ℚ)) < tau then 'N' else c

/-- The masked copy of `a` by the naive definition: every position is decided on
its own window, counted afresh. -/
def naive_slide_window (a b : List Char) (k : Nat) (tau : ℚ) : List Char :=
  List.zipWith (naive_char a b k tau) (List.range a.length) a

/-- The naive rule with the share of matching positions compared exactly, as a
rational number. -/
def naive_char_exact (a b : List Char) (k : Nat) (tau : ℚ) (i : Nat) (c : Char) : Char :=
  if ((match_count a b i (min (i + k) a.length - i) : Nat) : ℚ) /
      ((min (i + k) a.length - i : Nat) : ℚ) < tau then 'N' else c

/-- The masked copy of `a` by the naive definition with exact comparison. -/
def naive_slide_window_exact (a b : List Char) (k : Nat) (tau : ℚ) : List Char :=
  List.zipWith (naive_char_exact a b k tau) (List.range a.length) a

/-- The output string while the rolling computation runs: positions below `p` are
decided, the others still hold the characters of `a`. -/
def partial_mask (a b : List Char) (k : Nat) (tau : ℚ) (p : Nat) : List Char :=
  (naive_slide_window a b k tau).take p ++ a.drop p

/-- State of the loops of `slide_window2` once position `p` has been decided with
the window `[p, p + w)`: the running count and the two windows belong to that
window, and the output string is decided up to and including `p`. -/
def rolling_state (a b : List Char) (k : Nat) (tau : ℚ) (p w : Nat) (st : SlideState) : Prop :=
  st.same_base = (match_count a b p w : Int) ∧ st.window1 = (a.drop p).take w ∧
    st.window2 = (b.drop p).take w ∧ st.newstr1 = partial_mask a b k tau (p + 1)

/-! # Theorems -/

/-! ## Auxiliary facts about `Except` and string access -/

@[simp] theorem ok_bind {α β : Type} (a : α) (f : α → Except Fault β) :
    (Except.ok a >>= f) = f a := rfl

@[simp] theorem error_bind {α β : Type} (e : Fault) (f : α → Except Fault β) :
    ((Except.error e : Except Fault α) >>= f) = Except.error e := rfl

theorem str_at_lt (s : List Char) (i : Nat) (h : i < s.length) : str_at s i = .ok s[i] := by
  simp [str_at, h]

theorem str_at_length (s : List Char) : str_at s s.length = .ok NUL := by
  simp [str_at]

theorem str_set_lt (s : List Char) (i : Nat) (c : Char) (h : i < s.length) :
    str_set s i c = .ok (s.set i c) := by
  simp [str_set, h]

/-! ## `normalize_gaps`: the mismatch loop is the reference rewrite -/

theorem reference_rewrite_length (q t : List Char) :
    (reference_rewrite q t).1.length = (reference_rewrite q t).2.length := by
  induction q generalizing t with
  | nil => simp [reference_rewrite]
  | cons qc qs ih =>
    cases t with
    | nil => simp [reference_rewrite]
    | cons tc ts =>
      have := ih ts
      simp only [reference_rewrite]
      split <;> simp [this]

theorem convert_mismatches_eq (qstr tstr : List Char) (hlen : qstr.length = tstr.length) :
    ∀ (n i : Nat) (qnorm tnorm : List Char), i + n = qstr.length →
      convert_mismatches qstr tstr n i qnorm tnorm =
        .ok (qnorm ++ (reference_rewrite (qstr.drop i) (tstr.drop i)).1,
             tnorm ++ (reference_rewrite (qstr.drop i) (tstr.drop i)).2) := by
  intro n
  induction n with
  | zero =>
    intro i qnorm tnorm hi
    have h1 : qstr.length ≤ i := by omega
    have h2 : tstr.length ≤ i := by omega
    simp [convert_mismatches, List.drop_eq_nil_of_le h1, List.drop_eq_nil_of_le h2,
      reference_rewrite]
  | succ n ih =>
    intro i qnorm tnorm hi
    have hq : i < qstr.length := by omega
    have ht : i < tstr.length := by omega
    rw [List.drop_eq_getElem_cons hq, List.drop_eq_getElem_cons ht]
    simp only [convert_mismatches, str_at_lt _ _ hq, str_at_lt _ _ ht, ok_bind,
      reference_rewrite]
    by_cases hc : qstr[i] ≠ tstr[i] ∧ qstr[i] ≠ kGap ∧ tstr[i] ≠ kGap
    · have hc2 : qstr[i] ≠ kGap ∧ tstr[i] ≠ kGap ∧ qstr[i] ≠ tstr[i] := ⟨hc.2.1, hc.2.2, hc.1⟩
      rw [if_pos hc, if_pos hc2, ih (i + 1) _ _ (by omega)]
      simp
    · have hc2 : ¬ (qstr[i] ≠ kGap ∧ tstr[i] ≠ kGap ∧ qstr[i] ≠ tstr[i]) :=
        fun h => hc ⟨h.2.2, h.1, h.2.1⟩
      rw [if_neg hc, if_neg hc2, ih (i + 1) _ _ (by omega)]
      simp

theorem normalize_gaps_no_push (qstr tstr : List Char) (hlen : qstr.length = tstr.length) :
    normalize_gaps qstr tstr (qstr.length : Int) false = .ok (reference_rewrite qstr tstr) := by
  have h := convert_mismatches_eq qstr tstr hlen qstr.length 0 [] [] (by omega)
  simp only [List.drop_zero, List.nil_append] at h
  simp only [normalize_gaps, Int.toNat_ofNat, h, ok_bind]
  simp [reference_rewrite_length, pure, Except.pure]


/-! ## `normalize_gaps`: the gap-push pass keeps lengths and non-gap counts -/

theorem NUL_ne_kGap : NUL ≠ kGap := by decide

theorem scan_gap_run_ok (s : List Char) (len : Int) :
    ∀ (fuel j0 : Nat), j0 < s.length → s.length ≤ j0 + fuel →
      ∃ j c, scan_gap_run s len fuel j0 = .ok (j, c) ∧ j0 < j ∧ j ≤ s.length ∧
        str_at s j = .ok c := by
  intro fuel
  induction fuel with
  | zero => intro j0 h1 h2; omega
  | succ fuel ih =>
    intro j0 h1 h2
    by_cases hj : j0 + 1 < s.length
    · simp only [scan_gap_run, str_at_lt s (j0 + 1) hj, ok_bind]
      split
      · exact ⟨j0 + 1, s[j0 + 1], rfl, by omega, by omega, str_at_lt s _ hj⟩
      · obtain ⟨j, c, h, hlt, hle, hc⟩ := ih (j0 + 1) hj (by omega)
        exact ⟨j, c, h, by omega, hle, hc⟩
    · have hj2 : j0 + 1 = s.length := by omega
      simp only [scan_gap_run, hj2, str_at_length, ok_bind]
      rw [if_pos (Or.inl NUL_ne_kGap)]
      exact ⟨s.length, NUL, rfl, by omega, le_refl _, str_at_length s⟩

theorem nongap_count_swap (s : List Char) (i j : Nat) (hi : i < s.length) (hj : j < s.length)
    (hij : i ≠ j) (hgap : s[i] = kGap) :
    nongap_count ((s.set i s[j]).set j kGap) = nongap_count s := by
  unfold nongap_count
  have hj1 : j < (s.set i s[j]).length := by simpa using hj
  rw [List.countP_set _ _ _ _ hj1, List.countP_set _ _ _ _ hi]
  have e : (s.set i s[j])[j] = s[j] := by
    rw [List.getElem_set]; simp [hij]
  rw [e, hgap]
  have hk : (kGap != kGap) = false := by decide
  simp only [hk, Bool.false_eq_true, if_false, Nat.sub_zero, Nat.add_zero]
  split <;> omega

theorem push_gap_at_ok (own other : List Char) (len : Int) (i : Nat)
    (hi : i < own.length) (hio : i < other.length)
    (hown : no_NUL own) (hother : no_NUL other) :
    ∃ own1, push_gap_at own other len i = .ok own1 ∧ own1.length = own.length ∧
      nongap_count own1 = nongap_count own ∧ no_NUL own1 := by
  simp only [push_gap_at, str_at_lt own i hi, str_at_lt other i hio, ok_bind]
  by_cases hg : own[i] = kGap
  · rw [if_pos hg]
    obtain ⟨j, c, hscan, hlt, hle, hc⟩ := scan_gap_run_ok own len (own.length + 1) i hi (by omega)
    simp only [hscan, ok_bind]
    by_cases hcx : c = other[i]
    · rw [if_pos hcx]
      have hcn : c ≠ NUL := hcx ▸ hother _ (List.getElem_mem _)
      have hjlt : j < own.length := by
        rcases Nat.lt_or_eq_of_le hle with h | h
        · exact h
        · rw [h, str_at_length] at hc
          exact absurd (Except.ok.inj hc).symm hcn
      rw [str_at_lt own j hjlt] at hc
      have hcj : own[j] = c := Except.ok.inj hc
      rw [str_set_lt own i c hi]
      simp only [ok_bind]
      rw [str_set_lt _ j kGap (by simpa using hjlt)]
      refine ⟨_, rfl, by simp, ?_, ?_⟩
      · rw [← hcj]
        exact nongap_count_swap own i j hi hjlt (by omega) hg
      · intro x hx
        rcases List.mem_or_eq_of_mem_set hx with h | h
        · rcases List.mem_or_eq_of_mem_set h with h2 | h2
          · exact hown x h2
          · exact h2 ▸ hcn
        · rw [h]; exact NUL_ne_kGap.symm
    · rw [if_neg hcx]
      exact ⟨own, rfl, rfl, rfl, hown⟩
  · rw [if_neg hg]
    exact ⟨own, rfl, rfl, rfl, hown⟩

theorem push_gaps_loop_ok (qlen tlen : Int) :
    ∀ (n i : Nat) (qnorm tnorm : List Char), qnorm.length = tnorm.length →
      i + n < qnorm.length ∨ n = 0 → no_NUL qnorm → no_NUL tnorm →
      ∃ q1 t1, push_gaps_loop qlen tlen n i qnorm tnorm = .ok (q1, t1) ∧
        q1.length = qnorm.length ∧ t1.length = tnorm.length ∧
        nongap_count q1 = nongap_count qnorm ∧ nongap_count t1 = nongap_count tnorm := by
  intro n
  induction n with
  | zero =>
    intro i qnorm tnorm _ _ _ _
    exact ⟨qnorm, tnorm, rfl, rfl, rfl, rfl, rfl⟩
  | succ n ih =>
    intro i qnorm tnorm hlen hi hq ht
    have hiq : i < qnorm.length := by omega
    have hit : i < tnorm.length := by omega
    obtain ⟨t1, e1, l1, c1, n1⟩ := push_gap_at_ok tnorm qnorm qlen i hit hiq ht hq
    obtain ⟨q1, e2, l2, c2, n2⟩ := push_gap_at_ok qnorm t1 tlen i hiq (by omega) hq n1
    obtain ⟨q2, t2, e3, l3, l4, c3, c4⟩ :=
      ih (i + 1) q1 t1 (by omega) (by omega) n2 n1
    refine ⟨q2, t2, ?_, by omega, by omega, by omega, by omega⟩
    simp only [push_gaps_loop, e1, e2, ok_bind, e3]


theorem reference_rewrite_nongap (q t : List Char) (hlen : q.length = t.length) :
    nongap_count (reference_rewrite q t).1 = nongap_count q ∧
      nongap_count (reference_rewrite q t).2 = nongap_count t := by
  induction q generalizing t with
  | nil =>
    cases t with
    | nil => simp [reference_rewrite]
    | cons tc ts => simp at hlen
  | cons qc qs ih =>
    cases t with
    | nil => simp at hlen
    | cons tc ts =>
      have h := ih ts (by simpa using hlen)
      have hk : (kGap != kGap) = false := by decide
      simp only [nongap_count] at h ⊢
      simp only [reference_rewrite]
      split <;> simp [List.countP_cons, h.1, h.2, hk]

theorem reference_rewrite_no_NUL (q t : List Char) (hq : no_NUL q) (ht : no_NUL t) :
    no_NUL (reference_rewrite q t).1 ∧ no_NUL (reference_rewrite q t).2 := by
  induction q generalizing t with
  | nil => simp [reference_rewrite, no_NUL]
  | cons qc qs ih =>
    cases t with
    | nil => simp [reference_rewrite, no_NUL]
    | cons tc ts =>
      have hq1 : qc ≠ NUL := hq qc (List.mem_cons_self _ _)
      have ht1 : tc ≠ NUL := ht tc (List.mem_cons_self _ _)
      have h := ih ts (fun c hc => hq c (List.mem_cons_of_mem _ hc))
        (fun c hc => ht c (List.mem_cons_of_mem _ hc))
      have hg : kGap ≠ NUL := NUL_ne_kGap.symm
      simp only [reference_rewrite]
      unfold no_NUL at h ⊢
      split
      · constructor
        · intro c hc
          simp only [List.mem_cons] at hc
          rcases hc with rfl | rfl | hc
          · exact hg
          · exact hq1
          · exact h.1 c hc
        · intro c hc
          simp only [List.mem_cons] at hc
          rcases hc with rfl | rfl | hc
          · exact ht1
          · exact hg
          · exact h.2 c hc
      · constructor
        · intro c hc
          simp only [List.mem_cons] at hc
          rcases hc with rfl | hc
          · exact hq1
          · exact h.1 c hc
        · intro c hc
          simp only [List.mem_cons] at hc
          rcases hc with rfl | hc
          · exact ht1
          · exact h.2 c hc

/-- C1. For aligned strings of equal length whose characters are bases or the gap
symbol (no character is the string terminator), `normalize_gaps` returns, for
either value of `push`, two strings of equal length, and the number of non-gap
characters of each side is the one of the corresponding input. -/
theorem normalize_gaps_preserves_counts (qstr tstr : List Char) (push : Bool)
    (hlen : qstr.length = tstr.length) (hq : no_NUL qstr) (ht : no_NUL tstr) :
    ∃ qnorm tnorm, normalize_gaps qstr tstr (qstr.length : Int) push = .ok (qnorm, tnorm) ∧
      qnorm.length = tnorm.length ∧
      nongap_count qnorm = nongap_count qstr ∧ nongap_count tnorm = nongap_count tstr := by
  have hconv := convert_mismatches_eq qstr tstr hlen qstr.length 0 [] [] (by omega)
  simp only [List.drop_zero, List.nil_append] at hconv
  have hL := reference_rewrite_length qstr tstr
  obtain ⟨hcq, hct⟩ := reference_rewrite_nongap qstr tstr hlen
  obtain ⟨hnq, hnt⟩ := reference_rewrite_no_NUL qstr tstr hq ht
  cases push with
  | false =>
    refine ⟨_, _, normalize_gaps_no_push qstr tstr hlen, hL, hcq, hct⟩
  | true =>
    obtain ⟨q1, t1, e, l1, l2, c1, c2⟩ :=
      push_gaps_loop_ok ((reference_rewrite qstr tstr).1.length : Int)
        ((reference_rewrite qstr tstr).2.length : Int)
        (((reference_rewrite qstr tstr).1.length : Int) - 1).toNat 0
        (reference_rewrite qstr tstr).1 (reference_rewrite qstr tstr).2 hL (by omega) hnq hnt
    refine ⟨q1, t1, ?_, by omega, by omega, by omega⟩
    simp only [normalize_gaps, Int.toNat_ofNat, hconv, ok_bind, if_true, e]
    rw [if_pos (by omega)]

/-- Witness of C1 on the columns `A-CT` over `AGC-` with the gap-push pass on. -/
theorem normalize_gaps_preserves_counts_witness :
    ∃ qnorm tnorm, normalize_gaps ['A', '-', 'C', 'T'] ['A', 'G', 'C', '-']
        ((['A', '-', 'C', 'T'] : List Char).length : Int) true = .ok (qnorm, tnorm) ∧
      qnorm.length = tnorm.length ∧
      nongap_count qnorm = nongap_count ['A', '-', 'C', 'T'] ∧
      nongap_count tnorm = nongap_count ['A', 'G', 'C', '-'] :=
  normalize_gaps_preserves_counts ['A', '-', 'C', 'T'] ['A', 'G', 'C', '-'] true
    (by decide) (by unfold no_NUL; decide) (by unfold no_NUL; decide)

/-- C2. With `push = false`, `normalize_gaps` on equal-length inputs returns exactly
the column-by-column reference rewrite: a column of two different non-gap
characters becomes gap, query character on the query side and target character,
gap on the target side; every other column is copied unchanged, in order. -/
theorem normalize_gaps_eq_reference (qstr tstr : List Char)
    (hlen : qstr.length = tstr.length) :
    normalize_gaps qstr tstr (qstr.length : Int) false = .ok (reference_rewrite qstr tstr) :=
  normalize_gaps_no_push qstr tstr hlen

/-- Witness of C2: `ACGT` over `AGGT` gives `A-CGT` over `AG-GT`. -/
theorem normalize_gaps_eq_reference_witness :
    normalize_gaps ['A', 'C', 'G', 'T'] ['A', 'G', 'G', 'T'] 4 false
        = .ok (reference_rewrite ['A', 'C', 'G', 'T'] ['A', 'G', 'G', 'T']) ∧
      reference_rewrite ['A', 'C', 'G', 'T'] ['A', 'G', 'G', 'T']
        = (['A', '-', 'C', 'G', 'T'], ['A', 'G', '-', 'G', 'T']) :=
  ⟨normalize_gaps_eq_reference ['A', 'C', 'G', 'T'] ['A', 'G', 'G', 'T'] (by decide),
    by decide⟩

/-! ## `slide_window2` on identical sequences -/

theorem substr_ok (s : List Char) (pos n : Int) (h0 : 0 ≤ pos) (h1 : pos ≤ (s.length : Int)) :
    substr s pos n =
      .ok (if n < 0 then s.drop pos.toNat else (s.drop pos.toNat).take n.toNat) := by
  simp [substr, h0, h1]

theorem round_half_even_eq (y : ℚ) (n : Int) (h1 : (n : ℚ) - 1 / 2 < y)
    (h2 : y < (n : ℚ) + 1 / 2) : round_half_even y = n := by
  unfold round_half_even
  by_cases hy : (n : ℚ) ≤ y
  · have hf : ⌊y⌋ = n := Int.floor_eq_iff.mpr ⟨hy, by linarith⟩
    simp only [hf]
    rw [if_pos (by linarith)]
  · have hf : ⌊y⌋ = n - 1 := Int.floor_eq_iff.mpr ⟨by push_cast; linarith, by push_cast; linarith⟩
    simp only [hf]
    rw [if_neg (by push_cast; linarith), if_pos (by push_cast; linarith)]
    ring

theorem log_two_eq (x : ℚ) (e : Int) (hx : 0 < x) (h1 : (2 : ℚ) ^ e ≤ x)
    (h2 : x < (2 : ℚ) ^ (e + 1)) : Int.log 2 x = e := by
  have a : e ≤ Int.log 2 x := (Int.zpow_le_iff_le_log (by norm_num) hx).mp (by exact_mod_cast h1)
  have b : Int.log 2 x < e + 1 :=
    (Int.lt_zpow_iff_log_lt (by norm_num) hx).mp (by exact_mod_cast h2)
  omega

/-- Evaluation of the rounding away from a tie. -/
theorem round_double_eval (x : ℚ) (e n : Int) (hx : 0 < x) (h1 : (2 : ℚ) ^ e ≤ x)
    (h2 : x < (2 : ℚ) ^ (e + 1))
    (h3 : ((n : ℚ) - 1 / 2) * (2 : ℚ) ^ (e - 52) < x)
    (h4 : x < ((n : ℚ) + 1 / 2) * (2 : ℚ) ^ (e - 52)) :
    round_double x = (n : ℚ) * (2 : ℚ) ^ (e - 52) := by
  have hq : (0 : ℚ) < (2 : ℚ) ^ (e - 52) := zpow_pos (by norm_num) _
  rw [round_double, if_neg (ne_of_gt hx), if_pos hx, round_double_pos, log_two_eq x e hx h1 h2,
    round_half_even_eq _ n ((lt_div_iff₀ hq).mpr h3) ((div_lt_iff₀ hq).mpr h4)]

theorem round_double_one : round_double 1 = 1 := by
  have h := round_double_eval 1 0 (2 ^ 52) (by norm_num) (by norm_num) (by norm_num)
    (by norm_num) (by norm_num)
  rw [h]
  norm_num

theorem round_double_zero : round_double 0 = 0 := by
  simp [round_double]

theorem round_double_half : round_double (1 / 2) = 1 / 2 := by
  have h := round_double_eval (1 / 2) (-1) (2 ^ 52) (by norm_num) (by norm_num) (by norm_num)
    (by norm_num) (by norm_num)
  rw [h]
  norm_num

theorem round_double_two_thirds :
    round_double (2 / 3) = 6004799503160661 / 9007199254740992 := by
  have h := round_double_eval (2 / 3) (-1) 6004799503160661 (by norm_num) (by norm_num)
    (by norm_num) (by norm_num) (by norm_num)
  rw [h]
  norm_num

theorem round_double_three_quarters : round_double (3 / 4) = 3 / 4 := by
  have h := round_double_eval (3 / 4) (-1) 6755399441055744 (by norm_num) (by norm_num)
    (by norm_num) (by norm_num) (by norm_num)
  rw [h]
  norm_num

theorem round_double_four_fifths :
    round_double (4 / 5) = 3602879701896397 / 4503599627370496 := by
  have h := round_double_eval (4 / 5) (-1) 7205759403792794 (by norm_num) (by norm_num)
    (by norm_num) (by norm_num) (by norm_num)
  rw [h]
  norm_num

theorem identity_below_self (k : Int) (thr : ℚ) (hk : 1 ≤ k) (hthr : thr < 1) :
    identity_below k k thr = false := by
  have hk0 : k ≠ 0 := by omega
  have hq : ((k : ℚ)) ≠ 0 := by exact_mod_cast hk0
  simp only [identity_below, hk0, if_false, div_self hq, round_double_one,
    decide_eq_false_iff_not, not_lt]
  exact le_of_lt hthr

theorem count_window_same (w : List Char) :
    ∀ (n : Nat) (i same_base : Int), 0 ≤ i → i + n ≤ (w.length : Int) →
      count_window w w n i same_base = .ok (same_base + n) := by
  intro n
  induction n with
  | zero => intro i sb _ _; simp [count_window]
  | succ n ih =>
    intro i sb h0 h1
    have hs := substr_ok w i 1 h0 (by push_cast at h1; omega)
    simp only [count_window, hs, ok_bind, if_true]
    rw [ih (i + 1) (sb + 1) (by omega) (by push_cast at h1 ⊢; omega)]
    push_cast
    congr 1
    ring

theorem slide_step_same (a : List Char) (k : Int) (thr : ℚ) (index : Int) (st : SlideState)
    (hk : 1 ≤ k) (hthr : thr < 1) (hi0 : 0 ≤ index) (hi1 : index + k ≤ (a.length : Int))
    (hst : same_state a k st) :
    ∃ st1, slide_step a a k thr index st = .ok st1 ∧ same_state a k st1 := by
  obtain ⟨hw, hn, hsb, _⟩ := hst
  have h1 := substr_ok st.window2 0 1 (le_refl _) (by omega)
  have h2 := substr_ok a index k hi0 (by omega)
  obtain ⟨w, hwdef⟩ : ∃ w, w = (if k < 0 then a.drop index.toNat
      else (a.drop index.toNat).take k.toNat) := ⟨_, rfl⟩
  rw [← hwdef] at h2
  have hlen : (w.length : Int) = k := by
    rw [hwdef, if_neg (by omega)]
    simp only [List.length_take, List.length_drop]
    omega
  have h3 := substr_ok w (k - 1) 1 (by omega) (by omega)
  refine ⟨⟨k, w, w, a⟩, ?_, rfl, rfl, rfl, fun _ => by simp only; omega⟩
  simp only [slide_step, hw, h1, h2, h3, ok_bind, if_true, hsb, sub_add_cancel,
    identity_below_self k thr hk hthr, hn, Bool.false_eq_true, if_false]

theorem slide_loop_same (a : List Char) (k : Int) (thr : ℚ) (hk : 1 ≤ k) (hthr : thr < 1) :
    ∀ (n : Nat) (index : Int) (st : SlideState), 0 ≤ index →
      index + n + k ≤ (a.length : Int) + 1 → same_state a k st →
      ∃ st1, slide_loop a a k thr n index st = .ok st1 ∧ same_state a k st1 := by
  intro n
  induction n with
  | zero => intro index st _ _ hst; exact ⟨st, rfl, hst⟩
  | succ n ih =>
    intro index st h0 h1 hst
    obtain ⟨st1, e1, hst1⟩ :=
      slide_step_same a k thr index st hk hthr h0 (by push_cast at h1; omega) hst
    obtain ⟨st2, e2, hst2⟩ := ih (index + 1) st1 (by omega) (by push_cast at h1; omega) hst1
    exact ⟨st2, by simp only [slide_loop, e1, ok_bind, e2], hst2⟩

theorem tail_loop_same (a : List Char) (thr : ℚ) (hthr : thr < 1) :
    ∀ (fuel : Nat) (index newk : Int) (st : SlideState), newk < fuel → 1 ≤ newk →
      1 ≤ index → index + newk = (a.length : Int) + 1 → same_state a newk st →
      ∃ st1, tail_loop a a (a.length : Int) thr fuel index newk st = .ok st1 ∧
        st1.newstr1 = a := by
  intro fuel
  induction fuel with
  | zero => intro index newk st h; omega
  | succ fuel ih =>
    intro index newk st hf hk hi hsum hst
    simp only [tail_loop]
    by_cases hc : index < (a.length : Int) ∧ newk > 0
    · rw [if_pos hc]
      obtain ⟨hw, hn, hsb, _⟩ := hst
      have h1 := substr_ok st.window2 0 1 (le_refl _) (by omega)
      have h2 := substr_ok a index (newk - 1) (by omega) (by omega)
      simp only [hw, h1, h2, ok_bind, if_true, hsb,
        identity_below_self (newk - 1) thr (by omega) hthr, hn]
      apply ih (index + 1) (newk - 1) _ (by push_cast at hf; omega) (by omega) (by omega)
        (by omega)
      refine ⟨rfl, rfl, rfl, fun _ => ?_⟩
      simp only
      rw [if_neg (by omega)]
      simp only [List.length_take, List.length_drop]
      omega
    · rw [if_neg hc]
      exact ⟨st, rfl, hst.2.1⟩

/-- C3. On identical sequences, with a window width `1 ≤ k ≤ |a|` and a threshold
below `1`, `slide_window2` masks no position: the output string is `a`, whatever it
held before the call. -/
theorem slide_window2_identical (a newstr1 : List Char) (k : Int) (tau : ℚ)
    (hk1 : 1 ≤ k) (hk2 : k ≤ (a.length : Int)) (htau : tau < 1) :
    slide_window2 a a newstr1 k tau = .ok a := by
  have h0 := substr_ok a 0 k (le_refl _) (by omega)
  obtain ⟨w, hwdef⟩ : ∃ w, w = (if k < 0 then a.drop (0 : Int).toNat
      else (a.drop (0 : Int).toNat).take k.toNat) := ⟨_, rfl⟩
  rw [← hwdef] at h0
  have hw : (w.length : Int) = k := by
    rw [hwdef, if_neg (by omega)]
    simp only [List.length_take, List.length_drop, Int.toNat_zero]
    omega
  have hc := count_window_same w k.toNat 0 0 (le_refl _)
      (by rw [hw, Int.toNat_of_nonneg (by omega)]; omega)
  rw [Int.toNat_of_nonneg (by omega), zero_add] at hc
  obtain ⟨st1, e1, hst1⟩ := slide_loop_same a k tau hk1 htau ((a.length : Int) - k).toNat 1
    ⟨k, w, w, a⟩ (by omega) (by rw [Int.toNat_of_nonneg (by omega)]; omega)
    ⟨rfl, rfl, rfl, fun _ => by simp only; omega⟩
  obtain ⟨st2, e2, hst2⟩ := tail_loop_same a tau htau (k.toNat + 1) ((a.length : Int) - k + 1) k
    st1 (by push_cast; rw [Int.toNat_of_nonneg (by omega)]; omega) hk1 (by omega) (by omega) hst1
  simp only [slide_window2, ne_eq, not_true_eq_false, if_false, h0, ok_bind, hc,
    identity_below_self k tau hk1 htau, Bool.false_eq_true, e1, e2, hst2]

/-- Witness of C3: `ACGTA` against itself, width `3`, threshold `9/10`. -/
theorem slide_window2_identical_witness :
    slide_window2 ['A', 'C', 'G', 'T', 'A'] ['A', 'C', 'G', 'T', 'A'] [] 3 (9 / 10)
      = .ok ['A', 'C', 'G', 'T', 'A'] :=
  slide_window2_identical ['A', 'C', 'G', 'T', 'A'] [] 3 (9 / 10) (by decide) (by decide)
    (by norm_num)

/-! ## `retrieve_aln_subseqs`: the two loops -/

theorem buf_at_nat (buf : List Char) (n : Nat) (h : n < buf.length) :
    ∃ c, buf[n]? = some c ∧ buf_at buf (n : Int) = .ok c := by
  refine ⟨buf[n], List.getElem?_eq_getElem h, ?_⟩
  simp [buf_at, List.getElem?_eq_getElem h]

theorem seg_cons (l : List Char) (lo hi : Nat) (c : Char) (h1 : lo < hi)
    (hc : l[lo]? = some c) : seg l lo hi = c :: seg l (lo + 1) hi := by
  obtain ⟨hlt, rfl⟩ := List.getElem?_eq_some_iff.mp hc
  unfold seg
  have h : lo < (l.take hi).length := by simp [List.length_take]; omega
  rw [List.drop_eq_getElem_cons h, List.getElem_take]

theorem seg_self (l : List Char) (n : Nat) : seg l n n = [] := by
  unfold seg
  apply List.drop_eq_nil_of_le
  simp [List.length_take]

theorem nongap_count_cons (c : Char) (l : List Char) :
    nongap_count (c :: l) = (if c ≠ kGap then 1 else 0) + nongap_count l := by
  unfold nongap_count
  rw [List.countP_cons]
  by_cases h : c = kGap <;> simp [h]; omega

theorem CnsAln.Later.refl (a : CnsAln) : a.Later a :=
  ⟨rfl, rfl, rfl, rfl, le_refl _, le_refl _⟩

theorem CnsAln.Later.trans {a b c : CnsAln} (h1 : a.Later b) (h2 : b.Later c) : a.Later c := by
  obtain ⟨e1, e2, e3, e4, l1, l2⟩ := h1
  obtain ⟨f1, f2, f3, f4, m1, m2⟩ := h2
  exact ⟨f1.trans e1, f2.trans e2, f3.trans e3, f4.trans e4, le_trans l1 m1, le_trans l2 m2⟩

/-- The first loop returns; it stops on the first column at or after the current
one where the cursor has reached `sb`, or on the last column. -/
theorem skip_loop_spec (sb : Int) :
    ∀ (fuel : Nat) (a : CnsAln) (n : Nat), a.aln_idx = n →
      (a.saln.length : Int) = a.aln_size → (a.aln_size - 1 - n).toNat < fuel →
      ∃ (a1 : CnsAln) (m : Nat), skip_loop sb fuel a = .ok a1 ∧ a.Later a1 ∧
        a1.aln_idx = m ∧ n ≤ m ∧ (n < m → (m : Int) < a.aln_size) ∧
        a1.soff = a.soff + nongap_count (seg a.saln (n + 1) (m + 1)) ∧
        ¬ (a1.soff < sb ∧ (m : Int) < a.aln_size - 1) ∧
        (a.soff ≤ sb → a1.soff ≤ sb) ∧
        (n < m → a.soff + nongap_count (seg a.saln (n + 1) m) < sb) := by
  intro fuel
  induction fuel with
  | zero => intro a n _ _ h; omega
  | succ fuel ih =>
    intro a n hn hs hf
    simp only [skip_loop]
    by_cases hc : a.soff < sb ∧ a.aln_idx < a.aln_size - 1
    · rw [if_pos hc]
      have hlt : n + 1 < a.saln.length := by omega
      obtain ⟨c, hc1, hc2⟩ := buf_at_nat a.saln (n + 1) hlt
      have hidx : a.aln_idx + 1 = ((n + 1 : Nat) : Int) := by omega
      rw [hidx, hc2]
      simp only [ok_bind]
      obtain ⟨a1, m, e, hL, hm, hnm, hmb, hsoff, hstop, hle, hbefore⟩ :=
        ih { a with aln_idx := ((n + 1 : Nat) : Int),
                    soff := if c ≠ kGap then a.soff + 1 else a.soff } (n + 1) rfl hs
          (by simp only; omega)
      simp only at hL hm hnm hmb hsoff hstop hle hbefore
      refine ⟨a1, m, e, ?_, hm, by omega, fun _ => ?_, ?_, hstop, fun _ => ?_, fun _ => ?_⟩
      · obtain ⟨e1, e2, e3, e4, l1, l2⟩ := hL
        refine ⟨e1, e2, e3, e4, by simp only at l1; omega, ?_⟩
        simp only at l2
        split at l2 <;> omega
      · rcases Nat.lt_or_ge (n + 1) m with h | h
        · exact hmb h
        · have : m = n + 1 := by omega
          omega
      · rw [hsoff, seg_cons a.saln (n + 1) (m + 1) c (by omega) hc1, nongap_count_cons]
        split <;> omega
      · apply hle
        split <;> omega
      · rcases Nat.lt_or_ge (n + 1) m with h | h
        · have := hbefore h
          rw [seg_cons a.saln (n + 1) m c h hc1, nongap_count_cons]
          by_cases hg : c = kGap
          · simp only [hg, ne_eq, not_true_eq_false, if_false] at this ⊢
            omega
          · simp only [hg, ne_eq, not_false_eq_true, if_true] at this ⊢
            omega
        · have hm1 : m = n + 1 := by omega
          rw [hm1, seg_self]
          simp [nongap_count]
          exact hc.1
    · rw [if_neg hc]
      refine ⟨a, n, rfl, CnsAln.Later.refl a, hn, le_refl _, fun h => absurd h (lt_irrefl _), ?_,
        ?_, fun h => h, fun h => absurd h (lt_irrefl _)⟩
      · rw [seg_self]; simp [nongap_count]
      · rw [hn] at hc; exact hc

/-- The second loop returns. When it ends normally the outputs have grown by the
columns passed, none of which holds `'N'` on the query side; when it returns
`false` the column reached holds `'N'`. -/
theorem extract_loop_spec (se : Int) :
    ∀ (fuel : Nat) (a : CnsAln) (n : Nat) (q t : List Char), a.aln_idx = n →
      (a.qaln.length : Int) = a.aln_size → (a.saln.length : Int) = a.aln_size →
      (a.aln_size - 1 - n).toNat < fuel →
      ∃ (r : Bool) (a1 : CnsAln) (q1 t1 : List Char) (m : Nat),
        extract_loop se fuel a q t = .ok (r, a1, q1, t1) ∧ a.Later a1 ∧
        a1.aln_idx = m ∧ n ≤ m ∧ (n < m → (m : Int) < a.aln_size) ∧
        a1.soff = a.soff + nongap_count (seg a.saln (n + 1) (m + 1)) ∧
        (a.soff ≤ se → a1.soff ≤ se) ∧
        (r = true → q1 = q ++ seg a.qaln (n + 1) (m + 1) ∧ t1 = t ++ seg a.saln (n + 1) (m + 1) ∧
          (∀ k, n < k → k ≤ m → a.qaln[k]? ≠ some 'N') ∧
          ¬ (a1.soff < se ∧ (m : Int) < a.aln_size - 1)) ∧
        (r = false → n < m ∧ a.qaln[m]? = some 'N') := by
  intro fuel
  induction fuel with
  | zero => intro a n _ _ _ _ _ h; omega
  | succ fuel ih =>
    intro a n q t hn hq hs hf
    simp only [extract_loop]
    by_cases hc : a.soff < se ∧ a.aln_idx < a.aln_size - 1
    · rw [if_pos hc]
      have hlt : n + 1 < a.saln.length := by omega
      have hltq : n + 1 < a.qaln.length := by omega
      obtain ⟨c, hc1, hc2⟩ := buf_at_nat a.saln (n + 1) hlt
      obtain ⟨d, hd1, hd2⟩ := buf_at_nat a.qaln (n + 1) hltq
      have hidx : a.aln_idx + 1 = ((n + 1 : Nat) : Int) := by omega
      rw [hidx, hc2, hd2]
      simp only [ok_bind]
      by_cases hN : d = 'N'
      · rw [if_pos hN]
        refine ⟨false, _, q, t, n + 1, rfl, ?_, rfl, by omega, fun _ => by omega, ?_, fun _ => ?_,
          fun h => by simp at h, fun _ => ⟨by omega, hN ▸ hd1⟩⟩
        · refine ⟨rfl, rfl, rfl, rfl, by simp only; omega, ?_⟩
          simp only
          split <;> omega
        · simp only
          rw [seg_cons a.saln (n + 1) (n + 1 + 1) c (by omega) hc1, seg_self, nongap_count_cons]
          simp only [nongap_count, List.countP_nil]
          split <;> omega
        · simp only
          split <;> omega
      · rw [if_neg hN]
        obtain ⟨r, a1, q1, t1, m, e, hL, hm, hnm, hmb, hsoff, hle, htrue, hfalse⟩ :=
          ih { a with aln_idx := ((n + 1 : Nat) : Int),
                      soff := if c ≠ kGap then a.soff + 1 else a.soff } (n + 1)
            (q ++ [d]) (t ++ [c]) rfl hq hs (by simp only; omega)
        simp only at hL hm hnm hmb hsoff hle htrue hfalse
        refine ⟨r, a1, q1, t1, m, e, ?_, hm, by omega, fun _ => ?_, ?_, fun _ => ?_, fun hr => ?_,
          fun hr => ?_⟩
        · obtain ⟨e1, e2, e3, e4, l1, l2⟩ := hL
          refine ⟨e1, e2, e3, e4, by simp only at l1; omega, ?_⟩
          simp only at l2
          split at l2 <;> omega
        · rcases Nat.lt_or_ge (n + 1) m with h | h
          · exact hmb h
          · have : m = n + 1 := by omega
            omega
        · rw [hsoff, seg_cons a.saln (n + 1) (m + 1) c (by omega) hc1, nongap_count_cons]
          split <;> omega
        · apply hle
          split <;> omega
        · obtain ⟨h1, h2, h3, h4⟩ := htrue hr
          refine ⟨?_, ?_, ?_, h4⟩
          · rw [h1, seg_cons a.qaln (n + 1) (m + 1) d (by omega) hd1]; simp
          · rw [h2, seg_cons a.saln (n + 1) (m + 1) c (by omega) hc1]; simp
          · intro k hk1 hk2
            rcases Nat.lt_or_ge (n + 1) k with h | h
            · exact h3 k h hk2
            · have hk : k = n + 1 := by omega
              rw [hk, hd1]
              intro hcontra
              exact hN (Option.some.inj hcontra)
        · obtain ⟨h1, h2⟩ := hfalse hr
          exact ⟨by omega, h2⟩
    · rw [if_neg hc]
      refine ⟨true, a, q, t, n, rfl, CnsAln.Later.refl a, hn, le_refl _,
        fun h => absurd h (lt_irrefl _), ?_, fun h => h, fun _ => ⟨?_, ?_, ?_, ?_⟩,
        fun h => by simp at h⟩
      · rw [seg_self]; simp [nongap_count]
      · rw [seg_self]; simp
      · rw [seg_self]; simp
      · intro k hk1 hk2; omega
      · rw [hn] at hc; exact hc

/-- The call past its entry test: the first loop stops on column `i`, the second
on column `m`; the outputs are the columns `i..m` when the call returns `true`,
and column `m` holds `'N'` on the query side when it returns `false`. -/
theorem retrieve_cases (a : CnsAln) (sb se : Int) (out : Extract) (hv : a.Valid)
    (hg : ¬ (se ≤ a.soff ∨ sb ≥ a.send ∨ a.aln_idx ≥ a.aln_size - 1)) :
    ∃ (a1 : CnsAln) (n i : Nat), a.aln_idx = n ∧ a.skip sb = .ok a1 ∧ a.Later a1 ∧
      a1.aln_idx = i ∧ n ≤ i ∧ (i : Int) < a.aln_size ∧
      a1.soff = a.soff + nongap_count (seg a.saln (n + 1) (i + 1)) ∧
      ¬ (a1.soff < sb ∧ (i : Int) < a.aln_size - 1) ∧ (a.soff ≤ sb → a1.soff ≤ sb) ∧
      (n < i → a.soff + nongap_count (seg a.saln (n + 1) i) < sb) ∧
      ∃ (r : Bool) (a2 : CnsAln) (q t : List Char) (m : Nat),
        a.retrieve_aln_subseqs sb se out = .ok (r, a2, ⟨q, t, max a.soff sb⟩) ∧
        a1.Later a2 ∧ a2.aln_idx = m ∧ i ≤ m ∧ (m : Int) < a.aln_size ∧
        a2.soff = a1.soff + nongap_count (seg a.saln (i + 1) (m + 1)) ∧
        (a1.soff ≤ se → a2.soff ≤ se) ∧
        (r = true → q = seg a.qaln i (m + 1) ∧ t = seg a.saln i (m + 1) ∧
          (∀ k, i ≤ k → k ≤ m → a.qaln[k]? ≠ some 'N') ∧
          ¬ (a2.soff < se ∧ (m : Int) < a.aln_size - 1)) ∧
        (r = false → a.qaln[m]? = some 'N') := by
  obtain ⟨hv0, hvq, hvs⟩ := hv
  obtain ⟨n, hn⟩ : ∃ n : Nat, a.aln_idx = n := ⟨a.aln_idx.toNat, by omega⟩
  have hg3 : ¬ a.aln_idx ≥ a.aln_size - 1 := fun h => hg (Or.inr (Or.inr h))
  obtain ⟨a1, i, e1, hL1, hi, hni, hib, hsoff1, hstop1, hle1, hbefore1⟩ :=
    skip_loop_spec sb a.budget a n hn hvs (by unfold CnsAln.budget; omega)
  have hib2 : (i : Int) < a.aln_size := by
    rcases Nat.lt_or_ge n i with h | h
    · exact hib h
    · omega
  have ⟨_, f2, f3, f4, _, _⟩ := hL1
  refine ⟨a1, n, i, hn, e1, hL1, hi, hni, hib2, hsoff1, hstop1, hle1, hbefore1, ?_⟩
  obtain ⟨d, hd1, hd2⟩ := buf_at_nat a.qaln i (by omega)
  obtain ⟨c, hc1, hc2⟩ := buf_at_nat a.saln i (by omega)
  have e1s : a.skip sb = .ok a1 := e1
  simp only [CnsAln.retrieve_aln_subseqs, if_neg hg, e1s, ok_bind, f3, f4, hi, hd2, hc2]
  by_cases hN : d = 'N'
  · rw [if_pos hN]
    refine ⟨false, a1, [], [], i, rfl, CnsAln.Later.refl a1, hi, le_refl _, hib2, ?_, fun h => h,
      fun h => by simp at h, fun _ => hN ▸ hd1⟩
    rw [seg_self]; simp [nongap_count]
  · rw [if_neg hN]
    obtain ⟨r, a2, q1, t1, m, e2, hL2, hm, him, hmb, hsoff2, hle2, htrue, hfalse⟩ :=
      extract_loop_spec se a1.budget a1 i [d] [c] hi (by rw [f3, f2]; exact hvq)
        (by rw [f4, f2]; exact hvs) (by unfold CnsAln.budget; omega)
    rw [f2, f3, f4] at *
    have hmb2 : (m : Int) < a.aln_size := by
      rcases Nat.lt_or_ge i m with h | h
      · exact hmb h
      · omega
    refine ⟨r, a2, q1, t1, m, ?_, hL2, hm, him, hmb2, hsoff2, hle2, fun hr => ?_, fun hr => ?_⟩
    · simp only [e2, ok_bind]
    · obtain ⟨h1, h2, h3, h4⟩ := htrue hr
      refine ⟨?_, ?_, ?_, h4⟩
      · rw [h1, seg_cons a.qaln i (m + 1) d (by omega) hd1]; rfl
      · rw [h2, seg_cons a.saln i (m + 1) c (by omega) hc1]; rfl
      · intro k hk1 hk2
        rcases Nat.lt_or_ge i k with h | h
        · exact h3 k h hk2
        · have hk : k = i := by omega
          rw [hk, hd1]
          intro hcontra
          exact hN (Option.some.inj hcontra)
    · exact (hfalse hr).2

/-- C4. On a stored alignment `retrieve_aln_subseqs(sb, se)` returns, and it returns
`false` exactly when `se <= soff`, or `sb >= send`, or `aln_idx >= aln_size - 1`, or
some column between the first extracted column (where the first loop stops) and
the last column reached holds `'N'` on the query side; otherwise it returns
`true`. -/
theorem retrieve_aln_subseqs_false_iff (a : CnsAln) (sb se : Int) (out : Extract)
    (hv : a.Valid) :
    ∃ (r : Bool) (a1 a2 : CnsAln) (out1 : Extract),
      a.skip sb = .ok a1 ∧ a.retrieve_aln_subseqs sb se out = .ok (r, a2, out1) ∧
      (r = false ↔
        (se ≤ a.soff ∨ sb ≥ a.send ∨ a.aln_idx ≥ a.aln_size - 1 ∨
          ∃ k : Nat, a1.aln_idx ≤ k ∧ (k : Int) ≤ a2.aln_idx ∧ a.qaln[k]? = some 'N')) := by
  by_cases hg : se ≤ a.soff ∨ sb ≥ a.send ∨ a.aln_idx ≥ a.aln_size - 1
  · obtain ⟨a1, i, e1, -⟩ := skip_loop_spec sb a.budget a a.aln_idx.toNat
      (by have := hv.1; omega) hv.2.2 (by unfold CnsAln.budget; omega)
    refine ⟨false, a1, a, out, e1, by simp only [CnsAln.retrieve_aln_subseqs, if_pos hg], ?_⟩
    constructor
    · intro _
      rcases hg with h | h | h
      · exact Or.inl h
      · exact Or.inr (Or.inl h)
      · exact Or.inr (Or.inr (Or.inl h))
    · intro _; rfl
  · obtain ⟨a1, n, i, hn, e1, hL1, hi, hni, hib, -, -, -, -, r, a2, q, t, m, e2, hL2, hm, him,
      hmb, -, -, htrue, hfalse⟩ := retrieve_cases a sb se out hv hg
    refine ⟨r, a1, a2, _, e1, e2, ?_⟩
    constructor
    · intro hr
      refine Or.inr (Or.inr (Or.inr ⟨m, by omega, by omega, hfalse hr⟩))
    · intro h
      rcases h with h | h | h | ⟨k, hk1, hk2, hk3⟩
      · exact absurd (Or.inl h) hg
      · exact absurd (Or.inr (Or.inl h)) hg
      · exact absurd (Or.inr (Or.inr h)) hg
      · cases r with
        | false => rfl
        | true =>
          exact absurd hk3 ((htrue rfl).2.2.1 k (by omega) (by omega))

/-- Witness of C4: a stored alignment whose fourth column holds `'N'`. -/
theorem retrieve_aln_subseqs_false_iff_witness :
    ∃ (r : Bool) (a1 a2 : CnsAln) (out1 : Extract),
      (CnsAln.stored 10 15 ['A', '-', 'C', 'N', 'G', 'T'] ['A', 'C', 'C', '-', 'G', 'T']).skip 10
        = .ok a1 ∧
      (CnsAln.stored 10 15 ['A', '-', 'C', 'N', 'G', 'T']
        ['A', 'C', 'C', '-', 'G', 'T']).retrieve_aln_subseqs 10 15 ⟨[], [], 0⟩
        = .ok (r, a2, out1) ∧
      (r = false ↔
        ((15 : Int) ≤ (CnsAln.stored 10 15 ['A', '-', 'C', 'N', 'G', 'T']
            ['A', 'C', 'C', '-', 'G', 'T']).soff ∨
          (10 : Int) ≥ (CnsAln.stored 10 15 ['A', '-', 'C', 'N', 'G', 'T']
            ['A', 'C', 'C', '-', 'G', 'T']).send ∨
          (CnsAln.stored 10 15 ['A', '-', 'C', 'N', 'G', 'T']
            ['A', 'C', 'C', '-', 'G', 'T']).aln_idx ≥
            (CnsAln.stored 10 15 ['A', '-', 'C', 'N', 'G', 'T']
              ['A', 'C', 'C', '-', 'G', 'T']).aln_size - 1 ∨
          ∃ k : Nat, a1.aln_idx ≤ k ∧ (k : Int) ≤ a2.aln_idx ∧
            (CnsAln.stored 10 15 ['A', '-', 'C', 'N', 'G', 'T']
              ['A', 'C', 'C', '-', 'G', 'T']).qaln[k]? = some 'N')) :=
  retrieve_aln_subseqs_false_iff
    (CnsAln.stored 10 15 ['A', '-', 'C', 'N', 'G', 'T'] ['A', 'C', 'C', '-', 'G', 'T']) 10 15
    ⟨[], [], 0⟩ ⟨by decide, by decide, by decide⟩

/-! ## `retrieve_aln_subseqs`: target coverage of a returned sub-alignment -/

theorem seg_zero (l : List Char) (hi : Nat) : seg l 0 hi = l.take hi := by
  simp [seg]

theorem seg_append (l : List Char) (lo mid hi : Nat) (h1 : lo ≤ mid) (h2 : mid ≤ hi)
    (h3 : hi ≤ l.length) : seg l lo hi = seg l lo mid ++ seg l mid hi := by
  unfold seg
  have e : l.take hi = l.take mid ++ (l.take hi).drop mid := by
    have := List.take_append_drop mid (l.take hi)
    rw [List.take_take, Nat.min_eq_left h2] at this
    exact this.symm
  conv_lhs => rw [e]
  rw [List.drop_append_of_le_length (by simp [List.length_take]; omega)]

theorem seg_full (l : List Char) : seg l 0 l.length = l := by
  simp [seg]

theorem nongap_count_append (a b : List Char) :
    nongap_count (a ++ b) = nongap_count a + nongap_count b := by
  simp [nongap_count, List.countP_append]

theorem nongap_count_take_le (l : List Char) (j : Nat) :
    nongap_count (l.take j) ≤ nongap_count l := by
  have h := nongap_count_append (l.take j) (l.drop j)
  rw [List.take_append_drop] at h
  omega

theorem nongap_count_take_succ (l : List Char) (c0 : Char) (j : Nat) (h0 : l[0]? = some c0)
    (hc0 : c0 ≠ kGap) (hj : 1 ≤ j) :
    nongap_count (l.take j) = 1 + nongap_count (seg l 1 j) := by
  rw [← seg_zero, seg_cons l 0 j c0 (by omega) h0, nongap_count_cons, if_pos hc0]

theorem nongap_count_seg_succ (l : List Char) (lo i : Nat) (c : Char) (h1 : lo ≤ i)
    (hc : l[i]? = some c) :
    nongap_count (seg l lo (i + 1)) =
      nongap_count (seg l lo i) + (if c ≠ kGap then 1 else 0) := by
  have hlt : i < l.length := (List.getElem?_eq_some_iff.mp hc).1
  rw [seg_append l lo i (i + 1) h1 (by omega) (by omega), nongap_count_append,
    seg_cons l i (i + 1) c (by omega) hc, seg_self, nongap_count_cons]
  simp [nongap_count]

theorem CnsAln.Later.valid {a a1 : CnsAln} (h : a.Later a1) (hv : a.Valid) : a1.Valid := by
  obtain ⟨-, e2, e3, e4, l1, -⟩ := h
  obtain ⟨v1, v2, v3⟩ := hv
  exact ⟨le_trans v1 l1, by rw [e3, e2]; exact v2, by rw [e4, e2]; exact v3⟩

theorem target_pos_mono (saln : List Char) (c1 c2 : Nat) (h : c1 ≤ c2) (h2 : c2 ≤ saln.length) :
    target_pos saln c1 ≤ target_pos saln c2 := by
  unfold target_pos
  have := seg_append saln 0 c1 c2 (Nat.zero_le _) h h2
  rw [seg_zero, seg_zero] at this
  rw [this, nongap_count_append]
  omega

theorem target_pos_lt (saln : List Char) (c1 c2 : Nat) (c : Char) (h : c1 < c2)
    (h2 : c2 ≤ saln.length) (hc : saln[c1]? = some c) (hg : c ≠ kGap) :
    target_pos saln c1 < target_pos saln c2 := by
  have h1 := target_pos_mono saln (c1 + 1) c2 h h2
  have h3 := nongap_count_seg_succ saln 0 c1 c (Nat.zero_le _) hc
  rw [seg_zero, seg_zero, if_pos hg] at h3
  unfold target_pos at *
  omega

/-- C6 (amended). Two successive calls on a stored alignment, the first with a
window `sb1 < se1`, that both return `true` yield the column ranges `i1..m1` and
`i2..m2` with `m1 ≤ i2`: the columns and target coordinates of the second result
lie at or after the last column of the first, and strictly after all of them when
`se1 < sb2`. For adjacent windows (`sb2 = se1`) the second result starts with the
column that ends the first one. -/
theorem retrieve_successive_windows (a a1 a2 : CnsAln) (sb1 se1 sb2 se2 : Int)
    (out out1 out2 : Extract) (hv : a.Valid) (hw1 : sb1 < se1)
    (h1 : a.retrieve_aln_subseqs sb1 se1 out = .ok (true, a1, out1))
    (h2 : a1.retrieve_aln_subseqs sb2 se2 out1 = .ok (true, a2, out2)) :
    ∃ i1 m1 i2 m2 : Nat, i1 ≤ m1 ∧ m1 ≤ i2 ∧ i2 ≤ m2 ∧ m2 < a.saln.length ∧
      out1.qstr = seg a.qaln i1 (m1 + 1) ∧ out1.tstr = seg a.saln i1 (m1 + 1) ∧
      out2.qstr = seg a.qaln i2 (m2 + 1) ∧ out2.tstr = seg a.saln i2 (m2 + 1) ∧
      (se1 < sb2 → m1 < i2) ∧ (sb2 = se1 → i2 = m1) ∧
      ∀ c1 c2 : Nat, i1 ≤ c1 → c1 ≤ m1 → i2 ≤ c2 → c2 ≤ m2 →
        target_pos a.saln c1 ≤ target_pos a.saln c2 ∧
        (se1 < sb2 → (∃ c, a.saln[c1]? = some c ∧ c ≠ kGap) →
          target_pos a.saln c1 < target_pos a.saln c2) := by
  have hg1 : ¬ (se1 ≤ a.soff ∨ sb1 ≥ a.send ∨ a.aln_idx ≥ a.aln_size - 1) := by
    intro hg
    simp only [CnsAln.retrieve_aln_subseqs, if_pos hg] at h1
    cases h1
  have hg2 : ¬ (se2 ≤ a1.soff ∨ sb2 ≥ a1.send ∨ a1.aln_idx ≥ a1.aln_size - 1) := by
    intro hg
    simp only [CnsAln.retrieve_aln_subseqs, if_pos hg] at h2
    cases h2
  -- first call
  obtain ⟨b1, n1, i1, hn1, -, hLb1, hi1, hni1, -, hsoffb1, -, hleb1, hbeforeb1, r, a1', q1, t1, m1,
    e1, hLa1, hm1, him1, hmb1, hsoffa1, hlea1, htrue1, -⟩ := retrieve_cases a sb1 se1 out hv hg1
  rw [h1] at e1
  have e1' := Except.ok.inj e1
  simp only [Prod.mk.injEq] at e1'
  obtain ⟨hr1, ha1, hout1⟩ := e1'
  subst hr1 ha1 hout1
  obtain ⟨hq1, ht1, -, hstop1⟩ := htrue1 rfl
  have hL1 : a.Later a1 := hLb1.trans hLa1
  have hv1 : a1.Valid := hL1.valid hv
  obtain ⟨-, f2, f3, f4, -, -⟩ := hL1
  -- the cursor after the first call is at most `se1`
  have hcur : a1.soff ≤ se1 := by
    apply hlea1
    rcases Nat.lt_or_ge n1 i1 with h | h
    · have := hbeforeb1 h
      have := hleb1 (by omega)
      omega
    · have hi : i1 = n1 := by omega
      rw [hi, seg_self] at hsoffb1
      simp only [nongap_count, List.countP_nil] at hsoffb1
      omega
  -- second call
  obtain ⟨b2, n2, i2, hn2, -, -, hi2, hni2, -, hsoffb2, hstopb2, hleb2, hbeforeb2, r, a2', q2, t2,
    m2, e2, -, hm2, him2, hmb2, -, -, htrue2, -⟩ := retrieve_cases a1 sb2 se2 _ hv1 hg2
  rw [h2] at e2
  have e2' := Except.ok.inj e2
  simp only [Prod.mk.injEq] at e2'
  obtain ⟨hr2, ha2, hout2⟩ := e2'
  subst hr2 ha2 hout2
  obtain ⟨hq2, ht2, -, -⟩ := htrue2 rfl
  rw [f3] at hq2
  rw [f4] at ht2 hsoffb2 hbeforeb2
  have hnm : n2 = m1 := by omega
  subst hnm
  have hlen : (a.saln.length : Int) = a.aln_size := hv.2.2
  have hstrict : se1 < sb2 → n2 < i2 := by
    intro hlt
    by_contra hcon
    have hi : i2 = n2 := by omega
    rw [hi, seg_self] at hsoffb2
    simp only [nongap_count, List.countP_nil] at hsoffb2
    apply hstopb2
    constructor
    · omega
    · rw [hi]; omega
  have hadj : sb2 = se1 → i2 = n2 := by
    intro heq
    by_contra hcon
    have := hbeforeb2 (by omega)
    have hge : ¬ a1.soff < se1 := fun h => hstop1 ⟨h, by omega⟩
    omega
  refine ⟨i1, n2, i2, m2, him1, hni2, him2, by omega, hq1, ht1, hq2, ht2, hstrict, hadj, ?_⟩
  intro c1 c2 k1 k2 k3 k4
  refine ⟨target_pos_mono a.saln c1 c2 (by omega) (by omega), fun hlt hbase => ?_⟩
  obtain ⟨c, hc, hcg⟩ := hbase
  exact target_pos_lt a.saln c1 c2 c (by have := hstrict hlt; omega) (by omega) hc hcg

/-- Witness of C6 (amended): windows `[0, 1)` and `[2, 4)` on `ACGT` over `ACGT`
stored at `[0, 4)` return the columns `0..1` and `2..3`. -/
theorem retrieve_successive_windows_witness :
    ∃ i1 m1 i2 m2 : Nat, i1 ≤ m1 ∧ m1 ≤ i2 ∧ i2 ≤ m2 ∧
      m2 < (CnsAln.stored 0 4 ['A', 'C', 'G', 'T'] ['A', 'C', 'G', 'T']).saln.length ∧
      (Extract.mk ['A', 'C'] ['A', 'C'] 0).qstr =
        seg (CnsAln.stored 0 4 ['A', 'C', 'G', 'T'] ['A', 'C', 'G', 'T']).qaln i1 (m1 + 1) ∧
      (Extract.mk ['A', 'C'] ['A', 'C'] 0).tstr =
        seg (CnsAln.stored 0 4 ['A', 'C', 'G', 'T'] ['A', 'C', 'G', 'T']).saln i1 (m1 + 1) ∧
      (Extract.mk ['G', 'T'] ['G', 'T'] 2).qstr =
        seg (CnsAln.stored 0 4 ['A', 'C', 'G', 'T'] ['A', 'C', 'G', 'T']).qaln i2 (m2 + 1) ∧
      (Extract.mk ['G', 'T'] ['G', 'T'] 2).tstr =
        seg (CnsAln.stored 0 4 ['A', 'C', 'G', 'T'] ['A', 'C', 'G', 'T']).saln i2 (m2 + 1) ∧
      ((1 : Int) < 2 → m1 < i2) ∧ ((2 : Int) = 1 → i2 = m1) ∧
      ∀ c1 c2 : Nat, i1 ≤ c1 → c1 ≤ m1 → i2 ≤ c2 → c2 ≤ m2 →
        target_pos (CnsAln.stored 0 4 ['A', 'C', 'G', 'T'] ['A', 'C', 'G', 'T']).saln c1 ≤
          target_pos (CnsAln.stored 0 4 ['A', 'C', 'G', 'T'] ['A', 'C', 'G', 'T']).saln c2 ∧
        ((1 : Int) < 2 →
          (∃ c, (CnsAln.stored 0 4 ['A', 'C', 'G', 'T'] ['A', 'C', 'G', 'T']).saln[c1]? = some c ∧
            c ≠ kGap) →
          target_pos (CnsAln.stored 0 4 ['A', 'C', 'G', 'T'] ['A', 'C', 'G', 'T']).saln c1 <
            target_pos (CnsAln.stored 0 4 ['A', 'C', 'G', 'T'] ['A', 'C', 'G', 'T']).saln c2) :=
  retrieve_successive_windows (CnsAln.stored 0 4 ['A', 'C', 'G', 'T'] ['A', 'C', 'G', 'T'])
    ⟨1, 4, 1, 4, ['A', 'C', 'G', 'T'], ['A', 'C', 'G', 'T']⟩
    ⟨3, 4, 3, 4, ['A', 'C', 'G', 'T'], ['A', 'C', 'G', 'T']⟩ 0 1 2 4 ⟨[], [], 0⟩
    ⟨['A', 'C'], ['A', 'C'], 0⟩ ⟨['G', 'T'], ['G', 'T'], 2⟩
    ⟨by decide, by decide, by decide⟩ (by decide) (by decide) (by decide)

/-- Counterexample to C6 as stated: on `ACGT` over `ACGT` stored at `[0, 4)` the
adjacent windows `[0, 2)` and `[2, 4)` both return `true`; the first result is the
columns `0..2`, the second the columns `2..3`, so column 2 (target coordinate 2)
is returned twice. -/
theorem retrieve_adjacent_windows_counterexample :
    (CnsAln.stored 0 4 ['A', 'C', 'G', 'T'] ['A', 'C', 'G', 'T']).retrieve_aln_subseqs 0 2
        ⟨[], [], 0⟩
      = .ok (true, ⟨2, 4, 2, 4, ['A', 'C', 'G', 'T'], ['A', 'C', 'G', 'T']⟩,
          ⟨['A', 'C', 'G'], ['A', 'C', 'G'], 0⟩) ∧
    (CnsAln.mk 2 4 2 4 ['A', 'C', 'G', 'T'] ['A', 'C', 'G', 'T']).retrieve_aln_subseqs 2 4
        ⟨['A', 'C', 'G'], ['A', 'C', 'G'], 0⟩
      = .ok (true, ⟨3, 4, 3, 4, ['A', 'C', 'G', 'T'], ['A', 'C', 'G', 'T']⟩,
          ⟨['G', 'T'], ['G', 'T'], 2⟩) ∧
    (CnsAln.stored 0 4 ['A', 'C', 'G', 'T'] ['A', 'C', 'G', 'T']).skip 0
      = .ok ⟨0, 4, 0, 4, ['A', 'C', 'G', 'T'], ['A', 'C', 'G', 'T']⟩ ∧
    (CnsAln.mk 2 4 2 4 ['A', 'C', 'G', 'T'] ['A', 'C', 'G', 'T']).skip 2
      = .ok ⟨2, 4, 2, 4, ['A', 'C', 'G', 'T'], ['A', 'C', 'G', 'T']⟩ ∧
    ['A', 'C', 'G'] = seg ['A', 'C', 'G', 'T'] 0 (2 + 1) ∧
    ['G', 'T'] = seg ['A', 'C', 'G', 'T'] 2 (3 + 1) ∧
    ¬ ((2 : Nat) < 2) ∧ target_pos ['A', 'C', 'G', 'T'] 2 = 2 := by
  decide

/-! ## `CnsAlns`: capacity of the pool -/

theorem add_aln_ok (M : Nat) (p : CnsAlns) (c : AddCall) (k : Nat) (hk : p.num_alns_ = k)
    (hlt : k < p.cns_alns_.length) (hc : c.fits M) :
    p.add_aln M c.soff c.send c.qstr c.tstr =
      .ok { cns_alns_ := p.cns_alns_.set k c.stored, num_alns_ := p.num_alns_ + 1 } := by
  obtain ⟨h1, h2⟩ := hc
  have h3 : c.tstr.length < M := by omega
  have hidx : 0 ≤ (k : Int) ∧ (k : Int) < (p.cns_alns_.length : Int) ∧ True :=
    ⟨by omega, by omega, trivial⟩
  simp only [CnsAlns.add_aln, CnsAlns.next_slot, h1, ne_eq, not_true_eq_false, if_false,
    h2, h3, and_self, hk, Int.toNat_ofNat, AddCall.stored]
  rw [if_pos hidx]

theorem add_aln_full (M : Nat) (p : CnsAlns) (soff send : Int) (qstr tstr : List Char)
    (hfull : p.num_alns_ = p.cns_alns_.length) (hlen : qstr.length = tstr.length) :
    p.add_aln M soff send qstr tstr = .error .out_of_bounds := by
  have hidx : ¬ p.num_alns_ < (p.cns_alns_.length : Int) := by omega
  simp only [CnsAlns.add_aln, CnsAlns.next_slot, hlen, ne_eq, not_true_eq_false, if_false, hidx,
    false_and, and_false]

theorem add_alns_ok (M : Nat) :
    ∀ (calls : List AddCall) (p : CnsAlns) (k : Nat), p.num_alns_ = k →
      k + calls.length ≤ p.cns_alns_.length → (∀ c ∈ calls, c.fits M) →
      ∃ p1, p.add_alns M calls = .ok p1 ∧ p1.num_alns_ = ((k + calls.length : Nat) : Int) ∧
        p1.cns_alns_ = p.cns_alns_.take k ++ calls.map AddCall.stored ++
          p.cns_alns_.drop (k + calls.length) := by
  intro calls
  induction calls with
  | nil =>
    intro p k hk _ _
    exact ⟨p, rfl, by simpa using hk, by simp⟩
  | cons c cs ih =>
    intro p k hk hcap hfit
    have hlt : k < p.cns_alns_.length := by simp only [List.length_cons] at hcap; omega
    have e := add_aln_ok M p c k hk hlt (hfit c (List.mem_cons_self _ _))
    obtain ⟨p1, e1, hnum, hcont⟩ := ih
      { cns_alns_ := p.cns_alns_.set k c.stored, num_alns_ := p.num_alns_ + 1 } (k + 1)
      (by simp only; omega) (by simp only [List.length_set, List.length_cons] at hcap ⊢; omega)
      (fun x hx => hfit x (List.mem_cons_of_mem _ hx))
    refine ⟨p1, by simp only [CnsAlns.add_alns, e, ok_bind, e1], ?_, ?_⟩
    · rw [hnum]; simp only [List.length_cons]; push_cast; omega
    · rw [hcont]
      simp only
      have h1 : (p.cns_alns_.set k c.stored).take (k + 1) = p.cns_alns_.take k ++ [c.stored] := by
        rw [List.set_eq_take_cons_drop _ hlt]
        have : p.cns_alns_.take k ++ c.stored :: p.cns_alns_.drop (k + 1) =
            (p.cns_alns_.take k ++ [c.stored]) ++ p.cns_alns_.drop (k + 1) := by simp
        rw [this]
        exact List.take_left' (by simp [List.length_take]; omega)
      have h2 : (p.cns_alns_.set k c.stored).drop (k + 1 + cs.length) =
          p.cns_alns_.drop (k + (c :: cs).length) := by
        rw [List.drop_set_of_lt _ _ (by omega)]
        congr 1
        simp only [List.length_cons]
        omega
      rw [h1, h2]
      simp

theorem add_alns_append (M : Nat) (xs ys : List AddCall) :
    ∀ p : CnsAlns, p.add_alns M (xs ++ ys) = (p.add_alns M xs >>= fun p1 => p1.add_alns M ys) := by
  induction xs with
  | nil => intro p; rfl
  | cons c cs ih =>
    intro p
    simp only [List.cons_append, CnsAlns.add_alns]
    cases h : p.add_aln M c.soff c.send c.qstr c.tstr with
    | error e => rfl
    | ok p1 => exact ih p1

/-- C7 (amended). Starting from an empty pool (after `clear()`), any sequence of at
most `MAX_CNS_OVLPS` calls of `add_aln` with equal-length strings shorter than
`MAX_SEQ_SIZE` succeeds: every call stores its alignment, `num_alns` is the number
of calls and stays at most `MAX_CNS_OVLPS`. `add_aln` has no capacity test: on the
pool reached after `MAX_CNS_OVLPS` calls, line 108 raises the counter to
`MAX_CNS_OVLPS + 1` and refers to an entry behind the array, so a further call is
no reported capacity error but leaves defined behaviour. -/
theorem add_aln_capacity (MAX_SEQ_SIZE : Nat) (p : CnsAlns) (calls : List AddCall)
    (hp : p.cns_alns_.length = MAX_CNS_OVLPS) (hn : calls.length ≤ MAX_CNS_OVLPS)
    (hfit : ∀ c ∈ calls, c.fits MAX_SEQ_SIZE) :
    ∃ p1, p.clear.add_alns MAX_SEQ_SIZE calls = .ok p1 ∧
      p1.num_alns = calls.length ∧ p1.num_alns ≤ MAX_CNS_OVLPS ∧
      p1.cns_alns_.take calls.length = calls.map AddCall.stored ∧
      (calls.length = MAX_CNS_OVLPS →
        p1.next_slot.1 = MAX_CNS_OVLPS ∧ p1.next_slot.2.num_alns_ = MAX_CNS_OVLPS + 1 ∧
        ∀ (soff send : Int) (qstr tstr : List Char), qstr.length = tstr.length →
          p1.add_aln MAX_SEQ_SIZE soff send qstr tstr = .error .out_of_bounds) := by
  obtain ⟨p1, e, hnum, hcont⟩ := add_alns_ok MAX_SEQ_SIZE calls p.clear 0 rfl
    (by simp only [CnsAlns.clear]; omega) hfit
  simp only [CnsAlns.clear, List.take_zero, List.nil_append, zero_add] at hcont hnum
  have hlen1 : p1.cns_alns_.length = MAX_CNS_OVLPS := by
    rw [hcont]
    simp only [List.length_append, List.length_map, List.length_drop]
    omega
  refine ⟨p1, e, hnum, ?_, ?_, fun hfull => ⟨?_, ?_, fun soff send qstr tstr hlen => ?_⟩⟩
  · simp only [CnsAlns.num_alns, hnum]
    exact_mod_cast hn
  · rw [hcont]
    exact List.take_left' (by simp)
  · simp only [CnsAlns.next_slot, hnum, hfull]
  · simp only [CnsAlns.next_slot, hnum, hfull]
  · exact add_aln_full MAX_SEQ_SIZE p1 soff send qstr tstr (by rw [hnum, hlen1, hfull]) hlen

/-- Witness of C7 (amended): two calls on a fresh pool, with arrays of 8
characters. -/
theorem add_aln_capacity_witness :
    ∃ p1, (CnsAlns.create ⟨0, 0, 0, 0, [], []⟩).clear.add_alns 8
        [⟨0, 4, ['A', 'C', 'G', 'T'], ['A', 'C', 'G', 'T']⟩, ⟨2, 4, ['G', 'T'], ['G', 'T']⟩]
        = .ok p1 ∧
      p1.num_alns = ([⟨0, 4, ['A', 'C', 'G', 'T'], ['A', 'C', 'G', 'T']⟩,
        ⟨2, 4, ['G', 'T'], ['G', 'T']⟩] : List AddCall).length ∧
      p1.num_alns ≤ MAX_CNS_OVLPS ∧
      p1.cns_alns_.take ([⟨0, 4, ['A', 'C', 'G', 'T'], ['A', 'C', 'G', 'T']⟩,
        ⟨2, 4, ['G', 'T'], ['G', 'T']⟩] : List AddCall).length =
        ([⟨0, 4, ['A', 'C', 'G', 'T'], ['A', 'C', 'G', 'T']⟩,
          ⟨2, 4, ['G', 'T'], ['G', 'T']⟩] : List AddCall).map AddCall.stored ∧
      (([⟨0, 4, ['A', 'C', 'G', 'T'], ['A', 'C', 'G', 'T']⟩,
          ⟨2, 4, ['G', 'T'], ['G', 'T']⟩] : List AddCall).length = MAX_CNS_OVLPS →
        p1.next_slot.1 = MAX_CNS_OVLPS ∧ p1.next_slot.2.num_alns_ = MAX_CNS_OVLPS + 1 ∧
        ∀ (soff send : Int) (qstr tstr : List Char), qstr.length = tstr.length →
          p1.add_aln 8 soff send qstr tstr = .error .out_of_bounds) :=
  add_aln_capacity 8 (CnsAlns.create ⟨0, 0, 0, 0, [], []⟩)
    [⟨0, 4, ['A', 'C', 'G', 'T'], ['A', 'C', 'G', 'T']⟩, ⟨2, 4, ['G', 'T'], ['G', 'T']⟩]
    (by simp [CnsAlns.create, CnsAlns.clear]) (by decide)
    (by
      intro c hc
      simp only [List.mem_cons, List.mem_singleton, List.not_mem_nil, or_false] at hc
      rcases hc with rfl | rfl <;> exact ⟨by decide, by decide⟩)

/-- Counterexample to C7 as stated: 100 calls on an empty pool succeed and leave
`num_alns = 100`; for the next call line 108 refers to the entry of index 100 and
raises the counter to 101, and the call is no capacity error that leaves the pool
as it was: it writes behind the array of `MAX_CNS_OVLPS` entries. -/
theorem add_aln_over_capacity_counterexample :
    ((CnsAlns.create ⟨0, 0, 0, 0, [], []⟩).clear.add_alns 8
        (List.replicate 100 ⟨0, 1, ['A'], ['A']⟩)).map
        (fun p => (p.num_alns, p.next_slot.1, p.next_slot.2.num_alns_)) = .ok (100, 100, 101) ∧
    ¬ ((101 : Int) ≤ MAX_CNS_OVLPS) ∧
    (CnsAlns.create ⟨0, 0, 0, 0, [], []⟩).clear.add_alns 8
        (List.replicate 101 ⟨0, 1, ['A'], ['A']⟩) = .error .out_of_bounds := by
  have hfit : ∀ c ∈ List.replicate 100 (AddCall.mk 0 1 ['A'] ['A']), c.fits 8 := by
    intro c hc
    rw [List.eq_of_mem_replicate hc]
    exact ⟨by decide, by decide⟩
  have hlen0 : (CnsAlns.create ⟨0, 0, 0, 0, [], []⟩).clear.cns_alns_.length = 100 := by
    simp [CnsAlns.create, CnsAlns.clear, MAX_CNS_OVLPS]
  obtain ⟨p1, e, hnum, hcont⟩ := add_alns_ok 8 (List.replicate 100 ⟨0, 1, ['A'], ['A']⟩)
    (CnsAlns.create ⟨0, 0, 0, 0, [], []⟩).clear 0 rfl (by rw [hlen0]; simp) hfit
  simp only [List.length_replicate, zero_add] at hnum
  have hlen1 : p1.cns_alns_.length = 100 := by
    rw [hcont]
    simp [hlen0]
  refine ⟨?_, by decide, ?_⟩
  · rw [e]
    simp only [Except.map, CnsAlns.num_alns, CnsAlns.next_slot, hnum]
    rfl
  · have hsplit : List.replicate 101 (AddCall.mk 0 1 ['A'] ['A']) =
        List.replicate 100 ⟨0, 1, ['A'], ['A']⟩ ++ [⟨0, 1, ['A'], ['A']⟩] := by
      rw [← List.replicate_succ']
    rw [hsplit, add_alns_append, e]
    simp only [ok_bind, CnsAlns.add_alns]
    rw [add_aln_full 8 p1 0 1 ['A'] ['A'] (by rw [hnum, hlen1]) rfl]
    rfl

/-! ## `build_cns_thrd_data_can`: every candidate is assigned once -/

theorem scan_group_spec (ec_list : List ExtensionCandidate) (max_id : Int) :
    ∀ (fuel j : Nat), j ≤ ec_list.length → ec_list.length - j ≤ fuel →
      ∃ j1, scan_group ec_list ec_list.length max_id fuel j = .ok j1 ∧ j ≤ j1 ∧
        j1 ≤ ec_list.length ∧
        (∀ c, ec_list[j1]? = some c → max_id ≤ c.sid) ∧
        (∀ k c, j ≤ k → k < j1 → ec_list[k]? = some c → c.sid < max_id) := by
  intro fuel
  induction fuel with
  | zero =>
    intro j h1 h2
    have hj : ¬ j < ec_list.length := by omega
    refine ⟨j, by simp only [scan_group, if_neg hj], le_refl _, h1, ?_, ?_⟩
    · intro c hc
      have := (List.getElem?_eq_some_iff.mp hc).1
      omega
    · intro k c hk1 hk2; omega
  | succ fuel ih =>
    intro j h1 h2
    by_cases hj : j < ec_list.length
    · simp only [scan_group, if_pos hj, List.getElem?_eq_getElem hj]
      by_cases hs : ec_list[j].sid < max_id
      · rw [if_pos hs]
        obtain ⟨j1, e, l1, l2, hstop, hrun⟩ := ih (j + 1) (by omega) (by omega)
        refine ⟨j1, e, by omega, l2, hstop, ?_⟩
        intro k c hk1 hk2 hc
        rcases Nat.lt_or_ge j k with h | h
        · exact hrun k c h hk2 hc
        · have hk : k = j := by omega
          subst hk
          rw [List.getElem?_eq_getElem hj] at hc
          rw [← Option.some.inj hc]
          exact hs
      · rw [if_neg hs]
        refine ⟨j, rfl, le_refl _, h1, ?_, ?_⟩
        · intro c hc
          rw [List.getElem?_eq_getElem hj] at hc
          rw [← Option.some.inj hc]
          omega
        · intro k c hk1 hk2; omega
    · refine ⟨j, by simp only [scan_group, if_neg hj], le_refl _, h1, ?_, ?_⟩
      · intro c hc
        have := (List.getElem?_eq_some_iff.mp hc).1
        omega
      · intro k c hk1 hk2; omega

theorem partition_loop_spec (ec_list : List ExtensionCandidate) (span : Int) :
    ∀ (fuel : Nat) (max_id : Int) (i : Nat) (tid : Int), i ≤ ec_list.length →
      ec_list.length - i ≤ fuel →
      ∃ ctds, partition_loop ec_list ec_list.length span fuel max_id i tid = .ok ctds ∧
        consecutive_from i tid ctds ∧
        (ctds.map (fun c => c.slice ec_list)).flatten = ec_list.drop i ∧
        (ctds.map (fun c => c.num_candidates)).sum = ((ec_list.length - i : Nat) : Int) := by
  intro fuel
  induction fuel with
  | zero =>
    intro max_id i tid h1 h2
    have hi : ¬ i < ec_list.length := by omega
    refine ⟨[], by simp only [partition_loop, if_neg hi], trivial, ?_, ?_⟩
    · simp [List.drop_eq_nil_of_le (by omega : ec_list.length ≤ i)]
    · simp; omega
  | succ fuel ih =>
    intro max_id i tid h1 h2
    by_cases hi : i < ec_list.length
    · obtain ⟨j, e, l1, l2, -, -⟩ :=
        scan_group_spec ec_list (max_id + span) (ec_list.length - (i + 1)) (i + 1) (by omega)
          (le_refl _)
      obtain ⟨rest, e2, hcons, hflat, hsum⟩ := ih (max_id + span) j (tid + 1) l2 (by omega)
      refine ⟨⟨tid, i, (j : Int) - (i : Int)⟩ :: rest, ?_, ?_, ?_, ?_⟩
      · simp only [partition_loop, if_pos hi, e, ok_bind, e2]
      · refine ⟨rfl, rfl, by simp only; omega, ?_⟩
        have : i + ((j : Int) - (i : Int)).toNat = j := by omega
        simp only [this]
        exact hcons
      · rw [List.map_cons, List.flatten_cons, hflat]
        have hji : ((j : Int) - (i : Int)).toNat = j - i := by omega
        simp only [ConsensusThreadData.slice, hji]
        have hd : ec_list.drop j = (ec_list.drop i).drop (j - i) := by
          rw [List.drop_drop]
          congr 1
          omega
        rw [hd, List.take_append_drop]
      · simp only [List.map_cons, List.sum_cons, hsum]
        omega
    · refine ⟨[], by simp only [partition_loop, if_neg hi], trivial, ?_, ?_⟩
      · simp [List.drop_eq_nil_of_le (by omega : ec_list.length ≤ i)]
      · simp; omega

theorem sort_by_sid_perm (ec_list : List ExtensionCandidate) :
    (sort_by_sid ec_list).Perm ec_list :=
  List.perm_insertionSort _ ec_list

theorem sort_by_sid_sorted (ec_list : List ExtensionCandidate) :
    (sort_by_sid ec_list).Sorted (fun a b => a.sid ≤ b.sid) := by
  haveI : IsTotal ExtensionCandidate (fun a b => a.sid ≤ b.sid) := ⟨fun a b => le_total a.sid b.sid⟩
  haveI : IsTrans ExtensionCandidate (fun a b => a.sid ≤ b.sid) :=
    ⟨fun a b c h1 h2 => le_trans h1 h2⟩
  exact List.sorted_insertionSort _ ec_list

theorem sort_by_sid_length (ec_list : List ExtensionCandidate) :
    (sort_by_sid ec_list).length = ec_list.length :=
  (sort_by_sid_perm ec_list).length_eq

/-- C8. For every candidate list and every worker count `W ≥ 1`,
`build_cns_thrd_data_can` returns; the array is left sorted by `sid` (a permutation
of the input), the contexts own consecutive ranges of it starting at offset 0, the
concatenation of their slices in production order is the sorted array, and their
`num_candidates` sum to `nec`: every candidate belongs to exactly one context. -/
theorem build_assigns_each_candidate_once (ec_list : List ExtensionCandidate)
    (min_rid max_rid W : Int) (hW : 1 ≤ W) :
    ∃ ctds, build_cns_thrd_data_can ec_list min_rid max_rid W
        = .ok (sort_by_sid ec_list, ctds) ∧
      (sort_by_sid ec_list).Perm ec_list ∧
      (sort_by_sid ec_list).Sorted (fun a b => a.sid ≤ b.sid) ∧
      consecutive_from 0 0 ctds ∧
      (ctds.map (fun c => c.slice (sort_by_sid ec_list))).flatten = sort_by_sid ec_list ∧
      (ctds.map (fun c => c.num_candidates)).sum = (ec_list.length : Int) := by
  have hW0 : W ≠ 0 := by omega
  obtain ⟨ctds, e, hcons, hflat, hsum⟩ :=
    partition_loop_spec (sort_by_sid ec_list)
      (Int.tdiv (max_rid - min_rid + 1 + W - 1) W) (sort_by_sid ec_list).length min_rid 0 0
      (Nat.zero_le _) (by omega)
  rw [sort_by_sid_length] at e hsum
  refine ⟨ctds, ?_, sort_by_sid_perm ec_list, sort_by_sid_sorted ec_list, hcons, ?_, ?_⟩
  · simp only [build_cns_thrd_data_can, if_neg hW0, e, ok_bind]
  · simpa using hflat
  · simpa using hsum

/-- Witness of C8: seven candidates, three workers. -/
theorem build_assigns_each_candidate_once_witness :
    ∃ ctds, build_cns_thrd_data_can
        [⟨0, 9⟩, ⟨1, 5⟩, ⟨2, 1⟩, ⟨3, 5⟩, ⟨4, 2⟩, ⟨5, 1⟩, ⟨6, 5⟩] 1 9 3
        = .ok (sort_by_sid [⟨0, 9⟩, ⟨1, 5⟩, ⟨2, 1⟩, ⟨3, 5⟩, ⟨4, 2⟩, ⟨5, 1⟩, ⟨6, 5⟩], ctds) ∧
      (sort_by_sid [⟨0, 9⟩, ⟨1, 5⟩, ⟨2, 1⟩, ⟨3, 5⟩, ⟨4, 2⟩, ⟨5, 1⟩, ⟨6, 5⟩]).Perm
        [⟨0, 9⟩, ⟨1, 5⟩, ⟨2, 1⟩, ⟨3, 5⟩, ⟨4, 2⟩, ⟨5, 1⟩, ⟨6, 5⟩] ∧
      (sort_by_sid [⟨0, 9⟩, ⟨1, 5⟩, ⟨2, 1⟩, ⟨3, 5⟩, ⟨4, 2⟩, ⟨5, 1⟩, ⟨6, 5⟩]).Sorted
        (fun a b => a.sid ≤ b.sid) ∧
      consecutive_from 0 0 ctds ∧
      (ctds.map (fun c => c.slice
        (sort_by_sid [⟨0, 9⟩, ⟨1, 5⟩, ⟨2, 1⟩, ⟨3, 5⟩, ⟨4, 2⟩, ⟨5, 1⟩, ⟨6, 5⟩]))).flatten =
        sort_by_sid [⟨0, 9⟩, ⟨1, 5⟩, ⟨2, 1⟩, ⟨3, 5⟩, ⟨4, 2⟩, ⟨5, 1⟩, ⟨6, 5⟩] ∧
      (ctds.map (fun c => c.num_candidates)).sum =
        (([⟨0, 9⟩, ⟨1, 5⟩, ⟨2, 1⟩, ⟨3, 5⟩, ⟨4, 2⟩, ⟨5, 1⟩, ⟨6, 5⟩] :
          List ExtensionCandidate).length : Int) :=
  build_assigns_each_candidate_once [⟨0, 9⟩, ⟨1, 5⟩, ⟨2, 1⟩, ⟨3, 5⟩, ⟨4, 2⟩, ⟨5, 1⟩, ⟨6, 5⟩]
    1 9 3 (by decide)

/-! ## `build_cns_thrd_data_can`: target-id ranges of the contexts -/

/-- C9 (evaluation at the failing input). Candidates with target ids `1, 9, 9`, all
in `[1, 9]`, and three workers: the span is 3, the first context is cut at
`sid < 4`, the second starts with a candidate of target id 9 and is cut at
`sid < 7`, so the second candidate of target id 9 opens a third context. Target
id 9 occurs in two contexts. -/
theorem build_splits_target_id :
    (build_cns_thrd_data_can [⟨0, 1⟩, ⟨1, 9⟩, ⟨2, 9⟩] 1 9 3).map context_sids
      = .ok [[1], [9], [9]] := by
  decide

/-! ## `build_cns_thrd_data_can`: number of contexts -/

theorem consecutive_from_num_candidates :
    ∀ (ctds : List ConsensusThreadData) (i : Nat) (tid : Int), consecutive_from i tid ctds →
      ∀ c ∈ ctds, 1 ≤ c.num_candidates := by
  intro ctds
  induction ctds with
  | nil => intro i tid _ c hc; simp at hc
  | cons c0 cs ih =>
    intro i tid h c hc
    obtain ⟨-, -, h3, h4⟩ := h
    rcases List.mem_cons.mp hc with rfl | hc
    · exact h3
    · exact ih _ _ h4 c hc

/-- With all target ids below `min_rid + W * span`, a context with thread id `W` or
more is never constructed. -/
theorem partition_loop_bound (l : List ExtensionCandidate) (span min_rid W : Int)
    (hspan : 0 < span) (hub : ∀ c ∈ l, c.sid < min_rid + W * span) :
    ∀ (fuel : Nat) (max_id : Int) (i : Nat) (tid : Int) (ctds : List ConsensusThreadData),
      partition_loop l l.length span fuel max_id i tid = .ok ctds → i ≤ l.length →
      l.length - i ≤ fuel → max_id = min_rid + tid * span → (i < l.length → tid < W) →
      (∀ c ∈ ctds, tid ≤ c.thread_id ∧ c.thread_id < W) ∧
        (ctds = [] ∨ tid + (ctds.length : Int) ≤ W) := by
  intro fuel
  induction fuel with
  | zero =>
    intro max_id i tid ctds h h1 h2 _ _
    have hi : ¬ i < l.length := by omega
    simp only [partition_loop, if_neg hi] at h
    cases h
    exact ⟨fun c hc => by simp at hc, Or.inl rfl⟩
  | succ fuel ih =>
    intro max_id i tid ctds h h1 h2 hmax htid
    by_cases hi : i < l.length
    · obtain ⟨j, e, l1, l2, hstop, -⟩ :=
        scan_group_spec l (max_id + span) (l.length - (i + 1)) (i + 1) (by omega) (le_refl _)
      obtain ⟨rest, e2, -⟩ := partition_loop_spec l span fuel (max_id + span) j (tid + 1) l2
        (by omega)
      simp only [partition_loop, if_pos hi, e, ok_bind, e2] at h
      cases h
      have hnext : j < l.length → tid + 1 < W := by
        intro hj
        have h5 := hstop l[j] (List.getElem?_eq_getElem hj)
        have h6 := hub l[j] (List.getElem_mem _)
        by_contra hcon
        have h7 : W * span ≤ (tid + 1) * span :=
          mul_le_mul_of_nonneg_right (by omega) (le_of_lt hspan)
        have h8 : (tid + 1) * span = tid * span + span := by ring
        omega
      obtain ⟨hall, hlen⟩ := ih (max_id + span) j (tid + 1) rest e2 l2 (by omega)
        (by rw [hmax]; ring) hnext
      have ht := htid hi
      refine ⟨?_, Or.inr ?_⟩
      · intro c hc
        rcases List.mem_cons.mp hc with rfl | hc
        · exact ⟨le_refl _, ht⟩
        · have := hall c hc
          exact ⟨by omega, this.2⟩
      · simp only [List.length_cons]
        rcases hlen with h | h
        · subst h
          simp only [List.length_nil]
          omega
        · push_cast
          omega
    · simp only [partition_loop, if_neg hi] at h
      cases h
      exact ⟨fun c hc => by simp at hc, Or.inl rfl⟩

theorem span_covers_range (n W : Int) (hn : 1 ≤ n) (hW : 1 ≤ W) :
    0 < Int.tdiv (n + W - 1) W ∧ n ≤ W * Int.tdiv (n + W - 1) W := by
  rw [Int.tdiv_eq_ediv (by omega) (by omega)]
  have h1 := Int.lt_ediv_add_one_mul_self (n + W - 1) (by omega : 0 < W)
  have h2 : ((n + W - 1) / W + 1) * W = W * ((n + W - 1) / W) + W := by ring
  have h3 : 1 ≤ (n + W - 1) / W := Int.le_ediv_of_mul_le (by omega) (by omega)
  exact ⟨by omega, by omega⟩

/-- C10. For every candidate list whose target ids lie in `[min_rid, max_rid]` and
every worker count `W ≥ 1`, `build_cns_thrd_data_can` returns at most `W`
contexts; every context has a thread id in `[0, W)`, the index of its entry in
`ppctd`, and holds at least one candidate; an empty list gives no context. -/
theorem build_at_most_W_contexts (ec_list : List ExtensionCandidate) (min_rid max_rid W : Int)
    (hW : 1 ≤ W) (hrange : ∀ c ∈ ec_list, min_rid ≤ c.sid ∧ c.sid ≤ max_rid) :
    ∃ ctds, build_cns_thrd_data_can ec_list min_rid max_rid W
        = .ok (sort_by_sid ec_list, ctds) ∧
      (ctds.length : Int) ≤ W ∧
      (∀ c ∈ ctds, 0 ≤ c.thread_id ∧ c.thread_id < W ∧ 1 ≤ c.num_candidates) ∧
      (ec_list = [] → ctds = []) := by
  have hW0 : W ≠ 0 := by omega
  obtain ⟨ctds, e, hcons, -, hsum⟩ :=
    partition_loop_spec (sort_by_sid ec_list)
      (Int.tdiv (max_rid - min_rid + 1 + W - 1) W) (sort_by_sid ec_list).length min_rid 0 0
      (Nat.zero_le _) (by omega)
  have hnum := consecutive_from_num_candidates ctds 0 0 hcons
  have hempty : ec_list = [] → ctds = [] := by
    intro h
    subst h
    simp only [sort_by_sid, List.insertionSort, List.length_nil, partition_loop,
      Nat.lt_irrefl, if_false] at e
    cases e
    rfl
  have hbuild : build_cns_thrd_data_can ec_list min_rid max_rid W
      = .ok (sort_by_sid ec_list, ctds) := by
    rw [sort_by_sid_length] at e
    simp only [build_cns_thrd_data_can, if_neg hW0, e, ok_bind]
  cases hl : ec_list with
  | nil =>
    have := hempty hl
    subst this
    exact ⟨[], hl ▸ hbuild, by simp only [List.length_nil]; omega, fun c hc => by simp at hc,
      fun _ => rfl⟩
  | cons c0 cs =>
    rw [← hl]
    have hc0 := hrange c0 (by rw [hl]; exact List.mem_cons_self _ _)
    obtain ⟨hspan, hcover⟩ := span_covers_range (max_rid - min_rid + 1) W (by omega) hW
    have hub : ∀ c ∈ sort_by_sid ec_list,
        c.sid < min_rid + W * Int.tdiv (max_rid - min_rid + 1 + W - 1) W := by
      intro c hc
      have := hrange c ((sort_by_sid_perm ec_list).mem_iff.mp hc)
      omega
    obtain ⟨hall, hlen⟩ := partition_loop_bound (sort_by_sid ec_list) _ min_rid W hspan hub
      (sort_by_sid ec_list).length min_rid 0 0 ctds e (Nat.zero_le _) (by omega) (by ring)
      (fun _ => by omega)
    refine ⟨ctds, hbuild, ?_, fun c hc => ⟨(hall c hc).1, (hall c hc).2, hnum c hc⟩, hempty⟩
    rcases hlen with h | h
    · subst h
      simp only [List.length_nil]
      omega
    · omega

/-- Witness of C10: seven candidates with target ids in `[1, 9]`, three workers. -/
theorem build_at_most_W_contexts_witness :
    ∃ ctds, build_cns_thrd_data_can
        [⟨0, 1⟩, ⟨1, 1⟩, ⟨2, 2⟩, ⟨3, 5⟩, ⟨4, 5⟩, ⟨5, 5⟩, ⟨6, 9⟩] 1 9 3
        = .ok (sort_by_sid [⟨0, 1⟩, ⟨1, 1⟩, ⟨2, 2⟩, ⟨3, 5⟩, ⟨4, 5⟩, ⟨5, 5⟩, ⟨6, 9⟩], ctds) ∧
      (ctds.length : Int) ≤ 3 ∧
      (∀ c ∈ ctds, 0 ≤ c.thread_id ∧ c.thread_id < 3 ∧ 1 ≤ c.num_candidates) ∧
      (([⟨0, 1⟩, ⟨1, 1⟩, ⟨2, 2⟩, ⟨3, 5⟩, ⟨4, 5⟩, ⟨5, 5⟩, ⟨6, 9⟩] : List ExtensionCandidate) = [] →
        ctds = []) :=
  build_at_most_W_contexts [⟨0, 1⟩, ⟨1, 1⟩, ⟨2, 2⟩, ⟨3, 5⟩, ⟨4, 5⟩, ⟨5, 5⟩, ⟨6, 9⟩] 1 9 3
    (by decide) (by decide)

/-! ## `slide_window2` on inputs of different lengths -/

/-- C17. For strings of different lengths, every window width and every threshold,
`slide_window2` returns at its first test: the output string `newstr1` keeps the
content it had before the call (the inputs are `const` references). -/
theorem slide_window2_length_mismatch (a b newstr1 : List Char) (k : Int) (tau : ℚ)
    (h : a.length ≠ b.length) : slide_window2 a b newstr1 k tau = .ok newstr1 := by
  simp only [slide_window2, if_pos h]

/-- Witness of C17: `ACG` against `AC`, with `TT` in the output string. -/
theorem slide_window2_length_mismatch_witness :
    slide_window2 ['A', 'C', 'G'] ['A', 'C'] ['T', 'T'] 2 (9 / 10) = .ok ['T', 'T'] :=
  slide_window2_length_mismatch ['A', 'C', 'G'] ['A', 'C'] ['T', 'T'] 2 (9 / 10) (by decide)

/-! ## `CnsAlns`: what `add_aln` stores -/

/-- C13. On a pool that holds `k < MAX_CNS_OVLPS` alignments, `add_aln(soff, send,
qstr, tstr)` with equal-length strings shorter than `MAX_SEQ_SIZE` returns, raises
`num_alns` by one and leaves the `k` stored alignments as they were; the new last
alignment has the cursor `soff` and the end `send` given, `aln_idx = 0`,
`aln_size = |qstr|` and the strings `qstr` and `tstr`. -/
theorem add_aln_appends (MAX_SEQ_SIZE : Nat) (p : CnsAlns) (k : Nat) (soff send : Int)
    (qstr tstr : List Char) (harr : p.cns_alns_.length = MAX_CNS_OVLPS)
    (hk : p.num_alns = k) (hcap : k < MAX_CNS_OVLPS)
    (hlen : qstr.length = tstr.length) (hsize : qstr.length < MAX_SEQ_SIZE) :
    ∃ p1, p.add_aln MAX_SEQ_SIZE soff send qstr tstr = .ok p1 ∧
      p1.num_alns = p.num_alns + 1 ∧
      p1.cns_alns_.take k = p.cns_alns_.take k ∧
      p1.cns_alns_[k]? =
        some { soff := soff, send := send, aln_idx := 0, aln_size := qstr.length,
               qaln := qstr, saln := tstr } := by
  have e := add_aln_ok MAX_SEQ_SIZE p ⟨soff, send, qstr, tstr⟩ k hk (by omega) ⟨hlen, hsize⟩
  refine ⟨_, e, rfl, ?_, ?_⟩
  · simp only
    rw [List.set_eq_take_cons_drop _ (by omega : k < p.cns_alns_.length)]
    exact List.take_left' (by simp only [List.length_take]; omega)
  · simp only [AddCall.stored, CnsAln.stored]
    rw [List.getElem?_set_self (by omega)]

/-- Witness of C13: a second alignment added to a pool that holds one. -/
theorem add_aln_appends_witness :
    ∃ p1, (CnsAlns.mk (List.replicate 100 ⟨7, 9, 1, 2, ['A', 'A'], ['A', 'A']⟩) 1).add_aln 8 2 4
        ['G', '-', 'T'] ['G', 'C', 'T'] = .ok p1 ∧
      p1.num_alns =
        (CnsAlns.mk (List.replicate 100 ⟨7, 9, 1, 2, ['A', 'A'], ['A', 'A']⟩) 1).num_alns + 1 ∧
      p1.cns_alns_.take 1 =
        (CnsAlns.mk (List.replicate 100 ⟨7, 9, 1, 2, ['A', 'A'], ['A', 'A']⟩) 1).cns_alns_.take 1 ∧
      p1.cns_alns_[1]? =
        some { soff := 2, send := 4, aln_idx := 0,
               aln_size := (['G', '-', 'T'] : List Char).length,
               qaln := ['G', '-', 'T'], saln := ['G', 'C', 'T'] } :=
  add_aln_appends 8 (CnsAlns.mk (List.replicate 100 ⟨7, 9, 1, 2, ['A', 'A'], ['A', 'A']⟩) 1) 1 2 4
    ['G', '-', 'T'] ['G', 'C', 'T'] (by simp [MAX_CNS_OVLPS]) rfl (by decide) (by decide)
    (by decide)

/-! ## `retrieve_aln_subseqs`: termination and array bounds -/

theorem buf_at_in_bounds (buf : List Char) (i : Int) (c : Char) (h : buf_at buf i = .ok c) :
    0 ≤ i ∧ i < (buf.length : Int) := by
  unfold buf_at at h
  split at h
  · rename_i h0
    refine ⟨h0, ?_⟩
    split at h
    · rename_i c1 hc
      have := (List.getElem?_eq_some_iff.mp hc).1
      omega
    · cases h
  · cases h

/-- C20. For every alignment state with `0 ≤ aln_idx` whose arrays hold `aln_size`
characters and every window, `retrieve_aln_subseqs` returns within the iteration
budget and without a fault of the bounds-checked embedding, whose reads of `qaln`
and `saln` succeed only at indices in `[0, aln_size - 1]`; an empty alignment is
rejected at entry and left as it is; after the call
`aln_idx ≤ max(aln_idx before, aln_size - 1)`. -/
theorem retrieve_aln_subseqs_in_bounds (a : CnsAln) (sb se : Int) (out : Extract)
    (hv : a.Valid) :
    (∃ (r : Bool) (a1 : CnsAln) (out1 : Extract),
      a.retrieve_aln_subseqs sb se out = .ok (r, a1, out1) ∧
      a1.aln_idx ≤ max a.aln_idx (a.aln_size - 1) ∧
      (a.aln_size = 0 → r = false ∧ a1 = a ∧ out1 = out)) ∧
    (∀ (i : Int) (c : Char), buf_at a.qaln i = .ok c ∨ buf_at a.saln i = .ok c →
      0 ≤ i ∧ i ≤ a.aln_size - 1) := by
  constructor
  · by_cases hg : se ≤ a.soff ∨ sb ≥ a.send ∨ a.aln_idx ≥ a.aln_size - 1
    · refine ⟨false, a, out, by simp only [CnsAln.retrieve_aln_subseqs, if_pos hg], ?_,
        fun _ => ⟨rfl, rfl, rfl⟩⟩
      exact le_max_left _ _
    · obtain ⟨a1, n, i, hn, -, -, -, -, -, -, -, -, -, r, a2, q, t, m, e2, -, hm, -, hmb, -⟩ :=
        retrieve_cases a sb se out hv hg
      refine ⟨r, a2, _, e2, ?_, fun h0 => ?_⟩
      · rw [hm]
        exact le_trans (by omega) (le_max_right _ _)
      · exfalso
        omega
  · intro i c h
    obtain ⟨-, hq, hs⟩ := hv
    rcases h with h | h
    · have := buf_at_in_bounds _ _ _ h
      omega
    · have := buf_at_in_bounds _ _ _ h
      omega

/-- Witness of C20: an alignment of six columns with the cursor on column 2. -/
theorem retrieve_aln_subseqs_in_bounds_witness :
    (∃ (r : Bool) (a1 : CnsAln) (out1 : Extract),
      (CnsAln.mk 12 15 2 6 ['A', '-', 'C', 'A', 'G', 'T']
        ['A', 'C', 'C', '-', 'G', 'T']).retrieve_aln_subseqs 13 15 ⟨[], [], 0⟩
        = .ok (r, a1, out1) ∧
      a1.aln_idx ≤ max (CnsAln.mk 12 15 2 6 ['A', '-', 'C', 'A', 'G', 'T']
          ['A', 'C', 'C', '-', 'G', 'T']).aln_idx
        ((CnsAln.mk 12 15 2 6 ['A', '-', 'C', 'A', 'G', 'T']
          ['A', 'C', 'C', '-', 'G', 'T']).aln_size - 1) ∧
      ((CnsAln.mk 12 15 2 6 ['A', '-', 'C', 'A', 'G', 'T']
          ['A', 'C', 'C', '-', 'G', 'T']).aln_size = 0 →
        r = false ∧
        a1 = CnsAln.mk 12 15 2 6 ['A', '-', 'C', 'A', 'G', 'T'] ['A', 'C', 'C', '-', 'G', 'T'] ∧
        out1 = ⟨[], [], 0⟩)) ∧
    (∀ (i : Int) (c : Char),
      buf_at (CnsAln.mk 12 15 2 6 ['A', '-', 'C', 'A', 'G', 'T']
          ['A', 'C', 'C', '-', 'G', 'T']).qaln i = .ok c ∨
        buf_at (CnsAln.mk 12 15 2 6 ['A', '-', 'C', 'A', 'G', 'T']
          ['A', 'C', 'C', '-', 'G', 'T']).saln i = .ok c →
      0 ≤ i ∧ i ≤ (CnsAln.mk 12 15 2 6 ['A', '-', 'C', 'A', 'G', 'T']
          ['A', 'C', 'C', '-', 'G', 'T']).aln_size - 1) :=
  retrieve_aln_subseqs_in_bounds
    (CnsAln.mk 12 15 2 6 ['A', '-', 'C', 'A', 'G', 'T'] ['A', 'C', 'C', '-', 'G', 'T']) 13 15
    ⟨[], [], 0⟩ ⟨by decide, by decide, by decide⟩

/-! ## `retrieve_aln_subseqs`: the cursor -/

theorem retrieve_later (a : CnsAln) (sb se : Int) (out : Extract) (hv : a.Valid) :
    ∃ (r : Bool) (a1 : CnsAln) (out1 : Extract),
      a.retrieve_aln_subseqs sb se out = .ok (r, a1, out1) ∧ a.Later a1 := by
  by_cases hg : se ≤ a.soff ∨ sb ≥ a.send ∨ a.aln_idx ≥ a.aln_size - 1
  · exact ⟨false, a, out, by simp only [CnsAln.retrieve_aln_subseqs, if_pos hg],
      CnsAln.Later.refl a⟩
  · obtain ⟨a1, n, i, -, -, hL1, -, -, -, -, -, -, -, r, a2, q, t, m, e2, hL2, -⟩ :=
      retrieve_cases a sb se out hv hg
    exact ⟨r, a2, _, e2, hL1.trans hL2⟩

theorem retrieve_on_track (a : CnsAln) (sb se : Int) (out : Extract) (start : Int)
    (ht : a.OnTrack start) :
    ∃ (r : Bool) (a1 : CnsAln) (out1 : Extract),
      a.retrieve_aln_subseqs sb se out = .ok (r, a1, out1) ∧ a.Later a1 ∧
      a1.OnTrack start := by
  obtain ⟨hv, n0, hn0, hlt0, hsoff0⟩ := ht
  by_cases hg : se ≤ a.soff ∨ sb ≥ a.send ∨ a.aln_idx ≥ a.aln_size - 1
  · exact ⟨false, a, out, by simp only [CnsAln.retrieve_aln_subseqs, if_pos hg],
      CnsAln.Later.refl a, hv, n0, hn0, hlt0, hsoff0⟩
  · obtain ⟨a1, n, i, hn, -, hL1, hi, hni, hib, hsoff1, -, -, -, r, a2, q, t, m, e2, hL2, hm, him,
      hmb, hsoff2, -⟩ := retrieve_cases a sb se out hv hg
    have hL : a.Later a2 := hL1.trans hL2
    refine ⟨r, a2, _, e2, hL, hL.valid hv, m, hm, ?_, ?_⟩
    · rw [hL.2.2.2.1]
      have := hv.2.2
      omega
    · rw [hL.2.2.2.1]
      have hnn : n = n0 := by omega
      subst hnn
      have hs := hv.2.2
      have h1 := seg_append a.saln 0 (n + 1) (m + 1) (by omega) (by omega) (by omega)
      have h2 := seg_append a.saln (n + 1) (i + 1) (m + 1) (by omega) (by omega) (by omega)
      rw [seg_zero, seg_zero] at h1
      rw [h1, nongap_count_append, h2, nongap_count_append]
      push_cast
      omega

theorem retrieve_calls_on_track (start : Int) :
    ∀ (calls : List (Int × Int)) (a : CnsAln) (out : Extract), a.OnTrack start →
      ∃ (a1 : CnsAln) (out1 : Extract), a.retrieve_calls calls out = .ok (a1, out1) ∧
        a.Later a1 ∧ a1.OnTrack start := by
  intro calls
  induction calls with
  | nil => intro a out ht; exact ⟨a, out, rfl, CnsAln.Later.refl a, ht⟩
  | cons w ws ih =>
    intro a out ht
    obtain ⟨r, a1, out1, e1, hL1, ht1⟩ := retrieve_on_track a w.1 w.2 out start ht
    obtain ⟨a2, out2, e2, hL2, ht2⟩ := ih a1 out1 ht1
    exact ⟨a2, out2, by simp only [CnsAln.retrieve_calls, e1, ok_bind, e2], hL1.trans hL2, ht2⟩

/-- C12. A call of `retrieve_aln_subseqs` on a stored alignment returns, whatever
its result, with `soff` and `aln_idx` at least what they were before; and for a
well-formed alignment stored at `[start, send)` the cursor `soff` lies in
`[start, send]` after any sequence of calls. -/
theorem cursor_monotone_and_bounded (a : CnsAln) (sb se : Int) (out : Extract)
    (start send : Int) (qaln saln : List Char) (calls : List (Int × Int)) (out0 : Extract)
    (hv : a.Valid) (hlen : qaln.length = saln.length)
    (h0 : ∃ c, saln[0]? = some c ∧ c ≠ kGap) (hsend : send - start = nongap_count saln) :
    (∃ (r : Bool) (a1 : CnsAln) (out1 : Extract),
      a.retrieve_aln_subseqs sb se out = .ok (r, a1, out1) ∧
      a.soff ≤ a1.soff ∧ a.aln_idx ≤ a1.aln_idx) ∧
    (∃ (a1 : CnsAln) (out1 : Extract),
      (CnsAln.stored start send qaln saln).retrieve_calls calls out0 = .ok (a1, out1) ∧
      start ≤ a1.soff ∧ a1.soff ≤ send) := by
  constructor
  · obtain ⟨r, a1, out1, e, hL⟩ := retrieve_later a sb se out hv
    exact ⟨r, a1, out1, e, hL.2.2.2.2.2, hL.2.2.2.2.1⟩
  · obtain ⟨c0, hc0, hc0g⟩ := h0
    have hpos : 0 < saln.length := (List.getElem?_eq_some_iff.mp hc0).1
    have htrack : (CnsAln.stored start send qaln saln).OnTrack start := by
      refine ⟨⟨le_refl _, rfl, by simp [CnsAln.stored, hlen]⟩, 0, rfl, hpos, ?_⟩
      have := nongap_count_take_succ saln c0 1 hc0 hc0g (le_refl _)
      rw [seg_self] at this
      have hnil : nongap_count ([] : List Char) = 0 := rfl
      show start + 1 = start + (nongap_count (saln.take (0 + 1)) : Int)
      rw [Nat.zero_add, this, hnil]
      rfl
    obtain ⟨a1, out1, e, hL, -, n, -, hn, hsoff⟩ :=
      retrieve_calls_on_track start calls _ out0 htrack
    have hs : a1.saln = saln := hL.2.2.2.1
    rw [hs] at hsoff hn
    have h1 := nongap_count_take_succ saln c0 (n + 1) hc0 hc0g (by omega)
    have h2 := nongap_count_take_le saln (n + 1)
    exact ⟨a1, out1, e, by omega, by omega⟩

/-- Witness of C12: a call on a partly consumed alignment, and three calls on
`A-CAGT` over `ACC-GT` stored at `[10, 15)`. -/
theorem cursor_monotone_and_bounded_witness :
    (∃ (r : Bool) (a1 : CnsAln) (out1 : Extract),
      (CnsAln.mk 12 15 2 6 ['A', '-', 'C', 'A', 'G', 'T']
        ['A', 'C', 'C', '-', 'G', 'T']).retrieve_aln_subseqs 13 15 ⟨[], [], 0⟩
        = .ok (r, a1, out1) ∧
      (CnsAln.mk 12 15 2 6 ['A', '-', 'C', 'A', 'G', 'T']
        ['A', 'C', 'C', '-', 'G', 'T']).soff ≤ a1.soff ∧
      (CnsAln.mk 12 15 2 6 ['A', '-', 'C', 'A', 'G', 'T']
        ['A', 'C', 'C', '-', 'G', 'T']).aln_idx ≤ a1.aln_idx) ∧
    (∃ (a1 : CnsAln) (out1 : Extract),
      (CnsAln.stored 10 15 ['A', '-', 'C', 'A', 'G', 'T']
        ['A', 'C', 'C', '-', 'G', 'T']).retrieve_calls [(10, 12), (12, 13), (11, 20)] ⟨[], [], 0⟩
        = .ok (a1, out1) ∧
      (10 : Int) ≤ a1.soff ∧ a1.soff ≤ 15) :=
  cursor_monotone_and_bounded
    (CnsAln.mk 12 15 2 6 ['A', '-', 'C', 'A', 'G', 'T'] ['A', 'C', 'C', '-', 'G', 'T']) 13 15
    ⟨[], [], 0⟩ 10 15 ['A', '-', 'C', 'A', 'G', 'T'] ['A', 'C', 'C', '-', 'G', 'T']
    [(10, 12), (12, 13), (11, 20)] ⟨[], [], 0⟩ ⟨by decide, by decide, by decide⟩ (by decide)
    ⟨'A', by decide, by decide⟩ (by decide)

/-! ## `build_cns_thrd_data_can`: the groups -/

theorem partition_loop_runs (l : List ExtensionCandidate) (min_rid span : Int) :
    ∀ (fuel : Nat) (max_id : Int) (i : Nat) (tid : Int) (ctds : List ConsensusThreadData),
      partition_loop l l.length span fuel max_id i tid = .ok ctds → i ≤ l.length →
      l.length - i ≤ fuel → max_id = min_rid + tid * span →
      maximal_runs l min_rid span i tid ctds := by
  intro fuel
  induction fuel with
  | zero =>
    intro max_id i tid ctds h h1 h2 _
    have hi : ¬ i < l.length := by omega
    simp only [partition_loop, if_neg hi] at h
    cases h
    exact Nat.le_of_not_lt hi
  | succ fuel ih =>
    intro max_id i tid ctds h h1 h2 hmax
    by_cases hi : i < l.length
    · obtain ⟨j, e, l1, l2, hstop, hrun⟩ :=
        scan_group_spec l (max_id + span) (l.length - (i + 1)) (i + 1) (by omega) (le_refl _)
      obtain ⟨rest, e2, -⟩ := partition_loop_spec l span fuel (max_id + span) j (tid + 1) l2
        (by omega)
      simp only [partition_loop, if_pos hi, e, ok_bind, e2] at h
      cases h
      have hb : max_id + span = min_rid + (tid + 1) * span := by rw [hmax]; ring
      have hj : i + ((j : Int) - (i : Int)).toNat = j := by omega
      refine ⟨rfl, rfl, hi, by simp only; omega, by simp only; omega, ?_, ?_, ?_⟩
      · intro m c hm1 hm2 hc
        simp only [hj] at hm2
        rw [← hb]
        exact hrun m c (by omega) hm2 hc
      · intro c hc
        simp only [hj] at hc
        rw [← hb]
        exact hstop c hc
      · simp only [hj]
        exact ih (max_id + span) j (tid + 1) rest e2 l2 (by omega) hb
    · simp only [partition_loop, if_neg hi] at h
      cases h
      exact Nat.le_of_not_lt hi

theorem tdiv_eq_ceil (n W : Int) (hn : 1 ≤ n) (hW : 1 ≤ W) :
    Int.tdiv (n + W - 1) W = ⌈(n : ℚ) / (W : ℚ)⌉ := by
  rw [Int.tdiv_eq_ediv (by omega) (by omega)]
  symm
  rw [Int.ceil_eq_iff]
  have hWq : (0 : ℚ) < (W : ℚ) := by exact_mod_cast (by omega : (0 : Int) < W)
  have h1 := Int.lt_ediv_add_one_mul_self (n + W - 1) (by omega : 0 < W)
  have h2 := Int.ediv_mul_le (n + W - 1) (by omega : W ≠ 0)
  constructor
  · rw [lt_div_iff₀ hWq]
    have : ((n + W - 1) / W - 1) * W < n := by
      have e : ((n + W - 1) / W - 1) * W = (n + W - 1) / W * W - W := by ring
      omega
    exact_mod_cast this
  · rw [div_le_iff₀ hWq]
    have : n ≤ (n + W - 1) / W * W := by
      have e : ((n + W - 1) / W + 1) * W = (n + W - 1) / W * W + W := by ring
      omega
    exact_mod_cast this

/-- C11. For a range `min_rid ≤ max_rid` and `W ≥ 1` workers, with
`span = ceil((max_rid - min_rid + 1) / W)`, `build_cns_thrd_data_can` returns
contexts of which the one number `k` owns the first unassigned candidate of the
sorted list and the maximal run of following candidates with
`sid < min_rid + (k + 1) * span`. -/
theorem build_groups_are_maximal_runs (ec_list : List ExtensionCandidate)
    (min_rid max_rid W : Int) (hW : 1 ≤ W) (hrange : min_rid ≤ max_rid) :
    ∃ ctds, build_cns_thrd_data_can ec_list min_rid max_rid W
        = .ok (sort_by_sid ec_list, ctds) ∧
      maximal_runs (sort_by_sid ec_list) min_rid
        ⌈((max_rid - min_rid + 1 : Int) : ℚ) / (W : ℚ)⌉ 0 0 ctds := by
  have hW0 : W ≠ 0 := by omega
  rw [← tdiv_eq_ceil (max_rid - min_rid + 1) W (by omega) hW]
  obtain ⟨ctds, e, -⟩ :=
    partition_loop_spec (sort_by_sid ec_list)
      (Int.tdiv (max_rid - min_rid + 1 + W - 1) W) (sort_by_sid ec_list).length min_rid 0 0
      (Nat.zero_le _) (by omega)
  have hruns := partition_loop_runs (sort_by_sid ec_list) min_rid _ _ min_rid 0 0 ctds e
    (Nat.zero_le _) (by omega) (by ring)
  refine ⟨ctds, ?_, hruns⟩
  rw [sort_by_sid_length] at e
  simp only [build_cns_thrd_data_can, if_neg hW0, e, ok_bind]

/-- Witness of C11: target ids `1, 1, 2, 5, 5, 5, 9` in `[1, 9]` with three workers;
the span is 3 and the contexts hold the ids `1, 1, 2`, then `5, 5, 5`, then `9`,
that is 3 + 3 + 1 = 7 candidates. -/
theorem build_groups_are_maximal_runs_witness :
    (∃ ctds, build_cns_thrd_data_can
        [⟨0, 1⟩, ⟨1, 1⟩, ⟨2, 2⟩, ⟨3, 5⟩, ⟨4, 5⟩, ⟨5, 5⟩, ⟨6, 9⟩] 1 9 3
        = .ok (sort_by_sid [⟨0, 1⟩, ⟨1, 1⟩, ⟨2, 2⟩, ⟨3, 5⟩, ⟨4, 5⟩, ⟨5, 5⟩, ⟨6, 9⟩], ctds) ∧
      maximal_runs (sort_by_sid [⟨0, 1⟩, ⟨1, 1⟩, ⟨2, 2⟩, ⟨3, 5⟩, ⟨4, 5⟩, ⟨5, 5⟩, ⟨6, 9⟩]) 1
        ⌈(((9 : Int) - 1 + 1 : Int) : ℚ) / ((3 : Int) : ℚ)⌉ 0 0 ctds) ∧
    Int.tdiv ((9 : Int) - 1 + 1 + 3 - 1) 3 = 3 ∧
    (build_cns_thrd_data_can
        [⟨0, 1⟩, ⟨1, 1⟩, ⟨2, 2⟩, ⟨3, 5⟩, ⟨4, 5⟩, ⟨5, 5⟩, ⟨6, 9⟩] 1 9 3).map context_sids
      = .ok [[1, 1, 2], [5, 5, 5], [9]] ∧
    (build_cns_thrd_data_can
        [⟨0, 1⟩, ⟨1, 1⟩, ⟨2, 2⟩, ⟨3, 5⟩, ⟨4, 5⟩, ⟨5, 5⟩, ⟨6, 9⟩] 1 9 3).map
        (fun r => r.2.map (fun c => c.num_candidates))
      = .ok [3, 3, 1] :=
  ⟨build_groups_are_maximal_runs [⟨0, 1⟩, ⟨1, 1⟩, ⟨2, 2⟩, ⟨3, 5⟩, ⟨4, 5⟩, ⟨5, 5⟩, ⟨6, 9⟩] 1 9 3
    (by decide) (by decide), by decide, by decide, by decide⟩

/-! ## `normalize_gaps`: what one gap push does -/

theorem scan_gap_run_gaps (s : List Char) (len : Int) :
    ∀ (fuel j0 : Nat), j0 < s.length → s.length ≤ j0 + fuel →
      ∃ j c, scan_gap_run s len fuel j0 = .ok (j, c) ∧ j0 < j ∧ j ≤ s.length ∧
        str_at s j = .ok c ∧ ∀ k, j0 < k → k < j → s[k]? = some kGap := by
  intro fuel
  induction fuel with
  | zero => intro j0 h1 h2; omega
  | succ fuel ih =>
    intro j0 h1 h2
    by_cases hj : j0 + 1 < s.length
    · simp only [scan_gap_run, str_at_lt s (j0 + 1) hj, ok_bind]
      split
      · exact ⟨j0 + 1, s[j0 + 1], rfl, by omega, by omega, str_at_lt s _ hj,
          fun k hk1 hk2 => by omega⟩
      · rename_i hc
        have hgap : s[j0 + 1] = kGap := by
          by_contra hne
          exact hc (Or.inl hne)
        obtain ⟨j, c, h, hlt, hle, hc2, hrun⟩ := ih (j0 + 1) hj (by omega)
        refine ⟨j, c, h, by omega, hle, hc2, fun k hk1 hk2 => ?_⟩
        rcases Nat.lt_or_ge (j0 + 1) k with h3 | h3
        · exact hrun k h3 hk2
        · have hk : k = j0 + 1 := by omega
          rw [hk, List.getElem?_eq_getElem hj, hgap]
    · have hj2 : j0 + 1 = s.length := by omega
      simp only [scan_gap_run, hj2, str_at_length, ok_bind]
      rw [if_pos (Or.inl NUL_ne_kGap)]
      exact ⟨s.length, NUL, rfl, by omega, le_refl _, str_at_length s,
        fun k hk1 hk2 => by omega⟩

/-- One gap push either leaves the string as it is or exchanges the gap at `i`
with the first character behind the run of gaps that starts at `i`, which is the
character of the other string at `i`. -/
theorem push_gap_at_cases (own other : List Char) (len : Int) (i : Nat)
    (hi : i < own.length) (hio : i < other.length) (hother : no_NUL other) :
    push_gap_at own other len i = .ok own ∨
    ∃ (j : Nat) (c : Char), i < j ∧ j < own.length ∧ own[i]? = some kGap ∧ own[j]? = some c ∧
      other[i]? = some c ∧ (∀ k, i < k → k < j → own[k]? = some kGap) ∧
      push_gap_at own other len i = .ok ((own.set i c).set j kGap) := by
  simp only [push_gap_at, str_at_lt own i hi, str_at_lt other i hio, ok_bind]
  by_cases hg : own[i] = kGap
  · rw [if_pos hg]
    obtain ⟨j, c, hscan, hlt, hle, hc, hrun⟩ :=
      scan_gap_run_gaps own len (own.length + 1) i hi (by omega)
    simp only [hscan, ok_bind]
    by_cases hcx : c = other[i]
    · rw [if_pos hcx]
      have hcn : c ≠ NUL := hcx ▸ hother _ (List.getElem_mem _)
      have hjlt : j < own.length := by
        rcases Nat.lt_or_eq_of_le hle with h | h
        · exact h
        · rw [h, str_at_length] at hc
          exact absurd (Except.ok.inj hc).symm hcn
      rw [str_at_lt own j hjlt] at hc
      have hcj : own[j] = c := Except.ok.inj hc
      rw [str_set_lt own i c hi]
      simp only [ok_bind]
      rw [str_set_lt _ j kGap (by simpa using hjlt)]
      refine Or.inr ⟨j, c, hlt, hjlt, ?_, ?_, ?_, hrun, rfl⟩
      · rw [List.getElem?_eq_getElem hi, hg]
      · rw [List.getElem?_eq_getElem hjlt, hcj]
      · rw [List.getElem?_eq_getElem hio, hcx]
    · rw [if_neg hcx]
      exact Or.inl rfl
  · rw [if_neg hg]
    exact Or.inl rfl

theorem getElem?_swap (l : List Char) (i j k : Nat) (c : Char) (hij : i < j)
    (hj : j < l.length) :
    ((l.set i c).set j kGap)[k]? =
      if k = j then some kGap else if k = i then some c else l[k]? := by
  have hi : i < l.length := by omega
  by_cases hkj : k = j
  · subst hkj
    rw [if_pos rfl, List.getElem?_set_self (by simpa using hj)]
  · rw [if_neg hkj, List.getElem?_set_ne (fun h => hkj h.symm)]
    by_cases hki : k = i
    · subst hki
      rw [if_pos rfl, List.getElem?_set_self hi]
    · rw [if_neg hki, List.getElem?_set_ne (fun h => hki h.symm)]

/-! ## `normalize_gaps`: no mismatch column is left -/

theorem no_mismatch_symm (q t : List Char) (h : no_mismatch q t) : no_mismatch t q := by
  intro i c d hc hd
  rcases h i d c hd hc with h1 | h1 | h1
  · exact Or.inl h1.symm
  · exact Or.inr (Or.inr h1)
  · exact Or.inr (Or.inl h1)

theorem reference_rewrite_no_mismatch (q t : List Char) :
    no_mismatch (reference_rewrite q t).1 (reference_rewrite q t).2 := by
  induction q generalizing t with
  | nil => intro i c d hc; simp [reference_rewrite] at hc
  | cons qc qs ih =>
    cases t with
    | nil => intro i c d hc; simp [reference_rewrite] at hc
    | cons tc ts =>
      have h := ih ts
      simp only [reference_rewrite]
      split
      · intro i c d hc hd
        match i with
        | 0 =>
          simp only [List.getElem?_cons_zero, Option.some.injEq] at hc
          exact Or.inr (Or.inl hc.symm)
        | 1 =>
          simp only [List.getElem?_cons_succ, List.getElem?_cons_zero, Option.some.injEq] at hd
          exact Or.inr (Or.inr hd.symm)
        | k + 2 =>
          simp only [List.getElem?_cons_succ] at hc hd
          exact h k c d hc hd
      · rename_i hne
        intro i c d hc hd
        match i with
        | 0 =>
          simp only [List.getElem?_cons_zero, Option.some.injEq] at hc hd
          subst hc hd
          by_cases h1 : qc = kGap
          · exact Or.inr (Or.inl h1)
          · by_cases h2 : tc = kGap
            · exact Or.inr (Or.inr h2)
            · by_contra hcon
              exact hne ⟨h1, h2, fun e => hcon (Or.inl e)⟩
        | k + 1 =>
          simp only [List.getElem?_cons_succ] at hc hd
          exact h k c d hc hd

theorem push_gap_at_no_mismatch (own other own1 : List Char) (len : Int) (i : Nat)
    (hi : i < own.length) (hio : i < other.length) (hother : no_NUL other)
    (h : no_mismatch own other) (e : push_gap_at own other len i = .ok own1) :
    no_mismatch own1 other := by
  rcases push_gap_at_cases own other len i hi hio hother with h1 | ⟨j, c, hij, hj, -, -, hoc, -, h1⟩
  · rw [h1] at e
    exact Except.ok.inj e ▸ h
  · rw [h1] at e
    rw [← Except.ok.inj e]
    intro k x y hx hy
    rw [getElem?_swap own i j k c hij hj] at hx
    split at hx
    · exact Or.inr (Or.inl (Option.some.inj hx).symm)
    · split at hx
      · rename_i hki
        subst hki
        rw [hoc] at hy
        exact Or.inl ((Option.some.inj hx).symm.trans (Option.some.inj hy))
      · exact h k x y hx hy

/-! ## `normalize_gaps`: the bases of each side are kept -/

theorem remove_gaps_cons (x : Char) (xs : List Char) :
    remove_gaps (x :: xs) = if x = kGap then remove_gaps xs else x :: remove_gaps xs := by
  unfold remove_gaps
  by_cases h : x = kGap <;> simp [List.filter_cons, h]

theorem remove_gaps_gap_run (xs : List Char) :
    ∀ (j : Nat) (c : Char), xs[j]? = some c → (∀ k, k < j → xs[k]? = some kGap) →
      remove_gaps (xs.set j kGap) = remove_gaps (xs.drop (j + 1)) ∧
        remove_gaps xs = remove_gaps (c :: xs.drop (j + 1)) := by
  induction xs with
  | nil => intro j c hc; simp at hc
  | cons x xs ih =>
    intro j c hc hrun
    match j with
    | 0 =>
      simp only [List.getElem?_cons_zero, Option.some.injEq] at hc
      subst hc
      refine ⟨?_, ?_⟩ <;> simp [remove_gaps_cons]
    | j + 1 =>
      simp only [List.getElem?_cons_succ] at hc
      have hx : x = kGap := by
        have := hrun 0 (by omega)
        simpa using this
      obtain ⟨h1, h2⟩ := ih j c hc (fun k hk => by
        have := hrun (k + 1) (by omega)
        simpa using this)
      simp only [List.set_cons_succ, List.drop_succ_cons]
      rw [remove_gaps_cons, if_pos hx, remove_gaps_cons, if_pos hx]
      exact ⟨h1, h2⟩

theorem remove_gaps_swap (l : List Char) :
    ∀ (i j : Nat) (c : Char), i < j → l[i]? = some kGap → l[j]? = some c →
      (∀ k, i < k → k < j → l[k]? = some kGap) →
      remove_gaps ((l.set i c).set j kGap) = remove_gaps l := by
  induction l with
  | nil => intro i j c _ hi; simp at hi
  | cons x xs ih =>
    intro i j c hij hi hj hrun
    match i, j, hij with
    | 0, j + 1, _ =>
      simp only [List.getElem?_cons_zero, Option.some.injEq] at hi
      simp only [List.getElem?_cons_succ] at hj
      obtain ⟨h1, h2⟩ := remove_gaps_gap_run xs j c hj (fun k hk => by
        have := hrun (k + 1) (by omega) (by omega)
        simpa using this)
      simp only [List.set_cons_zero, List.set_cons_succ]
      rw [remove_gaps_cons c, remove_gaps_cons x, if_pos hi, h1, h2, remove_gaps_cons c]
    | i + 1, j + 1, hij =>
      simp only [List.getElem?_cons_succ] at hi hj
      have h := ih i j c (by omega) hi hj (fun k hk1 hk2 => by
        have := hrun (k + 1) (by omega) (by omega)
        simpa using this)
      simp only [List.set_cons_succ]
      rw [remove_gaps_cons x, remove_gaps_cons x, h]

theorem push_gap_at_remove_gaps (own other own1 : List Char) (len : Int) (i : Nat)
    (hi : i < own.length) (hio : i < other.length) (hother : no_NUL other)
    (e : push_gap_at own other len i = .ok own1) : remove_gaps own1 = remove_gaps own := by
  rcases push_gap_at_cases own other len i hi hio hother with
    h1 | ⟨j, c, hij, hj, hgi, hcj, -, hrun, h1⟩
  · rw [h1] at e
    rw [← Except.ok.inj e]
  · rw [h1] at e
    rw [← Except.ok.inj e]
    exact remove_gaps_swap own i j c hij hgi hcj hrun

theorem reference_rewrite_remove_gaps (q t : List Char) (hlen : q.length = t.length) :
    remove_gaps (reference_rewrite q t).1 = remove_gaps q ∧
      remove_gaps (reference_rewrite q t).2 = remove_gaps t := by
  induction q generalizing t with
  | nil =>
    cases t with
    | nil => simp [reference_rewrite]
    | cons tc ts => simp at hlen
  | cons qc qs ih =>
    cases t with
    | nil => simp at hlen
    | cons tc ts =>
      obtain ⟨h1, h2⟩ := ih ts (by simpa using hlen)
      simp only [reference_rewrite]
      split
      · rename_i hm
        refine ⟨?_, ?_⟩
        · simp [remove_gaps_cons, h1]
        · simp [remove_gaps_cons, h2]
      · refine ⟨?_, ?_⟩
        · simp [remove_gaps_cons, h1]
        · simp [remove_gaps_cons, h2]

/-- The gap-push pass returns, leaves no mismatch column and keeps the bases of
both sides. -/
theorem push_gaps_loop_props (qlen tlen : Int) :
    ∀ (n i : Nat) (qnorm tnorm : List Char), qnorm.length = tnorm.length →
      i + n < qnorm.length ∨ n = 0 → no_NUL qnorm → no_NUL tnorm → no_mismatch qnorm tnorm →
      ∃ q1 t1, push_gaps_loop qlen tlen n i qnorm tnorm = .ok (q1, t1) ∧
        no_mismatch q1 t1 ∧ remove_gaps q1 = remove_gaps qnorm ∧
        remove_gaps t1 = remove_gaps tnorm := by
  intro n
  induction n with
  | zero =>
    intro i qnorm tnorm _ _ _ _ hm
    exact ⟨qnorm, tnorm, rfl, hm, rfl, rfl⟩
  | succ n ih =>
    intro i qnorm tnorm hlen hi hq ht hm
    have hiq : i < qnorm.length := by omega
    have hit : i < tnorm.length := by omega
    obtain ⟨t1, e1, l1, -, n1⟩ := push_gap_at_ok tnorm qnorm qlen i hit hiq ht hq
    have m1 := no_mismatch_symm _ _
      (push_gap_at_no_mismatch tnorm qnorm t1 qlen i hit hiq hq (no_mismatch_symm _ _ hm) e1)
    have r1 := push_gap_at_remove_gaps tnorm qnorm t1 qlen i hit hiq hq e1
    obtain ⟨q1, e2, l2, -, n2⟩ := push_gap_at_ok qnorm t1 tlen i hiq (by omega) hq n1
    have m2 := push_gap_at_no_mismatch qnorm t1 q1 tlen i hiq (by omega) n1 m1 e2
    have r2 := push_gap_at_remove_gaps qnorm t1 q1 tlen i hiq (by omega) n1 e2
    obtain ⟨q2, t2, e3, m3, r3, r4⟩ := ih (i + 1) q1 t1 (by omega) (by omega) n2 n1 m2
    refine ⟨q2, t2, ?_, m3, r3.trans r2, r4.trans r1⟩
    simp only [push_gaps_loop, e1, e2, ok_bind, e3]

theorem normalize_gaps_props (qstr tstr : List Char) (push : Bool)
    (hlen : qstr.length = tstr.length) (hq : no_NUL qstr) (ht : no_NUL tstr) :
    ∃ qnorm tnorm, normalize_gaps qstr tstr (qstr.length : Int) push = .ok (qnorm, tnorm) ∧
      no_mismatch qnorm tnorm ∧ remove_gaps qnorm = remove_gaps qstr ∧
      remove_gaps tnorm = remove_gaps tstr := by
  have hconv := convert_mismatches_eq qstr tstr hlen qstr.length 0 [] [] (by omega)
  simp only [List.drop_zero, List.nil_append] at hconv
  have hL := reference_rewrite_length qstr tstr
  have hm := reference_rewrite_no_mismatch qstr tstr
  obtain ⟨hrq, hrt⟩ := reference_rewrite_remove_gaps qstr tstr hlen
  obtain ⟨hnq, hnt⟩ := reference_rewrite_no_NUL qstr tstr hq ht
  cases push with
  | false => exact ⟨_, _, normalize_gaps_no_push qstr tstr hlen, hm, hrq, hrt⟩
  | true =>
    obtain ⟨q0, t0, e0, l1, l2, -, -⟩ :=
      push_gaps_loop_ok ((reference_rewrite qstr tstr).1.length : Int)
        ((reference_rewrite qstr tstr).2.length : Int)
        (((reference_rewrite qstr tstr).1.length : Int) - 1).toNat 0
        (reference_rewrite qstr tstr).1 (reference_rewrite qstr tstr).2 hL (by omega) hnq hnt
    obtain ⟨q1, t1, e, m1, r1, r2⟩ :=
      push_gaps_loop_props ((reference_rewrite qstr tstr).1.length : Int)
        ((reference_rewrite qstr tstr).2.length : Int)
        (((reference_rewrite qstr tstr).1.length : Int) - 1).toNat 0
        (reference_rewrite qstr tstr).1 (reference_rewrite qstr tstr).2 hL (by omega) hnq hnt hm
    rw [e0] at e
    have e' := Except.ok.inj e
    simp only [Prod.mk.injEq] at e'
    obtain ⟨rfl, rfl⟩ := e'
    refine ⟨q0, t0, ?_, m1, r1.trans hrq, r2.trans hrt⟩
    simp only [normalize_gaps, Int.toNat_ofNat, hconv, ok_bind, if_true, e0]
    rw [if_pos (by omega)]

/-- C15. For equal-length inputs over bases and the gap symbol and either value of
`push`, `normalize_gaps` returns strings without a mismatch column: at every index
the two characters are equal or one of them is the gap symbol. -/
theorem normalize_gaps_no_mismatch (qstr tstr : List Char) (push : Bool)
    (hlen : qstr.length = tstr.length) (hq : no_NUL qstr) (ht : no_NUL tstr) :
    ∃ qnorm tnorm, normalize_gaps qstr tstr (qstr.length : Int) push = .ok (qnorm, tnorm) ∧
      ∀ (i : Nat) (c d : Char), qnorm[i]? = some c → tnorm[i]? = some d →
        c = d ∨ c = kGap ∨ d = kGap := by
  obtain ⟨qnorm, tnorm, e, hm, -, -⟩ := normalize_gaps_props qstr tstr push hlen hq ht
  exact ⟨qnorm, tnorm, e, hm⟩

/-- Witness of C15: `A--GT` over `ACGGT` with the gap-push pass on. -/
theorem normalize_gaps_no_mismatch_witness :
    ∃ qnorm tnorm, normalize_gaps ['A', '-', '-', 'G', 'T'] ['A', 'C', 'G', 'G', 'T']
        ((['A', '-', '-', 'G', 'T'] : List Char).length : Int) true = .ok (qnorm, tnorm) ∧
      ∀ (i : Nat) (c d : Char), qnorm[i]? = some c → tnorm[i]? = some d →
        c = d ∨ c = kGap ∨ d = kGap :=
  normalize_gaps_no_mismatch ['A', '-', '-', 'G', 'T'] ['A', 'C', 'G', 'G', 'T'] true
    (by decide) (by unfold no_NUL; decide) (by unfold no_NUL; decide)

/-- C19. For equal-length inputs over bases and the gap symbol and either value of
`push`, `normalize_gaps` returns (no write behind the end of a string occurs), and
removing the gap symbols from `qnorm` gives the same string as removing them from
`qstr`, likewise for `tnorm` and `tstr`. -/
theorem normalize_gaps_preserves_sequences (qstr tstr : List Char) (push : Bool)
    (hlen : qstr.length = tstr.length) (hq : no_NUL qstr) (ht : no_NUL tstr) :
    ∃ qnorm tnorm, normalize_gaps qstr tstr (qstr.length : Int) push = .ok (qnorm, tnorm) ∧
      remove_gaps qnorm = remove_gaps qstr ∧ remove_gaps tnorm = remove_gaps tstr := by
  obtain ⟨qnorm, tnorm, e, -, h1, h2⟩ := normalize_gaps_props qstr tstr push hlen hq ht
  exact ⟨qnorm, tnorm, e, h1, h2⟩

/-- Witness of C19: `AC-GT` over `A-TGT` with the gap-push pass on. -/
theorem normalize_gaps_preserves_sequences_witness :
    ∃ qnorm tnorm, normalize_gaps ['A', 'C', '-', 'G', 'T'] ['A', '-', 'T', 'G', 'T']
        ((['A', 'C', '-', 'G', 'T'] : List Char).length : Int) true = .ok (qnorm, tnorm) ∧
      remove_gaps qnorm = remove_gaps ['A', 'C', '-', 'G', 'T'] ∧
      remove_gaps tnorm = remove_gaps ['A', '-', 'T', 'G', 'T'] :=
  normalize_gaps_preserves_sequences ['A', 'C', '-', 'G', 'T'] ['A', '-', 'T', 'G', 'T'] true
    (by decide) (by unfold no_NUL; decide) (by unfold no_NUL; decide)

/-! ## `normalize_gaps` on inputs of different lengths -/

theorem bind_eq_error {α β : Type} (x : Except Fault α) (f : α → Except Fault β) (e : Fault)
    (h : (x >>= f) = .error e) : x = .error e ∨ ∃ a, x = .ok a ∧ f a = .error e := by
  cases x with
  | error e1 =>
    have h1 : (Except.error e1 : Except Fault β) = .error e := h
    cases h1
    exact Or.inl rfl
  | ok a => exact Or.inr ⟨a, rfl, h⟩

theorem bind_eq_ok {α β : Type} (x : Except Fault α) (f : α → Except Fault β) (b : β)
    (h : (x >>= f) = .ok b) : ∃ a, x = .ok a ∧ f a = .ok b := by
  cases x with
  | error e1 => cases h
  | ok a => exact ⟨a, rfl, h⟩

theorem str_at_error (s : List Char) (i : Nat) (e : Fault) (h : str_at s i = .error e) :
    e ≠ .assertion := by
  unfold str_at at h
  split at h
  · cases h
  · split at h
    · cases h
    · cases h
      decide

theorem str_set_error (s : List Char) (i : Nat) (c : Char) (e : Fault)
    (h : str_set s i c = .error e) : e ≠ .assertion := by
  unfold str_set at h
  split at h
  · cases h
  · cases h
    decide

theorem str_set_length (s s1 : List Char) (i : Nat) (c : Char) (h : str_set s i c = .ok s1) :
    s1.length = s.length := by
  unfold str_set at h
  split at h
  · cases h
    simp
  · cases h

theorem scan_gap_run_error (s : List Char) (len : Int) (e : Fault) :
    ∀ (fuel j : Nat), scan_gap_run s len fuel j = .error e → e ≠ .assertion := by
  intro fuel
  induction fuel with
  | zero =>
    intro j h
    simp only [scan_gap_run] at h
    cases h
    decide
  | succ fuel ih =>
    intro j h
    simp only [scan_gap_run] at h
    rcases bind_eq_error _ _ _ h with h1 | ⟨c, -, h1⟩
    · exact str_at_error _ _ _ h1
    · split at h1
      · cases h1
      · exact ih _ h1

theorem push_gap_at_error (own other : List Char) (len : Int) (i : Nat) (e : Fault)
    (h : push_gap_at own other len i = .error e) : e ≠ .assertion := by
  simp only [push_gap_at] at h
  rcases bind_eq_error _ _ _ h with h1 | ⟨oi, -, h1⟩
  · exact str_at_error _ _ _ h1
  · split at h1
    · rcases bind_eq_error _ _ _ h1 with h2 | ⟨⟨j, c⟩, -, h2⟩
      · exact scan_gap_run_error _ _ _ _ _ h2
      · simp only at h2
        rcases bind_eq_error _ _ _ h2 with h3 | ⟨x, -, h3⟩
        · exact str_at_error _ _ _ h3
        · split at h3
          · rcases bind_eq_error _ _ _ h3 with h4 | ⟨own1, -, h4⟩
            · exact str_set_error _ _ _ _ h4
            · exact str_set_error _ _ _ _ h4
          · cases h3
    · cases h1

theorem push_gap_at_length (own other own1 : List Char) (len : Int) (i : Nat)
    (h : push_gap_at own other len i = .ok own1) : own1.length = own.length := by
  simp only [push_gap_at] at h
  obtain ⟨oi, -, h1⟩ := bind_eq_ok _ _ _ h
  split at h1
  · obtain ⟨⟨j, c⟩, -, h2⟩ := bind_eq_ok _ _ _ h1
    simp only at h2
    obtain ⟨x, -, h3⟩ := bind_eq_ok _ _ _ h2
    split at h3
    · obtain ⟨own2, h4, h5⟩ := bind_eq_ok _ _ _ h3
      rw [str_set_length _ _ _ _ h5, str_set_length _ _ _ _ h4]
    · cases h3
      rfl
  · cases h1
    rfl

theorem push_gaps_loop_error (qlen tlen : Int) (e : Fault) :
    ∀ (n i : Nat) (q t : List Char), push_gaps_loop qlen tlen n i q t = .error e →
      e ≠ .assertion := by
  intro n
  induction n with
  | zero => intro i q t h; simp only [push_gaps_loop] at h; cases h
  | succ n ih =>
    intro i q t h
    simp only [push_gaps_loop] at h
    rcases bind_eq_error _ _ _ h with h1 | ⟨t1, -, h1⟩
    · exact push_gap_at_error _ _ _ _ _ h1
    · rcases bind_eq_error _ _ _ h1 with h2 | ⟨q1, -, h2⟩
      · exact push_gap_at_error _ _ _ _ _ h2
      · exact ih _ _ _ h2

theorem push_gaps_loop_length (qlen tlen : Int) :
    ∀ (n i : Nat) (q t q1 t1 : List Char), push_gaps_loop qlen tlen n i q t = .ok (q1, t1) →
      q1.length = q.length ∧ t1.length = t.length := by
  intro n
  induction n with
  | zero =>
    intro i q t q1 t1 h
    simp only [push_gaps_loop] at h
    cases h
    exact ⟨rfl, rfl⟩
  | succ n ih =>
    intro i q t q1 t1 h
    simp only [push_gaps_loop] at h
    obtain ⟨t2, h1, h2⟩ := bind_eq_ok _ _ _ h
    obtain ⟨q2, h3, h4⟩ := bind_eq_ok _ _ _ h2
    obtain ⟨l1, l2⟩ := ih _ _ _ _ _ h4
    rw [l1, l2, push_gap_at_length _ _ _ _ _ h1, push_gap_at_length _ _ _ _ _ h3]
    exact ⟨rfl, rfl⟩

theorem convert_mismatches_error (qstr tstr : List Char) (e : Fault) :
    ∀ (n i : Nat) (q t : List Char), convert_mismatches qstr tstr n i q t = .error e →
      e ≠ .assertion := by
  intro n
  induction n with
  | zero => intro i q t h; simp only [convert_mismatches] at h; cases h
  | succ n ih =>
    intro i q t h
    simp only [convert_mismatches] at h
    rcases bind_eq_error _ _ _ h with h1 | ⟨qc, -, h1⟩
    · exact str_at_error _ _ _ h1
    · rcases bind_eq_error _ _ _ h1 with h2 | ⟨tc, -, h2⟩
      · exact str_at_error _ _ _ h2
      · split at h2
        · exact ih _ _ _ h2
        · exact ih _ _ _ h2

theorem convert_mismatches_length (qstr tstr : List Char) :
    ∀ (n i : Nat) (q t q1 t1 : List Char), convert_mismatches qstr tstr n i q t = .ok (q1, t1) →
      q.length = t.length → q1.length = t1.length := by
  intro n
  induction n with
  | zero =>
    intro i q t q1 t1 h hl
    simp only [convert_mismatches] at h
    cases h
    exact hl
  | succ n ih =>
    intro i q t q1 t1 h hl
    simp only [convert_mismatches] at h
    obtain ⟨qc, -, h1⟩ := bind_eq_ok _ _ _ h
    obtain ⟨tc, -, h2⟩ := bind_eq_ok _ _ _ h1
    split at h2
    · exact ih _ _ _ _ _ h2 (by simp [hl])
    · exact ih _ _ _ _ _ h2 (by simp [hl])

/-- The `r_assert` of `normalize_gaps` compares the two outputs, which grow and are
rewritten in step: it fails for no input. -/
theorem normalize_gaps_never_asserts (qstr tstr : List Char) (aln_size : Int) (push : Bool) :
    normalize_gaps qstr tstr aln_size push ≠ .error .assertion := by
  intro h
  cases push with
  | false =>
    simp only [normalize_gaps, Bool.false_eq_true, if_false] at h
    rcases bind_eq_error _ _ _ h with h1 | ⟨⟨q0, t0⟩, h0, h1⟩
    · exact convert_mismatches_error _ _ _ _ _ _ _ h1 rfl
    · have hl0 := convert_mismatches_length _ _ _ _ _ _ _ _ h0 rfl
      simp only [pure, Except.pure, ok_bind, hl0, if_true] at h1
      cases h1
  | true =>
    simp only [normalize_gaps, if_true] at h
    rcases bind_eq_error _ _ _ h with h1 | ⟨⟨q0, t0⟩, h0, h1⟩
    · exact convert_mismatches_error _ _ _ _ _ _ _ h1 rfl
    · have hl0 := convert_mismatches_length _ _ _ _ _ _ _ _ h0 rfl
      simp only at h1
      rcases bind_eq_error _ _ _ h1 with h2 | ⟨⟨q1, t1⟩, h2, h3⟩
      · exact push_gaps_loop_error _ _ _ _ _ _ _ h2 rfl
      · obtain ⟨l1, l2⟩ := push_gaps_loop_length _ _ _ _ _ _ _ _ h2
        have hl1 : q1.length = t1.length := by omega
        simp only [hl1, if_true] at h3
        cases h3

theorem convert_mismatches_take (qstr tstr : List Char) (m : Nat) (hq : m ≤ qstr.length)
    (ht : m ≤ tstr.length) :
    ∀ (n i : Nat) (q t : List Char), i + n ≤ m →
      convert_mismatches qstr tstr n i q t =
        convert_mismatches (qstr.take m) (tstr.take m) n i q t := by
  intro n
  induction n with
  | zero => intro i q t _; rfl
  | succ n ih =>
    intro i q t hi
    have h1 : i < qstr.length := by omega
    have h2 : i < tstr.length := by omega
    have h3 : i < (qstr.take m).length := by simp only [List.length_take]; omega
    have h4 : i < (tstr.take m).length := by simp only [List.length_take]; omega
    simp only [convert_mismatches, str_at_lt _ _ h1, str_at_lt _ _ h2, str_at_lt _ _ h3,
      str_at_lt _ _ h4, ok_bind, List.getElem_take]
    split
    · exact ih _ _ _ (by omega)
    · exact ih _ _ _ (by omega)

theorem no_NUL_take (s : List Char) (m : Nat) (h : no_NUL s) : no_NUL (s.take m) :=
  fun c hc => h c (List.mem_of_mem_take hc)

/-- C16 (amended). `normalize_gaps` has one length argument for both inputs and does
not compare their lengths: with `aln_size` at most the length of both inputs it
returns the normalised output of the two prefixes of length `aln_size`, whatever
follows in a longer input; and its `r_assert`, which compares the lengths of the
two outputs, fails for no input. -/
theorem normalize_gaps_uses_prefix (qstr tstr : List Char) (aln_size : Nat) (push : Bool)
    (hq : aln_size ≤ qstr.length) (ht : aln_size ≤ tstr.length)
    (hnq : no_NUL qstr) (hnt : no_NUL tstr) :
    (∃ qnorm tnorm, normalize_gaps qstr tstr (aln_size : Int) push = .ok (qnorm, tnorm) ∧
      normalize_gaps (qstr.take aln_size) (tstr.take aln_size) (aln_size : Int) push
        = .ok (qnorm, tnorm)) ∧
    (∀ (q t : List Char) (n : Int) (p : Bool),
      normalize_gaps q t n p ≠ .error .assertion) := by
  refine ⟨?_, fun q t n p => normalize_gaps_never_asserts q t n p⟩
  have hl1 : (qstr.take aln_size).length = aln_size := by
    simp only [List.length_take]; omega
  have hl2 : (tstr.take aln_size).length = aln_size := by
    simp only [List.length_take]; omega
  obtain ⟨qnorm, tnorm, e, -⟩ := normalize_gaps_props (qstr.take aln_size) (tstr.take aln_size)
    push (by omega) (no_NUL_take _ _ hnq) (no_NUL_take _ _ hnt)
  rw [hl1] at e
  have heq : normalize_gaps qstr tstr (aln_size : Int) push =
      normalize_gaps (qstr.take aln_size) (tstr.take aln_size) (aln_size : Int) push := by
    simp only [normalize_gaps, Int.toNat_ofNat]
    rw [convert_mismatches_take qstr tstr aln_size hq ht aln_size 0 [] [] (by omega)]
  exact ⟨qnorm, tnorm, heq.trans e, e⟩

/-- Witness of C16 (amended): `AC` and `ACGT` with `aln_size = 2`. -/
theorem normalize_gaps_uses_prefix_witness :
    (∃ qnorm tnorm, normalize_gaps ['A', 'C'] ['A', 'C', 'G', 'T'] ((2 : Nat) : Int) true
        = .ok (qnorm, tnorm) ∧
      normalize_gaps ((['A', 'C'] : List Char).take 2) ((['A', 'C', 'G', 'T'] : List Char).take 2)
        ((2 : Nat) : Int) true = .ok (qnorm, tnorm)) ∧
    (∀ (q t : List Char) (n : Int) (p : Bool),
      normalize_gaps q t n p ≠ .error .assertion) :=
  normalize_gaps_uses_prefix ['A', 'C'] ['A', 'C', 'G', 'T'] 2 true (by decide) (by decide)
    (by unfold no_NUL; decide) (by unfold no_NUL; decide)

/-- Counterexample to C16 as stated: called on `AC` and `ACGT` with the length 2 of
the query string, `normalize_gaps` returns the output of `AC` and `AC`, computed
from a prefix of the longer input, and no assertion fails. With the length of the
longer input it returns a column holding the terminator of the shorter string
(`ACG` against `AC`) or reads behind the shorter string (`ACGT` against `AC`),
again without a failed assertion. -/
theorem normalize_gaps_length_mismatch_counterexample :
    (['A', 'C'] : List Char).length ≠ (['A', 'C', 'G', 'T'] : List Char).length ∧
    normalize_gaps ['A', 'C'] ['A', 'C', 'G', 'T'] 2 true = .ok (['A', 'C'], ['A', 'C']) ∧
    normalize_gaps ['A', 'C', 'G'] ['A', 'C'] 3 true
      = .ok (['A', 'C', '-', 'G'], ['A', 'C', NUL, '-']) ∧
    normalize_gaps ['A', 'C', 'G', 'T'] ['A', 'C'] 4 true = .error .out_of_bounds := by
  decide

/-! ## `CnsAlns`: `get_mapping_ranges` -/

theorem mapping_ranges_loop_eq (l : List CnsAln) :
    ∀ (n i : Nat) (ranges : List MappingRange), i + n ≤ l.length →
      mapping_ranges_loop l n i ranges =
        .ok (ranges ++ ((l.drop i).take n).map (fun a => ⟨a.soff, a.send⟩)) := by
  intro n
  induction n with
  | zero => intro i ranges _; simp [mapping_ranges_loop]
  | succ n ih =>
    intro i ranges h
    have hi : i < l.length := by omega
    simp only [mapping_ranges_loop, List.getElem?_eq_getElem hi]
    rw [ih (i + 1) _ (by omega), List.drop_eq_getElem_cons hi]
    simp only [List.take_succ_cons, List.map_cons, List.append_assoc, List.singleton_append]

theorem get_mapping_ranges_eq (p : CnsAlns) (ranges : List MappingRange) (n : Nat)
    (hn : p.num_alns_ = n) (hle : n ≤ p.cns_alns_.length) :
    p.get_mapping_ranges ranges =
      .ok ((p.cns_alns_.take n).map (fun a => ⟨a.soff, a.send⟩)) := by
  simp only [CnsAlns.get_mapping_ranges, hn, Int.toNat_ofNat]
  rw [mapping_ranges_loop_eq p.cns_alns_ n 0 [] (by omega)]
  simp

theorem add_aln_ok_inv (M : Nat) (p p1 : CnsAlns) (soff send : Int) (qstr tstr : List Char)
    (h : p.add_aln M soff send qstr tstr = .ok p1) :
    qstr.length = tstr.length ∧ 0 ≤ p.num_alns_ ∧ p.num_alns_ < (p.cns_alns_.length : Int) ∧
      p1 = { cns_alns_ := p.cns_alns_.set p.num_alns_.toNat (CnsAln.stored soff send qstr tstr),
             num_alns_ := p.num_alns_ + 1 } := by
  simp only [CnsAlns.add_aln, CnsAlns.next_slot] at h
  split at h
  · cases h
  · rename_i hl
    split at h
    · rename_i hc
      cases h
      exact ⟨by simpa using hl, hc.1, hc.2.1, rfl⟩
    · cases h

theorem stored_valid (soff send : Int) (qstr tstr : List Char) (h : qstr.length = tstr.length) :
    (CnsAln.stored soff send qstr tstr).Valid :=
  ⟨le_refl _, rfl, by simp [CnsAln.stored, h]⟩

theorem reachable_tracks (M : Nat) (p : CnsAlns) (cs : List AddCall)
    (h : CnsAlns.Reachable M p cs) : p.Tracks cs := by
  induction h with
  | clear p h =>
    refine ⟨h, rfl, Nat.zero_le _, ?_⟩
    intro i c hc
    simp at hc
  | add p p1 cs c _ hcap hadd ih =>
    obtain ⟨hlen, hnum, hcs, hall⟩ := ih
    obtain ⟨hl, h0, hlt, hp1⟩ := add_aln_ok_inv M p p1 _ _ _ _ hadd
    subst hp1
    have hk : p.num_alns_.toNat = cs.length := by omega
    have hcs1 : cs.length < MAX_CNS_OVLPS := by omega
    refine ⟨by simpa using hlen, ?_, ?_, ?_⟩
    · simp only [List.length_append, List.length_singleton, hnum]
      push_cast
      rfl
    · simp only [List.length_append, List.length_singleton]
      omega
    · intro i x hx
      simp only [hk]
      rcases Nat.lt_or_ge i cs.length with hi | hi
      · rw [List.getElem?_append_left hi] at hx
        obtain ⟨a, ha, hv, hs, ho⟩ := hall i x hx
        refine ⟨a, ?_, hv, hs, ho⟩
        rw [List.getElem?_set_ne (by omega)]
        exact ha
      · have hxi := (List.getElem?_eq_some_iff.mp hx).1
        simp only [List.length_append, List.length_singleton] at hxi
        have hi2 : i = cs.length := by omega
        subst hi2
        rw [List.getElem?_append_right (le_refl _)] at hx
        simp only [Nat.sub_self, List.getElem?_cons_zero, Option.some.injEq] at hx
        subst hx
        refine ⟨_, List.getElem?_set_self (by omega), stored_valid _ _ _ _ hl, rfl, le_refl _⟩
  | retrieve p p1 cs i sb se out out1 r _ hi hret ih =>
    obtain ⟨hlen, hnum, hcs, hall⟩ := ih
    have hi2 : i < cs.length := by
      have : (i : Int) < p.num_alns_ := hi
      omega
    obtain ⟨a, ha, hv, hs, ho⟩ := hall i cs[i] (List.getElem?_eq_getElem hi2)
    simp only [CnsAlns.retrieve_at, ha] at hret
    obtain ⟨r1, a1, out2, e, hL⟩ := retrieve_later a sb se out hv
    rw [e] at hret
    simp only [ok_bind] at hret
    have hret2 := Except.ok.inj hret
    simp only [Prod.mk.injEq] at hret2
    obtain ⟨-, hp1, -⟩ := hret2
    subst hp1
    refine ⟨by simpa using hlen, hnum, hcs, ?_⟩
    intro k x hx
    by_cases hki : k = i
    · subst hki
      have hx2 : x = cs[k] := by
        rw [List.getElem?_eq_getElem hi2] at hx
        exact (Option.some.inj hx).symm
      subst hx2
      refine ⟨a1, List.getElem?_set_self (by omega), hL.valid hv, ?_, ?_⟩
      · rw [hL.1]; exact hs
      · exact le_trans ho hL.2.2.2.2.2
    · obtain ⟨b, hb, hvb, hsb, hob⟩ := hall k x hx
      refine ⟨b, ?_, hvb, hsb, hob⟩
      rw [List.getElem?_set_ne (fun h => hki h.symm)]
      exact hb

/-- C14 (amended). In every pool state reachable from `clear()` by `add_aln` calls
below capacity and `retrieve_aln_subseqs` calls on stored alignments,
`get_mapping_ranges` returns one entry per stored alignment, in insertion order,
made of the alignment's current cursor `soff` and its end: the end is the one the
alignment was added with, the cursor is at or behind the start it was added with.
On a pool built by `add_aln` calls only the entries are the `[start, end)`
intervals of the calls, and right after `clear()` there is no entry. -/
theorem get_mapping_ranges_reachable (MAX_SEQ_SIZE : Nat) (p : CnsAlns) (cs : List AddCall)
    (ranges : List MappingRange) (p0 : CnsAlns) (calls : List AddCall)
    (h : CnsAlns.Reachable MAX_SEQ_SIZE p cs)
    (hp0 : p0.cns_alns_.length = MAX_CNS_OVLPS) (hn : calls.length ≤ MAX_CNS_OVLPS)
    (hfit : ∀ c ∈ calls, c.fits MAX_SEQ_SIZE) :
    (∃ rs, p.get_mapping_ranges ranges = .ok rs ∧ rs.length = cs.length ∧
      ∀ (i : Nat) (c : AddCall), cs[i]? = some c →
        ∃ a, p.cns_alns_[i]? = some a ∧ rs[i]? = some ⟨a.soff, a.send⟩ ∧
          a.send = c.send ∧ c.soff ≤ a.soff) ∧
    (∃ p1, p0.clear.add_alns MAX_SEQ_SIZE calls = .ok p1 ∧
      p1.get_mapping_ranges ranges = .ok (calls.map (fun c => ⟨c.soff, c.send⟩))) ∧
    p0.clear.get_mapping_ranges ranges = .ok [] := by
  refine ⟨?_, ?_, ?_⟩
  · obtain ⟨hlen, hnum, hcs, hall⟩ := reachable_tracks MAX_SEQ_SIZE p cs h
    have e := get_mapping_ranges_eq p ranges cs.length hnum (by omega)
    refine ⟨_, e, by simp only [List.length_map, List.length_take]; omega, ?_⟩
    intro i c hc
    obtain ⟨a, ha, -, hs, ho⟩ := hall i c hc
    have hi := (List.getElem?_eq_some_iff.mp hc).1
    refine ⟨a, ha, ?_, hs, ho⟩
    rw [List.getElem?_map, List.getElem?_take_of_lt hi, ha]
    rfl
  · obtain ⟨p1, e, hnum, hcont⟩ := add_alns_ok MAX_SEQ_SIZE calls p0.clear 0 rfl
      (by simp only [CnsAlns.clear]; omega) hfit
    simp only [CnsAlns.clear, List.take_zero, List.nil_append, zero_add] at hcont hnum
    refine ⟨p1, e, ?_⟩
    rw [get_mapping_ranges_eq p1 ranges calls.length hnum
      (by rw [hcont]; simp only [List.length_append, List.length_map]; omega), hcont,
      List.take_left' (by simp), List.map_map]
    rfl
  · exact get_mapping_ranges_eq p0.clear ranges 0 rfl (Nat.zero_le _)

/-- Witness of C14 (amended): a pool after one `add_aln` call and one
`retrieve_aln_subseqs` call on the stored alignment, and a pool built by two
`add_aln` calls. -/
theorem get_mapping_ranges_reachable_witness :
    (∃ rs, (CnsAlns.mk ((List.replicate 100 ⟨0, 0, 0, 0, [], []⟩).set 0
          ⟨3, 4, 3, 4, ['A', 'C', 'G', 'T'], ['A', 'C', 'G', 'T']⟩) 1).get_mapping_ranges []
        = .ok rs ∧
      rs.length = ([⟨0, 4, ['A', 'C', 'G', 'T'], ['A', 'C', 'G', 'T']⟩] : List AddCall).length ∧
      ∀ (i : Nat) (c : AddCall),
        ([⟨0, 4, ['A', 'C', 'G', 'T'], ['A', 'C', 'G', 'T']⟩] : List AddCall)[i]? = some c →
        ∃ a, (CnsAlns.mk ((List.replicate 100 ⟨0, 0, 0, 0, [], []⟩).set 0
            ⟨3, 4, 3, 4, ['A', 'C', 'G', 'T'], ['A', 'C', 'G', 'T']⟩) 1).cns_alns_[i]? = some a ∧
          rs[i]? = some ⟨a.soff, a.send⟩ ∧ a.send = c.send ∧ c.soff ≤ a.soff) ∧
    (∃ p1, (CnsAlns.create ⟨0, 0, 0, 0, [], []⟩).clear.add_alns 8
        [⟨0, 4, ['A', 'C', 'G', 'T'], ['A', 'C', 'G', 'T']⟩, ⟨2, 4, ['G', 'T'], ['G', 'T']⟩]
        = .ok p1 ∧
      p1.get_mapping_ranges [] =
        .ok (([⟨0, 4, ['A', 'C', 'G', 'T'], ['A', 'C', 'G', 'T']⟩,
          ⟨2, 4, ['G', 'T'], ['G', 'T']⟩] : List AddCall).map (fun c => ⟨c.soff, c.send⟩))) ∧
    (CnsAlns.create ⟨0, 0, 0, 0, [], []⟩).clear.get_mapping_ranges [] = .ok [] :=
  get_mapping_ranges_reachable 8
    (CnsAlns.mk ((List.replicate 100 ⟨0, 0, 0, 0, [], []⟩).set 0
      ⟨3, 4, 3, 4, ['A', 'C', 'G', 'T'], ['A', 'C', 'G', 'T']⟩) 1)
    [⟨0, 4, ['A', 'C', 'G', 'T'], ['A', 'C', 'G', 'T']⟩] []
    (CnsAlns.create ⟨0, 0, 0, 0, [], []⟩)
    [⟨0, 4, ['A', 'C', 'G', 'T'], ['A', 'C', 'G', 'T']⟩, ⟨2, 4, ['G', 'T'], ['G', 'T']⟩]
    (CnsAlns.Reachable.retrieve
      (CnsAlns.mk ((List.replicate 100 ⟨0, 0, 0, 0, [], []⟩).set 0
        ⟨0, 4, 0, 4, ['A', 'C', 'G', 'T'], ['A', 'C', 'G', 'T']⟩) 1)
      _ _ 0 1 3 ⟨[], [], 0⟩ ⟨['C', 'G', 'T'], ['C', 'G', 'T'], 1⟩ true
      (CnsAlns.Reachable.add (CnsAlns.create ⟨0, 0, 0, 0, [], []⟩).clear _ []
        ⟨0, 4, ['A', 'C', 'G', 'T'], ['A', 'C', 'G', 'T']⟩
        (CnsAlns.Reachable.clear (CnsAlns.create ⟨0, 0, 0, 0, [], []⟩)
          (by simp [CnsAlns.create, CnsAlns.clear]))
        (by decide) (by decide))
      (by decide) (by decide))
    (by simp [CnsAlns.create, CnsAlns.clear]) (by decide)
    (by
      intro c hc
      simp only [List.mem_cons, List.mem_singleton, List.not_mem_nil, or_false] at hc
      rcases hc with rfl | rfl <;> exact ⟨by decide, by decide⟩)

/-- Counterexample to C14 as stated: after `add_aln(0, 4, ACGT, ACGT)` on an empty
pool, `get_mapping_ranges` gives the interval `[0, 4)`; after a call
`retrieve_aln_subseqs(1, 3)` on the stored alignment, which moves its cursor to 3,
it gives `[3, 4)` and not the interval the alignment was added with. -/
theorem get_mapping_ranges_cursor_counterexample :
    ((CnsAlns.create ⟨0, 0, 0, 0, [], []⟩).clear.add_aln 8 0 4 ['A', 'C', 'G', 'T']
        ['A', 'C', 'G', 'T'] >>= fun p1 => p1.get_mapping_ranges []) = .ok [⟨0, 4⟩] ∧
    ((CnsAlns.create ⟨0, 0, 0, 0, [], []⟩).clear.add_aln 8 0 4 ['A', 'C', 'G', 'T']
        ['A', 'C', 'G', 'T'] >>= fun p1 => p1.retrieve_at 0 1 3 ⟨[], [], 0⟩ >>= fun r =>
        r.2.1.get_mapping_ranges []) = .ok [⟨3, 4⟩] ∧
    ([⟨3, 4⟩] : List MappingRange) ≠ [⟨0, 4⟩] := by
  decide

/-! ## `slide_window2`: the rolling computation is the naive one -/

theorem match_count_snoc (a b : List Char) :
    ∀ (n lo : Nat), match_count a b lo (n + 1) =
      match_count a b lo n + (if a[lo + n]? = b[lo + n]? then 1 else 0) := by
  intro n
  induction n with
  | zero => intro lo; simp [match_count]
  | succ n ih =>
    intro lo
    rw [match_count, ih (lo + 1), match_count]
    have : lo + 1 + n = lo + (n + 1) := by omega
    rw [this]
    omega

theorem naive_slide_window_length (a b : List Char) (k : Nat) (tau : ℚ) :
    (naive_slide_window a b k tau).length = a.length := by
  simp [naive_slide_window]

theorem naive_slide_window_getElem? (a b : List Char) (k : Nat) (tau : ℚ) (p : Nat)
    (hp : p < a.length) :
    (naive_slide_window a b k tau)[p]? = some (naive_char a b k tau p a[p]) := by
  simp [naive_slide_window, List.getElem?_zipWith, List.getElem?_range hp,
    List.getElem?_eq_getElem hp]

theorem partial_mask_zero (a b : List Char) (k : Nat) (tau : ℚ) :
    partial_mask a b k tau 0 = a := by
  simp [partial_mask]

theorem partial_mask_full (a b : List Char) (k : Nat) (tau : ℚ) :
    partial_mask a b k tau a.length = naive_slide_window a b k tau := by
  have h := naive_slide_window_length a b k tau
  simp only [partial_mask, List.drop_length, List.append_nil]
  rw [← h, List.take_length]

theorem partial_mask_succ (a b : List Char) (k : Nat) (tau : ℚ) (p : Nat) (hp : p < a.length) :
    partial_mask a b k tau (p + 1) =
      (naive_slide_window a b k tau).take p ++ naive_char a b k tau p a[p] :: a.drop (p + 1) := by
  simp only [partial_mask]
  rw [List.take_succ, naive_slide_window_getElem? a b k tau p hp]
  simp

theorem partial_mask_eq (a b : List Char) (k : Nat) (tau : ℚ) (p : Nat) (hp : p < a.length) :
    partial_mask a b k tau p =
      (naive_slide_window a b k tau).take p ++ a[p] :: a.drop (p + 1) := by
  simp only [partial_mask]
  rw [List.drop_eq_getElem_cons hp]

/-- Deciding position `p` with the count and the size of its window turns the
output string decided below `p` into the one decided below `p + 1`. -/
theorem mask_step (a b : List Char) (k : Nat) (tau : ℚ) (p W : Nat) (same_base w : Int)
    (hp : p < a.length) (hW : W = min (p + k) a.length - p) (hW1 : 1 ≤ W)
    (hsb : same_base = (match_count a b p W : Int)) (hw : w = (W : Int)) :
    (if identity_below same_base w tau = true then mask_at (partial_mask a b k tau p) (p : Int)
      else .ok (partial_mask a b k tau p)) = .ok (partial_mask a b k tau (p + 1)) := by
  have hW0 : (W : Int) ≠ 0 := by omega
  have hlenL : ((naive_slide_window a b k tau).take p).length = p := by
    simp only [List.length_take, naive_slide_window_length]; omega
  have hid : identity_below same_base w tau =
      decide (round_double (((match_count a b p W : Nat) : ℚ) / ((W : Nat) : ℚ)) < tau) := by
    simp only [identity_below, hsb, hw, hW0, if_false, Int.cast_natCast]
  rw [hid, partial_mask_succ a b k tau p hp, partial_mask_eq a b k tau p hp]
  by_cases hc : round_double (((match_count a b p W : Nat) : ℚ) / ((W : Nat) : ℚ)) < tau
  · have hn : naive_char a b k tau p a[p] = 'N' := by
      simp only [naive_char, ← hW, hc, if_true]
    simp only [hc, decide_True, if_true, hn, mask_at, Int.natCast_nonneg, Int.toNat_ofNat]
    rw [str_set_lt _ _ _ (by simp only [List.length_append, List.length_cons, hlenL]; omega)]
    rw [List.set_append_right _ _ (by omega), hlenL, Nat.sub_self, List.set_cons_zero]
  · have hn : naive_char a b k tau p a[p] = a[p] := by
      simp only [naive_char, ← hW, hc, if_false]
    simp only [hc, decide_False, Bool.false_eq_true, if_false, hn]

theorem substr_full (a : List Char) (p w : Nat) (hp : p ≤ a.length) :
    substr a (p : Int) (w : Int) = .ok ((a.drop p).take w) := by
  rw [substr_ok a p w (by omega) (by omega), if_neg (by omega)]
  simp

theorem substr_window_char (a : List Char) (p w i : Nat) (hp : p + w ≤ a.length) (hi : i < w) :
    ∃ c, a[p + i]? = some c ∧ substr ((a.drop p).take w) (i : Int) 1 = .ok [c] := by
  have hlt : p + i < a.length := by omega
  refine ⟨a[p + i], List.getElem?_eq_getElem hlt, ?_⟩
  rw [substr_ok _ i 1 (by omega) (by simp only [List.length_take, List.length_drop]; omega),
    if_neg (by omega)]
  simp only [Int.toNat_ofNat, Int.toNat_one, List.drop_take, List.drop_drop, List.take_take]
  have h1 : min 1 (w - i) = 1 := by omega
  rw [h1, List.drop_eq_getElem_cons (by omega : p + i < a.length), List.take_succ_cons,
    List.take_zero]

theorem match_test (a b : List Char) (j : Nat) (c d : Char) (x y : Int)
    (hc : a[j]? = some c) (hd : b[j]? = some d) :
    (if [c] = [d] then x else y) = if a[j]? = b[j]? then x else y := by
  simp only [hc, hd, List.cons.injEq, and_true, Option.some.injEq]

theorem count_window_eq (a b : List Char) (K : Nat) (ha : K ≤ a.length) (hb : K ≤ b.length) :
    ∀ (m i : Nat) (same_base : Int), i + m ≤ K →
      count_window ((a.drop 0).take K) ((b.drop 0).take K) m (i : Int) same_base =
        .ok (same_base + (match_count a b i m : Int)) := by
  intro m
  induction m with
  | zero => intro i sb _; simp [count_window, match_count]
  | succ m ih =>
    intro i sb hi
    obtain ⟨c, hc, e1⟩ := substr_window_char a 0 K i (by omega) (by omega)
    obtain ⟨d, hd, e2⟩ := substr_window_char b 0 K i (by omega) (by omega)
    rw [Nat.zero_add] at hc hd
    simp only [count_window, e1, e2, ok_bind]
    have hnext : (i : Int) + 1 = ((i + 1 : Nat) : Int) := by omega
    rw [hnext, match_test a b i c d _ _ hc hd, ih (i + 1) _ (by omega), match_count]
    congr 1
    split <;> push_cast <;> omega

theorem slide_step_rolling (a b : List Char) (K : Nat) (tau : ℚ) (q : Nat) (st : SlideState)
    (hlen : a.length = b.length) (hK : 1 ≤ K) (hq : q + 1 + K ≤ a.length)
    (hst : rolling_state a b K tau q K st) :
    ∃ st1, slide_step a b (K : Int) tau ((q + 1 : Nat) : Int) st = .ok st1 ∧
      rolling_state a b K tau (q + 1) K st1 := by
  obtain ⟨hsb, hw1, hw2, hns⟩ := hst
  obtain ⟨K1, rfl⟩ : ∃ K1, K = K1 + 1 := ⟨K - 1, by omega⟩
  obtain ⟨c, hc, e1⟩ := substr_window_char a q (K1 + 1) 0 (by omega) (by omega)
  obtain ⟨d, hd, e2⟩ := substr_window_char b q (K1 + 1) 0 (by omega) (by omega)
  obtain ⟨c2, hc2, e3⟩ := substr_window_char a (q + 1) (K1 + 1) K1 (by omega) (by omega)
  obtain ⟨d2, hd2, e4⟩ := substr_window_char b (q + 1) (K1 + 1) K1 (by omega) (by omega)
  have e5 := substr_full a (q + 1) (K1 + 1) (by omega)
  have e6 := substr_full b (q + 1) (K1 + 1) (by omega)
  rw [Nat.add_zero] at hc hd
  have e1' : substr ((a.drop q).take (K1 + 1)) 0 1 = .ok [c] := e1
  have e2' : substr ((b.drop q).take (K1 + 1)) 0 1 = .ok [d] := e2
  have hk1 : ((K1 + 1 : Nat) : Int) - 1 = (K1 : Int) := by omega
  have hunf : match_count a b q (K1 + 1) =
      (if a[q]? = b[q]? then 1 else 0) + match_count a b (q + 1) K1 := rfl
  have hcount : (if a[q + 1 + K1]? = b[q + 1 + K1]? then
        (if a[q]? = b[q]? then st.same_base - 1 else st.same_base) + 1
      else (if a[q]? = b[q]? then st.same_base - 1 else st.same_base)) =
      (match_count a b (q + 1) (K1 + 1) : Int) := by
    rw [hsb, match_count_snoc a b K1 (q + 1), hunf]
    by_cases h1 : a[q]? = b[q]? <;> by_cases h2 : a[q + 1 + K1]? = b[q + 1 + K1]? <;>
      simp only [h1, h2, if_true, if_false] <;> push_cast <;> omega
  have hm := mask_step a b (K1 + 1) tau (q + 1) (K1 + 1) (match_count a b (q + 1) (K1 + 1) : Int)
    ((K1 + 1 : Nat) : Int) (by omega) (by omega) (by omega) rfl rfl
  refine ⟨⟨(match_count a b (q + 1) (K1 + 1) : Int), (a.drop (q + 1)).take (K1 + 1),
    (b.drop (q + 1)).take (K1 + 1), partial_mask a b (K1 + 1) tau (q + 1 + 1)⟩, ?_,
    rfl, rfl, rfl, rfl⟩
  simp only [slide_step, hw1, hw2, e1', e2', ok_bind, e5, e6, hk1, e3, e4, hns]
  rw [match_test a b q c d _ _ hc hd, match_test a b (q + 1 + K1) c2 d2 _ _ hc2 hd2,
    hcount]
  by_cases hid : identity_below (match_count a b (q + 1) (K1 + 1) : Int)
      ((K1 + 1 : Nat) : Int) tau = true
  · rw [if_pos hid] at hm ⊢
    rw [hm]
    rfl
  · rw [if_neg hid] at hm ⊢
    rw [Except.ok.inj hm]

theorem slide_loop_rolling (a b : List Char) (K : Nat) (tau : ℚ)
    (hlen : a.length = b.length) (hK : 1 ≤ K) :
    ∀ (m q : Nat) (st : SlideState), q + m + K ≤ a.length → rolling_state a b K tau q K st →
      ∃ st1, slide_loop a b (K : Int) tau m ((q + 1 : Nat) : Int) st = .ok st1 ∧
        rolling_state a b K tau (q + m) K st1 := by
  intro m
  induction m with
  | zero => intro q st _ hst; exact ⟨st, rfl, hst⟩
  | succ m ih =>
    intro q st hq hst
    obtain ⟨st1, e1, hst1⟩ := slide_step_rolling a b K tau q st hlen hK (by omega) hst
    obtain ⟨st2, e2, hst2⟩ := ih (q + 1) st1 (by omega) hst1
    have hidx : ((q + 1 : Nat) : Int) + 1 = ((q + 1 + 1 : Nat) : Int) := by push_cast; ring
    have hqm : q + 1 + m = q + (m + 1) := by omega
    rw [hqm] at hst2
    exact ⟨st2, by simp only [slide_loop, e1, ok_bind, hidx, e2], hst2⟩

theorem tail_loop_rolling (a b : List Char) (K : Nat) (tau : ℚ) (hlen : a.length = b.length) :
    ∀ (fuel q w : Nat) (st : SlideState), w < fuel → 1 ≤ w → w ≤ K → q + w = a.length →
      rolling_state a b K tau q w st →
      ∃ st1, tail_loop a b (a.length : Int) tau fuel ((q + 1 : Nat) : Int) (w : Int) st = .ok st1 ∧
        st1.newstr1 = naive_slide_window a b K tau := by
  intro fuel
  induction fuel with
  | zero => intro q w st h; omega
  | succ fuel ih =>
    intro q w st hf hw1 hwK hqw hst
    simp only [tail_loop]
    by_cases hc : ((q + 1 : Nat) : Int) < (a.length : Int) ∧ (w : Int) > 0
    · rw [if_pos hc]
      obtain ⟨hsb, hwin1, hwin2, hns⟩ := hst
      obtain ⟨w1, rfl⟩ : ∃ w1, w = w1 + 1 := ⟨w - 1, by omega⟩
      have hw1pos : 1 ≤ w1 := by omega
      obtain ⟨c, hc1, e1⟩ := substr_window_char a q (w1 + 1) 0 (by omega) (by omega)
      obtain ⟨d, hd1, e2⟩ := substr_window_char b q (w1 + 1) 0 (by omega) (by omega)
      rw [Nat.add_zero] at hc1 hd1
      have e1' : substr ((a.drop q).take (w1 + 1)) 0 1 = .ok [c] := e1
      have e2' : substr ((b.drop q).take (w1 + 1)) 0 1 = .ok [d] := e2
      have e5 := substr_full a (q + 1) w1 (by omega)
      have e6 := substr_full b (q + 1) w1 (by omega)
      have hk1 : ((w1 + 1 : Nat) : Int) - 1 = (w1 : Int) := by omega
      have hunf : match_count a b q (w1 + 1) =
          (if a[q]? = b[q]? then 1 else 0) + match_count a b (q + 1) w1 := rfl
      have hcount : (if a[q]? = b[q]? then st.same_base - 1 else st.same_base) =
          (match_count a b (q + 1) w1 : Int) := by
        rw [hsb, hunf]
        by_cases h1 : a[q]? = b[q]? <;> simp only [h1, if_true, if_false] <;> push_cast <;> omega
      have hm := mask_step a b K tau (q + 1) w1 (match_count a b (q + 1) w1 : Int) (w1 : Int)
        (by omega) (by omega) hw1pos rfl rfl
      have hidx : ((q + 1 : Nat) : Int) + 1 = ((q + 1 + 1 : Nat) : Int) := by push_cast; ring
      simp only [hwin1, hwin2, e1', e2', ok_bind, hk1, e5, e6, hns]
      rw [match_test a b q c d _ _ hc1 hd1, hcount, hidx]
      by_cases hid : identity_below (match_count a b (q + 1) w1 : Int) (w1 : Int) tau = true
      · rw [if_pos hid] at hm ⊢
        rw [hm]
        exact ih (q + 1) w1 _ (by omega) hw1pos (by omega) (by omega) ⟨rfl, rfl, rfl, rfl⟩
      · rw [if_neg hid] at hm ⊢
        rw [Except.ok.inj hm]
        exact ih (q + 1) w1 _ (by omega) hw1pos (by omega) (by omega) ⟨rfl, rfl, rfl, rfl⟩
    · rw [if_neg hc]
      refine ⟨st, rfl, ?_⟩
      have hq : q + 1 = a.length := by
        by_contra hne
        apply hc
        constructor <;> omega
      rw [hst.2.2.2, hq, partial_mask_full]

/-- The rolling computation of `slide_window2` returns the naive mask. -/
theorem slide_window2_rolling (a b newstr1 : List Char) (k : Nat) (tau : ℚ)
    (hlen : a.length = b.length) (hk1 : 1 ≤ k) (hk2 : k ≤ a.length) :
    slide_window2 a b newstr1 (k : Int) tau = .ok (naive_slide_window a b k tau) := by
  have e0 : substr a 0 (k : Int) = .ok ((a.drop 0).take k) := substr_full a 0 k (by omega)
  have e0b : substr b 0 (k : Int) = .ok ((b.drop 0).take k) := substr_full b 0 k (by omega)
  have ec : count_window ((a.drop 0).take k) ((b.drop 0).take k) k 0 0 =
      .ok (0 + (match_count a b 0 k : Int)) :=
    count_window_eq a b k hk2 (by omega) k 0 0 (by omega)
  rw [zero_add] at ec
  have hm : (if identity_below (match_count a b 0 k : Int) (k : Int) tau = true then
        mask_at (partial_mask a b k tau 0) 0
      else .ok (partial_mask a b k tau 0)) = .ok (partial_mask a b k tau (0 + 1)) :=
    mask_step a b k tau 0 k (match_count a b 0 k : Int) (k : Int) (by omega) (by omega) hk1
      rfl rfl
  rw [partial_mask_zero] at hm
  obtain ⟨ns1, hns1, hns1eq⟩ : ∃ ns1, (if identity_below (match_count a b 0 k : Int) (k : Int)
      tau = true then mask_at a 0 else .ok a) = .ok ns1 ∧
      ns1 = partial_mask a b k tau (0 + 1) := ⟨_, hm, rfl⟩
  obtain ⟨st1, e1, hst1⟩ := slide_loop_rolling a b k tau hlen hk1 (a.length - k) 0
    ⟨(match_count a b 0 k : Int), (a.drop 0).take k, (b.drop 0).take k, ns1⟩ (by omega)
    ⟨rfl, rfl, rfl, hns1eq⟩
  rw [Nat.zero_add] at hst1
  obtain ⟨st2, e2, hst2⟩ := tail_loop_rolling a b k tau hlen (k + 1) (a.length - k) k st1
    (by omega) hk1 (le_refl _) (by omega) hst1
  have hcnt : ((a.length : Int) - (k : Int)).toNat = a.length - k := by omega
  have hidx : (a.length : Int) - (k : Int) + 1 = ((a.length - k + 1 : Nat) : Int) := by omega
  have hne : ¬ a.length ≠ b.length := fun h => h hlen
  simp only [slide_window2, if_neg hne, e0, e0b, ok_bind, Int.toNat_ofNat, ec, hcnt, hidx]
  have e1' : slide_loop a b (k : Int) tau (a.length - k) 1
      ⟨(match_count a b 0 k : Int), (a.drop 0).take k, (b.drop 0).take k, ns1⟩ = .ok st1 := e1
  by_cases hid : identity_below (match_count a b 0 k : Int) (k : Int) tau = true
  · rw [if_pos hid] at hns1 ⊢
    rw [hns1]
    simp only [ok_bind, e1', e2, hst2]
  · rw [if_neg hid] at hns1 ⊢
    have hns : a = ns1 := Except.ok.inj hns1
    rw [← hns] at e1'
    simp only [e1', ok_bind, e2, hst2]

/-- C18. For strings of equal length `n`, a window width `1 ≤ k ≤ n` and a
threshold `tau`, `slide_window2` returns the masked copy of the naive definition in
which the identity is the quotient as the code computes it, the share of matching
positions rounded to the nearest `double`: the output has length `n`, and position
`i` holds `'N'` when the rounded share of matching positions in `[i, min(i + k, n))`
is below the threshold and `a[i]` otherwise; in the tail the window is the remaining
suffix. -/
theorem slide_window2_eq_naive (a b newstr1 : List Char) (k : Nat) (tau : ℚ)
    (hlen : a.length = b.length) (hk1 : 1 ≤ k) (hk2 : k ≤ a.length) :
    slide_window2 a b newstr1 (k : Int) tau = .ok (naive_slide_window a b k tau) ∧
    (naive_slide_window a b k tau).length = a.length ∧
    ∀ (i : Nat) (c : Char), a[i]? = some c →
      (naive_slide_window a b k tau)[i]? =
        some (if round_double (((match_count a b i (min (i + k) a.length - i) : Nat) : ℚ) /
            ((min (i + k) a.length - i : Nat) : ℚ)) < tau then 'N' else c) := by
  refine ⟨slide_window2_rolling a b newstr1 k tau hlen hk1 hk2,
    naive_slide_window_length a b k tau, ?_⟩
  intro i c hc
  obtain ⟨hi, rfl⟩ := List.getElem?_eq_some_iff.mp hc
  rw [naive_slide_window_getElem? a b k tau i hi]
  rfl

/-- Witness of C18: `ACGTACGT` against `ACCTACGA`, window width 3, threshold
`0.625`, which is the `double` `5/8`; the result is `ACGTACNN`. -/
theorem slide_window2_eq_naive_witness :
    (slide_window2 ['A', 'C', 'G', 'T', 'A', 'C', 'G', 'T'] ['A', 'C', 'C', 'T', 'A', 'C', 'G', 'A']
        [] ((3 : Nat) : Int) (5 / 8)
      = .ok (naive_slide_window ['A', 'C', 'G', 'T', 'A', 'C', 'G', 'T']
          ['A', 'C', 'C', 'T', 'A', 'C', 'G', 'A'] 3 (5 / 8)) ∧
    (naive_slide_window ['A', 'C', 'G', 'T', 'A', 'C', 'G', 'T']
        ['A', 'C', 'C', 'T', 'A', 'C', 'G', 'A'] 3 (5 / 8)).length =
      (['A', 'C', 'G', 'T', 'A', 'C', 'G', 'T'] : List Char).length ∧
    ∀ (i : Nat) (c : Char), (['A', 'C', 'G', 'T', 'A', 'C', 'G', 'T'] : List Char)[i]? = some c →
      (naive_slide_window ['A', 'C', 'G', 'T', 'A', 'C', 'G', 'T']
          ['A', 'C', 'C', 'T', 'A', 'C', 'G', 'A'] 3 (5 / 8))[i]? =
        some (if round_double (((match_count ['A', 'C', 'G', 'T', 'A', 'C', 'G', 'T']
            ['A', 'C', 'C', 'T', 'A', 'C', 'G', 'A'] i
            (min (i + 3) (['A', 'C', 'G', 'T', 'A', 'C', 'G', 'T'] : List Char).length - i) :
              Nat) : ℚ) /
            ((min (i + 3) (['A', 'C', 'G', 'T', 'A', 'C', 'G', 'T'] : List Char).length - i :
              Nat) : ℚ)) < 5 / 8 then 'N' else c)) ∧
    naive_slide_window ['A', 'C', 'G', 'T', 'A', 'C', 'G', 'T']
        ['A', 'C', 'C', 'T', 'A', 'C', 'G', 'A'] 3 (5 / 8)
      = ['A', 'C', 'G', 'T', 'A', 'C', 'N', 'N'] :=
  ⟨slide_window2_eq_naive ['A', 'C', 'G', 'T', 'A', 'C', 'G', 'T']
    ['A', 'C', 'C', 'T', 'A', 'C', 'G', 'A'] [] 3 (5 / 8) (by decide) (by decide) (by decide),
    by
      simp only [naive_slide_window, List.length_cons, List.length_nil, List.range,
        List.range.loop, List.zipWith, naive_char]
      norm_num [match_count, (by decide : ('G' : Char) ≠ 'C'), (by decide : ('T' : Char) ≠ 'A'),
        round_double_zero, round_double_one, round_double_half, round_double_two_thirds]⟩

/-- Counterexample to C18 as stated, with the identity compared exactly: the
threshold is the `double` nearest to `0.8`, the strings are `ACGTA` and `ACGTC`
and the window width is 5. The only full window holds 4 matches of 5; their exact
share `4/5` is below the threshold, but the quotient computed in `double` is the
threshold itself, so `slide_window2` leaves position 0 unmasked and returns `ANNNN`
where the exact rule gives `NNNNN`. -/
theorem slide_window2_exact_counterexample :
    round_double (8 / 10) = 3602879701896397 / 4503599627370496 ∧
    slide_window2 ['A', 'C', 'G', 'T', 'A'] ['A', 'C', 'G', 'T', 'C'] [] 5
        (3602879701896397 / 4503599627370496) = .ok ['A', 'N', 'N', 'N', 'N'] ∧
    naive_slide_window_exact ['A', 'C', 'G', 'T', 'A'] ['A', 'C', 'G', 'T', 'C'] 5
        (3602879701896397 / 4503599627370496) = ['N', 'N', 'N', 'N', 'N'] := by
  refine ⟨?_, ?_, ?_⟩
  · have h : (8 / 10 : ℚ) = 4 / 5 := by norm_num
    rw [h, round_double_four_fifths]
  · have h := slide_window2_rolling ['A', 'C', 'G', 'T', 'A'] ['A', 'C', 'G', 'T', 'C'] [] 5
      (3602879701896397 / 4503599627370496) (by decide) (by decide) (by decide)
    have h5 : ((5 : Nat) : Int) = 5 := rfl
    rw [h5] at h
    rw [h]
    simp only [naive_slide_window, List.length_cons, List.length_nil, List.range,
      List.range.loop, List.zipWith, naive_char]
    norm_num [match_count, (by decide : ('A' : Char) ≠ 'C'), round_double_zero,
      round_double_half, round_double_two_thirds, round_double_three_quarters,
      round_double_four_fifths]
  · simp only [naive_slide_window_exact, List.length_cons, List.length_nil, List.range,
      List.range.loop, List.zipWith, naive_char_exact]
    norm_num [match_count, (by decide : ('A' : Char) ≠ 'C')]

end LCAT
